import Mathlib

/-!
Verification development for the site-capture crawler (`capture.mjs` and its
variants).  The JavaScript sources are shallowly embedded: URL handling follows
the WHATWG URL parser restricted to the ASCII grammar the crawler exercises
(tab/newline stripping, C0-control/space trimming and percent-encoding, scheme
and host lowercasing, dot-segment removal for special schemes, fragment
handling); the admission policies, robots.txt interpretation, retry loop, save
path construction and the crawl loops are translated function by function.
-/

namespace SiteCapture

/-! ### Character utilities -/

/-- Table of ASCII uppercase letters and their lowercase forms. -/
def upLowTable : List (Char × Char) :=
  [('A','a'),('B','b'),('C','c'),('D','d'),('E','e'),('F','f'),('G','g'),
   ('H','h'),('I','i'),('J','j'),('K','k'),('L','l'),('M','m'),('N','n'),
   ('O','o'),('P','p'),('Q','q'),('R','r'),('S','s'),('T','t'),('U','u'),
   ('V','v'),('W','w'),('X','x'),('Y','y'),('Z','z')]

/-- ASCII lowercasing of a single character (as applied by the URL machinery
to schemes and hosts, and by `toLowerCase` in the JavaScript sources). -/
def lowerC (c : Char) : Char :=
  match upLowTable.find? (fun p => p.1 = c) with
  | some p => p.2
  | none => c

theorem lowerC_idem (c : Char) : lowerC (lowerC c) = lowerC c := by
  cases hf : upLowTable.find? (fun p => p.1 = c) with
  | none =>
    have h : lowerC c = c := by simp [lowerC, hf]
    rw [h]
    exact h
  | some p =>
    have h : lowerC c = p.2 := by simp [lowerC, hf]
    rw [h]
    have hp := List.mem_of_find?_eq_some hf
    fin_cases hp <;> decide

/-- ASCII lowercasing of a string. -/
def lowerS (s : String) : String := String.mk (s.data.map lowerC)

def isAlphaC (c : Char) : Bool :=
  (decide ('a' ≤ c) && decide (c ≤ 'z')) || (decide ('A' ≤ c) && decide (c ≤ 'Z'))

def isDigitC (c : Char) : Bool := decide ('0' ≤ c) && decide (c ≤ '9')

/-- Characters allowed in a URL scheme after the first (alphabetic) one. -/
def isSchemeChar (c : Char) : Bool :=
  isAlphaC c || isDigitC c || c == '+' || c == '-' || c == '.'

/-- Characters the embedded host validator accepts: ASCII domains with an
optional `:port`.  Hosts containing forbidden host code points (`/ ? # @ \`
space, …) are rejected, as by the WHATWG host parser. -/
def isHostChar (c : Char) : Bool :=
  isAlphaC c || isDigitC c || c == '.' || c == '-' || c == '_' || c == ':'

theorem lowerC_of_table {c d : Char} (h : (c, d) ∈ upLowTable) : lowerC c = d := by
  fin_cases h <;> decide

theorem isHostChar_lowerC {c : Char} (h : isHostChar c = true) :
    isHostChar (lowerC c) = true := by
  cases hf : upLowTable.find? (fun p => p.1 = c) with
  | none =>
    have hl : lowerC c = c := by simp [lowerC, hf]
    rw [hl]
    exact h
  | some p =>
    have hl : lowerC c = p.2 := by simp [lowerC, hf]
    rw [hl]
    have hp := List.mem_of_find?_eq_some hf
    fin_cases hp <;> decide

theorem isSchemeChar_lowerC {c : Char} (h : isSchemeChar c = true) :
    isSchemeChar (lowerC c) = true := by
  cases hf : upLowTable.find? (fun p => p.1 = c) with
  | none =>
    have hl : lowerC c = c := by simp [lowerC, hf]
    rw [hl]
    exact h
  | some p =>
    have hl : lowerC c = p.2 := by simp [lowerC, hf]
    rw [hl]
    have hp := List.mem_of_find?_eq_some hf
    fin_cases hp <;> decide

theorem isAlphaC_lowerC {c : Char} (h : isAlphaC c = true) :
    isAlphaC (lowerC c) = true := by
  cases hf : upLowTable.find? (fun p => p.1 = c) with
  | none =>
    have hl : lowerC c = c := by simp [lowerC, hf]
    rw [hl]
    exact h
  | some p =>
    have hl : lowerC c = p.2 := by simp [lowerC, hf]
    rw [hl]
    have hp := List.mem_of_find?_eq_some hf
    fin_cases hp <;> decide

/-- A character that survives URL preprocessing verbatim: not a C0 control,
not space, not DEL. -/
def printable (c : Char) : Bool := decide (32 < c.toNat ∧ c.toNat ≠ 127)

theorem printable_lowerC {c : Char} (h : printable c = true) :
    printable (lowerC c) = true := by
  cases hf : upLowTable.find? (fun p => p.1 = c) with
  | none =>
    have hl : lowerC c = c := by simp [lowerC, hf]
    rw [hl]
    exact h
  | some p =>
    have hl : lowerC c = p.2 := by simp [lowerC, hf]
    rw [hl]
    have hp := List.mem_of_find?_eq_some hf
    fin_cases hp <;> decide

/-! ### List utilities -/

/-- Split a character list at every occurrence of `sep` (the separator is
dropped; `n` separators yield `n+1` chunks). -/
def splitOnChar (sep : Char) : List Char → List (List Char)
  | [] => [[]]
  | c :: cs =>
    let r := splitOnChar sep cs
    if c = sep then [] :: r
    else
      match r with
      | [] => [[c]]
      | s :: rest => (c :: s) :: rest

/-- Join chunks with a separating character (inverse of `splitOnChar`). -/
def intercalateChar (sep : Char) : List (List Char) → List Char
  | [] => []
  | [s] => s
  | s :: rest => s ++ sep :: intercalateChar sep rest

theorem splitOnChar_ne_nil (sep : Char) (l : List Char) : splitOnChar sep l ≠ [] := by
  induction l with
  | nil => simp [splitOnChar]
  | cons c cs ih =>
    simp only [splitOnChar]
    split
    · simp
    · cases h : splitOnChar sep cs with
      | nil => simp
      | cons s rest => simp

theorem mem_splitOnChar_not_sep (sep : Char) (l : List Char) :
    ∀ s ∈ splitOnChar sep l, sep ∉ s := by
  induction l with
  | nil => intro s hs; simp [splitOnChar] at hs; simp [hs]
  | cons c cs ih =>
    intro s hs
    simp only [splitOnChar] at hs
    by_cases hc : c = sep
    · simp [hc] at hs
      rcases hs with h | h
      · simp [h]
      · exact ih s h
    · simp [hc] at hs
      cases h : splitOnChar sep cs with
      | nil => exact absurd h (splitOnChar_ne_nil sep cs)
      | cons t rest =>
        rw [h] at hs
        rcases List.mem_cons.mp hs with h1 | h1
        · subst h1
          intro hmem
          rcases List.mem_cons.mp hmem with h2 | h2
          · exact hc h2.symm
          · exact ih t (by simp [h]) h2
        · exact ih s (by simp [h, h1])

theorem splitOnChar_intercalateChar (sep : Char) (segs : List (List Char))
    (hne : segs ≠ []) (hsep : ∀ s ∈ segs, sep ∉ s) :
    splitOnChar sep (intercalateChar sep segs) = segs := by
  induction segs with
  | nil => exact absurd rfl hne
  | cons s rest ih =>
    cases rest with
    | nil =>
      -- single chunk: splitting a sep-free list returns it unchanged
      simp only [intercalateChar]
      have hs := hsep s (by simp)
      clear ih hne hsep
      induction s with
      | nil => simp [splitOnChar]
      | cons c cs ihs =>
        have hc : c ≠ sep := fun h => hs (by simp [h])
        have hcs : sep ∉ cs := fun h => hs (by simp [h])
        simp only [splitOnChar, if_neg hc, ihs hcs]
    | cons t rest2 =>
      have hrest : splitOnChar sep (intercalateChar sep (t :: rest2)) = t :: rest2 :=
        ih (by simp) (fun x hx => hsep x (by simp [hx]))
      have hs := hsep s (by simp)
      simp only [intercalateChar]
      -- now split over s ++ sep :: tail
      clear ih hne hsep
      induction s with
      | nil => simp [splitOnChar, hrest]
      | cons c cs ihs =>
        have hc : c ≠ sep := fun h => hs (by simp [h])
        have hcs : sep ∉ cs := fun h => hs (by simp [h])
        have hsplit := ihs hcs
        simp only [List.cons_append, splitOnChar, if_neg hc]
        rw [List.append_eq, hsplit]

theorem mem_intercalateChar (sep : Char) (segs : List (List Char)) :
    ∀ c ∈ intercalateChar sep segs, c = sep ∨ ∃ s ∈ segs, c ∈ s := by
  induction segs with
  | nil => intro c hc; simp [intercalateChar] at hc
  | cons s rest ih =>
    intro c hc
    cases rest with
    | nil =>
      simp only [intercalateChar] at hc
      exact Or.inr ⟨s, by simp, hc⟩
    | cons t rest2 =>
      simp only [intercalateChar] at hc
      rcases List.mem_append.mp hc with h | h
      · exact Or.inr ⟨s, by simp, h⟩
      · rcases List.mem_cons.mp h with h1 | h1
        · exact Or.inl h1
        · rcases ih c h1 with h2 | ⟨u, hu, hcu⟩
          · exact Or.inl h2
          · exact Or.inr ⟨u, by simp [hu], hcu⟩

theorem mem_splitOnChar_subset (sep : Char) (l : List Char) :
    ∀ s ∈ splitOnChar sep l, ∀ c ∈ s, c ∈ l := by
  induction l with
  | nil => intro s hs c hc; simp [splitOnChar] at hs; simp [hs] at hc
  | cons x xs ih =>
    intro s hs c hc
    simp only [splitOnChar] at hs
    by_cases hx : x = sep
    · simp [hx] at hs
      rcases hs with h | h
      · simp [h] at hc
      · exact List.mem_cons_of_mem _ (ih s h c hc)
    · simp [hx] at hs
      cases h : splitOnChar sep xs with
      | nil => exact absurd h (splitOnChar_ne_nil sep xs)
      | cons t rest =>
        rw [h] at hs
        rcases List.mem_cons.mp hs with h1 | h1
        · subst h1
          rcases List.mem_cons.mp hc with h2 | h2
          · simp [h2]
          · exact List.mem_cons_of_mem _ (ih t (by simp [h]) c h2)
        · exact List.mem_cons_of_mem _ (ih s (by simp [h, h1]) c hc)

/-! ### URL input preprocessing

The WHATWG parser removes every tab/newline from the input, trims leading and
trailing C0-control-or-space characters, and percent-encodes C0 controls and
DEL in the components it keeps.  `pre` performs these steps; its output
consists of `printable` characters only. -/

def isTNR (c : Char) : Bool := c == (Char.ofNat 9) || c == (Char.ofNat 10) || c == (Char.ofNat 13)

def isC0OrSpace (c : Char) : Bool := decide (c.toNat ≤ 32)

def hexDigitC (n : Nat) : Char :=
  (("0123456789ABCDEF").data.getD n '0')

/-- Percent-encode a character the serializer may not emit verbatim. -/
def encChar (c : Char) : List Char :=
  if c.toNat ≤ 32 || c.toNat == 127 then
    ['%', hexDigitC (c.toNat / 16), hexDigitC (c.toNat % 16)]
  else [c]

/-- Preprocess a raw URL string: strip tab/newline, trim C0/space at both
ends, percent-encode remaining C0 controls and DEL. -/
def pre (s : String) : List Char :=
  List.flatten
    (((((s.data.filter (fun c => !(isTNR c))).dropWhile isC0OrSpace).reverse.dropWhile
        isC0OrSpace).reverse).map encChar)

theorem printable_hexDigitC (n : Nat) (h : n < 16) : printable (hexDigitC n) = true := by
  interval_cases n <;> decide

theorem mem_encChar_printable (c : Char) : ∀ d ∈ encChar c, printable d = true := by
  intro d hd
  unfold encChar at hd
  split at hd
  case isTrue hcond =>
    have hle : c.toNat ≤ 127 := by
      rcases Bool.or_eq_true_iff.mp hcond with h2 | h2
      · simp only [decide_eq_true_eq] at h2; omega
      · simp only [beq_iff_eq] at h2; omega
    have h16a : c.toNat / 16 < 16 := by omega
    have h16b : c.toNat % 16 < 16 := Nat.mod_lt _ (by omega)
    simp only [List.mem_cons, List.not_mem_nil, or_false] at hd
    rcases hd with rfl | rfl | rfl
    · decide
    · exact printable_hexDigitC _ h16a
    · exact printable_hexDigitC _ h16b
  case isFalse hcond =>
    simp only [List.mem_cons, List.not_mem_nil, or_false] at hd
    subst hd
    simp only [Bool.or_eq_true, decide_eq_true_eq, beq_iff_eq] at hcond
    push_neg at hcond
    unfold printable
    simp only [decide_eq_true_eq, ne_eq]
    exact ⟨by omega, by omega⟩

theorem pre_printable (s : String) : ∀ c ∈ pre s, printable c = true := by
  intro c hc
  unfold pre at hc
  rcases List.mem_flatten.mp hc with ⟨l2, hl2, hcl2⟩
  rcases List.mem_map.mp hl2 with ⟨d, hdmem, hd⟩
  subst hd
  exact mem_encChar_printable d c hcl2

theorem isTNR_eq_false_of_printable {c : Char} (h : printable c = true) : isTNR c = false := by
  unfold printable at h
  simp only [decide_eq_true_eq, ne_eq] at h
  have h32 := h.1
  unfold isTNR
  simp only [Bool.or_eq_false_iff, beq_eq_false_iff_ne, ne_eq]
  refine ⟨⟨?_, ?_⟩, ?_⟩ <;> · intro hh; subst hh; exact absurd h32 (by decide)

theorem isC0OrSpace_eq_false_of_printable {c : Char} (h : printable c = true) :
    isC0OrSpace c = false := by
  unfold printable at h
  simp only [decide_eq_true_eq, ne_eq] at h
  unfold isC0OrSpace
  simp only [decide_eq_false_iff_not]
  omega

theorem encChar_of_printable {c : Char} (h : printable c = true) : encChar c = [c] := by
  unfold printable at h
  simp only [decide_eq_true_eq, ne_eq] at h
  have hcond : (decide (c.toNat ≤ 32) || c.toNat == 127) = false := by
    simp only [Bool.or_eq_false_iff, decide_eq_false_iff_not, beq_eq_false_iff_ne, ne_eq]
    exact ⟨by omega, by omega⟩
  unfold encChar
  rw [hcond]
  rfl

theorem dropWhile_of_head_neg {p : Char → Bool} : ∀ (l : List Char),
    (∀ c ∈ l, p c = false) → l.dropWhile p = l := by
  intro l h
  cases l with
  | nil => rfl
  | cons x xs => simp [List.dropWhile_cons, h x (by simp)]

theorem flatten_map_encChar (l : List Char) (h : ∀ c ∈ l, printable c = true) :
    List.flatten (l.map encChar) = l := by
  induction l with
  | nil => rfl
  | cons x xs ih =>
    simp only [List.map_cons, List.flatten_cons, encChar_of_printable (h x (by simp))]
    rw [ih (fun c hc => h c (by simp [hc]))]
    rfl

/-- Preprocessing is the identity on strings of printable characters: this is
what makes re-parsing a serialized URL stable. -/
theorem pre_of_printable (s : String) (h : ∀ c ∈ s.data, printable c = true) :
    pre s = s.data := by
  unfold pre
  rw [List.filter_eq_self.mpr (fun c hc => by simp [isTNR_eq_false_of_printable (h c hc)])]
  rw [dropWhile_of_head_neg _ (fun c hc => isC0OrSpace_eq_false_of_printable (h c hc))]
  rw [dropWhile_of_head_neg _
    (fun c hc => isC0OrSpace_eq_false_of_printable (h c (by simpa using hc)))]
  rw [List.reverse_reverse]
  exact flatten_map_encChar _ h

/-! ### Dot-segment removal (WHATWG path state) -/

def isSingleDotSeg (s : List Char) : Bool :=
  s.map lowerC == ['.'] || s.map lowerC == ['%','2','e']

def isDoubleDotSeg (s : List Char) : Bool :=
  s.map lowerC == ['.','.'] || s.map lowerC == ['.','%','2','e'] ||
  s.map lowerC == ['%','2','e','.'] || s.map lowerC == ['%','2','e','%','2','e']

def isDotLike (s : List Char) : Bool := isSingleDotSeg s || isDoubleDotSeg s

/-- Core of the WHATWG path-state segment processing: `acc` holds the output
segments built so far, in reverse order.  A double-dot segment pops the last
output segment, a single-dot segment is dropped, and a trailing dot segment
leaves a trailing empty segment (hence a trailing slash). -/
def normSegsGo (acc : List (List Char)) : List (List Char) → List (List Char)
  | [] => acc.reverse
  | [s] =>
    if isDoubleDotSeg s then (acc.drop 1).reverse ++ [[]]
    else if isSingleDotSeg s then acc.reverse ++ [[]]
    else acc.reverse ++ [s]
  | s :: s2 :: rest =>
    if isDoubleDotSeg s then normSegsGo (acc.drop 1) (s2 :: rest)
    else if isSingleDotSeg s then normSegsGo acc (s2 :: rest)
    else normSegsGo (s :: acc) (s2 :: rest)

def normSegs (segs : List (List Char)) : List (List Char) := normSegsGo [] segs

/-- Remove dot segments from a raw path, which is empty or starts with `/`
(an empty path serializes as `/`, as in the special-scheme parser). -/
def normPath (p : List Char) : List Char :=
  match p with
  | [] => ['/']
  | '/' :: rest => '/' :: intercalateChar '/' (normSegs (splitOnChar '/' rest))
  | _ => p

theorem normSegsGo_ne_nil (acc : List (List Char)) (segs : List (List Char))
    (h : segs ≠ []) : normSegsGo acc segs ≠ [] := by
  induction segs generalizing acc with
  | nil => exact absurd rfl h
  | cons s rest ih =>
    cases rest with
    | nil =>
      simp only [normSegsGo]
      split
      · simp
      · split <;> simp
    | cons s2 rest2 =>
      simp only [normSegsGo]
      split
      · exact ih _ (by simp)
      · split
        · exact ih _ (by simp)
        · exact ih _ (by simp)

theorem mem_normSegsGo (acc : List (List Char)) (segs : List (List Char)) :
    ∀ t ∈ normSegsGo acc segs, t ∈ acc ∨ t ∈ segs ∨ t = [] := by
  induction segs generalizing acc with
  | nil =>
    intro t ht
    simp only [normSegsGo] at ht
    exact Or.inl (by simpa using ht)
  | cons s rest ih =>
    intro t ht
    cases rest with
    | nil =>
      simp only [normSegsGo] at ht
      split at ht
      · rcases List.mem_append.mp ht with h | h
        · exact Or.inl (List.mem_of_mem_drop (List.mem_reverse.mp h))
        · simp at h
          exact Or.inr (Or.inr h)
      · split at ht
        · rcases List.mem_append.mp ht with h | h
          · exact Or.inl (by simpa using h)
          · simp at h
            exact Or.inr (Or.inr h)
        · rcases List.mem_append.mp ht with h | h
          · exact Or.inl (by simpa using h)
          · simp at h
            exact Or.inr (Or.inl (by simp [h]))
    | cons s2 rest2 =>
      simp only [normSegsGo] at ht
      split at ht
      · rcases ih _ t ht with h | h | h
        · exact Or.inl (List.mem_of_mem_drop h)
        · exact Or.inr (Or.inl (by simp [h]))
        · exact Or.inr (Or.inr h)
      · split at ht
        · rcases ih _ t ht with h | h | h
          · exact Or.inl h
          · exact Or.inr (Or.inl (by simp [h]))
          · exact Or.inr (Or.inr h)
        · rcases ih _ t ht with h | h | h
          · rcases List.mem_cons.mp h with h1 | h1
            · exact Or.inr (Or.inl (by simp [h1]))
            · exact Or.inl h1
          · exact Or.inr (Or.inl (by simp [h]))
          · exact Or.inr (Or.inr h)

theorem normSegsGo_nodot (acc : List (List Char)) (segs : List (List Char))
    (hacc : ∀ a ∈ acc, isDotLike a = false) :
    ∀ t ∈ normSegsGo acc segs, isDotLike t = false := by
  induction segs generalizing acc with
  | nil =>
    intro t ht
    simp only [normSegsGo] at ht
    exact hacc t (by simpa using ht)
  | cons s rest ih =>
    intro t ht
    cases rest with
    | nil =>
      simp only [normSegsGo] at ht
      have hnil : isDotLike ([] : List Char) = false := by decide
      split at ht
      · rcases List.mem_append.mp ht with h | h
        · exact hacc t (List.mem_of_mem_drop (List.mem_reverse.mp h))
        · simp at h; simp [h, hnil]
      · split at ht
        next hdd hsd =>
          rcases List.mem_append.mp ht with h | h
          · exact hacc t (by simpa using h)
          · simp at h; simp [h, hnil]
        next hdd hsd =>
          rcases List.mem_append.mp ht with h | h
          · exact hacc t (by simpa using h)
          · simp at h
            subst h
            simp [isDotLike, hdd, hsd]
    | cons s2 rest2 =>
      simp only [normSegsGo] at ht
      split at ht
      · exact ih _ (fun a ha => hacc a (List.mem_of_mem_drop ha)) t ht
      · split at ht
        next hdd hsd =>
          exact ih _ hacc t ht
        next hdd hsd =>
          refine ih _ ?_ t ht
          intro a ha
          rcases List.mem_cons.mp ha with h1 | h1
          · subst h1; simp [isDotLike, hdd, hsd]
          · exact hacc a h1

theorem normSegsGo_of_nodot (acc : List (List Char)) (segs : List (List Char))
    (h : ∀ s ∈ segs, isDotLike s = false) :
    normSegsGo acc segs = acc.reverse ++ segs := by
  induction segs generalizing acc with
  | nil => simp [normSegsGo]
  | cons s rest ih =>
    have hs : isDotLike s = false := h s (by simp)
    have hdd : isDoubleDotSeg s = false := by
      rcases Bool.or_eq_false_iff.mp hs with ⟨h1, h2⟩
      exact h2
    have hsd : isSingleDotSeg s = false := by
      rcases Bool.or_eq_false_iff.mp hs with ⟨h1, h2⟩
      exact h1
    cases rest with
    | nil => simp [normSegsGo, hdd, hsd]
    | cons s2 rest2 =>
      simp only [normSegsGo, hdd, hsd, if_false]
      rw [ih (s :: acc) (fun x hx => h x (by simp [hx]))]
      simp

theorem normSegs_of_nodot (segs : List (List Char))
    (h : ∀ s ∈ segs, isDotLike s = false) : normSegs segs = segs := by
  unfold normSegs
  rw [normSegsGo_of_nodot _ _ h]
  rfl

/-- Structure of a normalized path: a slash followed by slash-joined segments,
none of which is a dot segment or contains a slash, and all of whose
characters come from the input (or are slashes). -/
theorem normPath_shape (p : List Char) (h : p = [] ∨ ∃ t, p = '/' :: t) :
    ∃ segs, normPath p = '/' :: intercalateChar '/' segs ∧ segs ≠ [] ∧
      (∀ s ∈ segs, isDotLike s = false) ∧ (∀ s ∈ segs, '/' ∉ s) ∧
      (∀ s ∈ segs, ∀ c ∈ s, c ∈ p) := by
  rcases h with h | ⟨t, h⟩
  · subst h
    refine ⟨[[]], by decide, by simp, ?_, ?_, ?_⟩ <;> intro s hs <;> simp at hs <;> simp [hs]
    decide
  · subst h
    refine ⟨normSegs (splitOnChar '/' t), rfl, ?_, ?_, ?_, ?_⟩
    · exact normSegsGo_ne_nil [] _ (splitOnChar_ne_nil '/' t)
    · exact normSegsGo_nodot [] _ (by simp)
    · intro s hs
      rcases mem_normSegsGo [] _ s hs with h1 | h1 | h1
      · simp at h1
      · exact mem_splitOnChar_not_sep '/' t s h1
      · simp [h1]
    · intro s hs c hc
      rcases mem_normSegsGo [] _ s hs with h1 | h1 | h1
      · simp at h1
      · exact List.mem_cons_of_mem _ (mem_splitOnChar_subset '/' t s h1 c hc)
      · simp [h1] at hc

/-- Dot-segment removal is idempotent on slash-led paths. -/
theorem normPath_norm (p : List Char) (h : p = [] ∨ ∃ t, p = '/' :: t) :
    normPath (normPath p) = normPath p := by
  obtain ⟨segs, heq, hne, hnodot, hnosl, _⟩ := normPath_shape p h
  rw [heq]
  show '/' :: intercalateChar '/' (normSegs (splitOnChar '/' (intercalateChar '/' segs)))
      = '/' :: intercalateChar '/' segs
  rw [splitOnChar_intercalateChar '/' segs hne hnosl, normSegs_of_nodot segs hnodot]

theorem mem_normPath (p : List Char) (h : p = [] ∨ ∃ t, p = '/' :: t) :
    ∀ c ∈ normPath p, c = '/' ∨ c ∈ p := by
  obtain ⟨segs, hseq, _, _, _, hchars⟩ := normPath_shape p h
  intro c hc
  rw [hseq] at hc
  rcases List.mem_cons.mp hc with h1 | h1
  · exact Or.inl h1
  · rcases mem_intercalateChar '/' segs c h1 with h2 | ⟨s, hs, hcs⟩
    · exact Or.inl h2
    · exact Or.inr (hchars s hs c hcs)

/-! ### URL records, parser and serializer

The embedded parser covers the grammar the crawler exercises: `http(s)://`
URLs with an ASCII host (optionally `:port`), path, query and fragment, plus
opaque-path URLs for other schemes (`mailto:`, `javascript:`, …).  Userinfo
(`@`), IPv6 bracket hosts and non-ASCII hosts are rejected rather than
modelled. -/

structure URLRec where
  protocol : String
  host : String
  pathname : String
  search : String
  hash : String
deriving Repr, DecidableEq

def isSpecialProto (p : String) : Bool := p == "http:" || p == "https:"

def schemeOkChars (sch : List Char) : Bool :=
  match sch with
  | [] => false
  | c :: _ => isAlphaC c && sch.all isSchemeChar

/-- Split `rest` (what follows the path) into search and hash components. -/
def splitSearchHash (rest : List Char) : List Char × List Char :=
  match rest with
  | '?' :: t =>
    ('?' :: t.takeWhile (fun c => !(c == '#')), t.dropWhile (fun c => !(c == '#')))
  | _ => ([], rest)

def isAuthEnd (c : Char) : Bool := c == '/' || c == '?' || c == '#'

def isPathEnd (c : Char) : Bool := c == '?' || c == '#'

/-- Parse the authority, path, search and hash of a special-scheme URL
(`rest` is what follows `scheme://`). -/
def parseHostPath (proto : String) (rest : List Char) : Option URLRec :=
  let auth := rest.takeWhile (fun c => !(isAuthEnd c))
  let rest2 := rest.dropWhile (fun c => !(isAuthEnd c))
  if auth = [] then none
  else if auth.all isHostChar then
    let pathRaw := rest2.takeWhile (fun c => !(isPathEnd c))
    let rest3 := rest2.dropWhile (fun c => !(isPathEnd c))
    let sh := splitSearchHash rest3
    some ⟨proto, String.mk (auth.map lowerC), String.mk (normPath pathRaw),
      String.mk sh.1, String.mk sh.2⟩
  else none

/-- Split a scheme off the input: the characters before the first `:`,
validated and lowercased. -/
def schemeSplit (cs : List Char) : Option (List Char × List Char) :=
  let sch := cs.takeWhile (fun c => !(c == ':'))
  match cs.dropWhile (fun c => !(c == ':')) with
  | c :: rest2 =>
    if c == ':' && schemeOkChars sch then some (sch.map lowerC, rest2) else none
  | [] => none

/-- Parse an absolute URL.  Special schemes require `//` and an authority;
any other scheme takes an opaque path. -/
def parseAbsolute (cs : List Char) : Option URLRec :=
  match schemeSplit cs with
  | none => none
  | some (sch, rest) =>
    let proto := String.mk (sch ++ [':'])
    if isSpecialProto proto then
      match rest with
      | '/' :: '/' :: rest2 => parseHostPath proto rest2
      | _ => none
    else
      let pathRaw := rest.takeWhile (fun c => !(isPathEnd c))
      let rest3 := rest.dropWhile (fun c => !(isPathEnd c))
      let sh := splitSearchHash rest3
      some ⟨proto, "", String.mk pathRaw, String.mk sh.1, String.mk sh.2⟩

/-- The directory part of a path: everything up to and including the last
slash. -/
def dirOf (p : List Char) : List Char :=
  (p.reverse.dropWhile (fun c => !(c == '/'))).reverse

/-- Resolve a relative reference against a parsed base. -/
def resolveRel (b : URLRec) (cs : List Char) : Option URLRec :=
  match cs with
  | [] => some { b with hash := "" }
  | '#' :: t => some { b with hash := String.mk ('#' :: t) }
  | _ =>
    if isSpecialProto b.protocol then
      match cs with
      | '/' :: '/' :: rest2 => parseHostPath b.protocol rest2
      | '?' :: t =>
        some { b with search := String.mk ('?' :: t.takeWhile (fun c => !(c == '#'))),
                      hash := String.mk (t.dropWhile (fun c => !(c == '#'))) }
      | '/' :: _ =>
        let pathRaw := cs.takeWhile (fun c => !(isPathEnd c))
        let rest3 := cs.dropWhile (fun c => !(isPathEnd c))
        let sh := splitSearchHash rest3
        some { b with pathname := String.mk (normPath pathRaw),
                      search := String.mk sh.1, hash := String.mk sh.2 }
      | _ =>
        let pathRaw := cs.takeWhile (fun c => !(isPathEnd c))
        let rest3 := cs.dropWhile (fun c => !(isPathEnd c))
        let merged := dirOf b.pathname.data ++ pathRaw
        let sh := splitSearchHash rest3
        some { b with pathname := String.mk (normPath merged),
                      search := String.mk sh.1, hash := String.mk sh.2 }
    else none

/-- `URL#toString` (the href serializer). -/
def serializeURL (r : URLRec) : String :=
  if isSpecialProto r.protocol then
    r.protocol ++ "//" ++ r.host ++ r.pathname ++ r.search ++ r.hash
  else
    r.protocol ++ r.pathname ++ r.search ++ r.hash

/-- `.replace(/#.*$/,"")` applied to a serialized URL: serialized URLs contain
no newline, so this strips everything from the first `#`. -/
def stripHashStr (s : String) : String :=
  String.mk (s.data.takeWhile (fun c => !(c == '#')))

/-- `new URL(u, b)`: the base is parsed first and must be valid; an absolute
input ignores it, otherwise the input is resolved against it. -/
def newURL (u b : String) : Option URLRec :=
  match parseAbsolute (pre b) with
  | none => none
  | some bb =>
    match parseAbsolute (pre u) with
    | some r => some r
    | none => resolveRel bb (pre u)

/-- `new URL(s)` without a base, as used by `shouldVisit` and
`buildSavePath`. -/
def parseURL1 (s : String) : Option URLRec := parseAbsolute (pre s)

/-- `normalizeUrl` from the sources:
`(u,b) => { try { return new URL(u,b).toString().replace(/#.*$/,""); } catch { return null; } }` -/
def normalizeUrl (u b : String) : Option String :=
  (newURL u b).map (fun r => stripHashStr (serializeURL r))

/-! ### Canonical URL records

`Canon r` captures the invariants of parser-produced records; it is what makes
re-parsing a serialized record the identity. -/

theorem takeWhile_split {p : Char → Bool} : ∀ (A B : List Char),
    (∀ c ∈ A, p c = true) → (∀ b t, B = b :: t → p b = false) →
    (A ++ B).takeWhile p = A ∧ (A ++ B).dropWhile p = B := by
  intro A
  induction A with
  | nil =>
    intro B hA hB
    cases B with
    | nil => simp
    | cons b t =>
      have := hB b t rfl
      simp [List.takeWhile_cons, List.dropWhile_cons, this]
  | cons a A ih =>
    intro B hA hB
    have ha : p a = true := hA a (by simp)
    have h12 := ih B (fun c hc => hA c (by simp [hc])) hB
    simp [List.takeWhile_cons, List.dropWhile_cons, ha, h12.1, h12.2]

theorem dropWhile_head_false {p : Char → Bool} : ∀ (l : List Char) (c : Char) (t : List Char),
    l.dropWhile p = c :: t → p c = false := by
  intro l
  induction l with
  | nil => intro c t h; simp at h
  | cons a rest ih =>
    intro c t h
    by_cases ha : p a = true
    · rw [List.dropWhile_cons, if_pos ha] at h
      exact ih c t h
    · rw [List.dropWhile_cons, if_neg ha] at h
      cases h
      simpa using ha

theorem mem_of_mem_takeWhile {p : Char → Bool} {l : List Char} :
    ∀ c ∈ l.takeWhile p, c ∈ l :=
  fun _ hc => (List.takeWhile_sublist p).subset hc

theorem mem_of_mem_dropWhile {p : Char → Bool} {l : List Char} :
    ∀ c ∈ l.dropWhile p, c ∈ l :=
  fun _ hc => (List.dropWhile_sublist p).subset hc

theorem strMk_data (s : String) : String.mk s.data = s := rfl

theorem schemeChar_ne_colon {c : Char} (h : isSchemeChar c = true) : (c == ':') = false := by
  cases hc : c == ':'
  · rfl
  · exact absurd ((beq_iff_eq.mp hc) ▸ h) (by decide)

theorem hostChar_not_authEnd {c : Char} (h : isHostChar c = true) : isAuthEnd c = false := by
  cases hae : isAuthEnd c
  · rfl
  · exfalso
    have h3 : (c = '/' ∨ c = '?') ∨ c = '#' := by
      simpa [isAuthEnd, beq_iff_eq] using hae
    rcases h3 with (rfl | rfl) | rfl <;> exact absurd h (by decide)

theorem isPathEnd_false {c : Char} (h1 : ¬(c = '?')) (h2 : ¬(c = '#')) :
    isPathEnd c = false := by
  simp [isPathEnd, beq_eq_false_iff_ne, h1, h2]

theorem isPathEnd_true_cases {c : Char} (h : isPathEnd c = true) : c = '?' ∨ c = '#' := by
  simpa [isPathEnd, beq_iff_eq] using h

structure Canon (r : URLRec) : Prop where
  proto : ∃ sch, r.protocol.data = sch ++ [':'] ∧ schemeOkChars sch = true ∧
      sch.map lowerC = sch ∧ ∀ c ∈ sch, printable c = true
  special_host : isSpecialProto r.protocol = true →
      r.host.data ≠ [] ∧ r.host.data.all isHostChar = true ∧
      r.host.data.map lowerC = r.host.data ∧ (∀ c ∈ r.host.data, printable c = true) ∧
      (∃ t, r.pathname.data = '/' :: t) ∧ normPath r.pathname.data = r.pathname.data
  other_host : isSpecialProto r.protocol = false → r.host = ""
  path_ok : ∀ c ∈ r.pathname.data, printable c = true ∧ ¬(c = '?') ∧ ¬(c = '#')
  search_ok : r.search.data = [] ∨ ∃ t, r.search.data = '?' :: t ∧
      ∀ c ∈ t, printable c = true ∧ ¬(c = '#')
  hash_ok : r.hash.data = [] ∨ ∃ t, r.hash.data = '#' :: t ∧ ∀ c ∈ t, printable c = true

/-- The record with the fragment removed (what `.replace(/#.*$/,"")` leaves). -/
def noHash (r : URLRec) : URLRec := { r with hash := "" }

theorem canon_noHash {r : URLRec} (h : Canon r) : Canon (noHash r) := by
  refine ⟨h.proto, ?_, h.other_host, h.path_ok, h.search_ok, Or.inl rfl⟩
  intro hs
  exact h.special_host hs

theorem splitSearchHash_canon {r : URLRec} (hc : Canon r) :
    splitSearchHash (r.search.data ++ r.hash.data) = (r.search.data, r.hash.data) := by
  have hHhead : ∀ b tb, r.hash.data = b :: tb → (!(b == '#')) = false := by
    intro b tb hbt
    rcases hc.hash_ok with hh | ⟨t3, hh, _⟩
    · rw [hh] at hbt; cases hbt
    · rw [hh] at hbt
      cases hbt
      decide
  rcases hc.search_ok with hs | ⟨t2, hs, hts⟩
  · rw [hs]
    simp only [List.nil_append]
    rcases hc.hash_ok with hh | ⟨t3, hh, _⟩
    · rw [hh]; rfl
    · rw [hh]
      simp [splitSearchHash]
  · rw [hs]
    simp only [List.cons_append]
    have h2 := takeWhile_split (p := fun c => !(c == '#')) t2 r.hash.data
      (fun c hcm => by
        have h3 := (hts c hcm).2
        simp [h3])
      hHhead
    simp [splitSearchHash, h2.1, h2.2]

theorem parseHostPath_roundtrip {r : URLRec} (hc : Canon r)
    (hsp : isSpecialProto r.protocol = true) :
    parseHostPath r.protocol
      (r.host.data ++ (r.pathname.data ++ (r.search.data ++ r.hash.data))) = some r := by
  obtain ⟨hne, hall, hlow, hprint, ⟨t, hpath⟩, hnorm⟩ := hc.special_host hsp
  have hBeq : r.pathname.data ++ (r.search.data ++ r.hash.data)
      = '/' :: (t ++ (r.search.data ++ r.hash.data)) := by
    rw [hpath]; rfl
  have hauth := takeWhile_split (p := fun c => !(isAuthEnd c)) r.host.data
    (r.pathname.data ++ (r.search.data ++ r.hash.data))
    (fun c hcm => by
      simp [hostChar_not_authEnd (List.all_eq_true.mp hall c hcm)])
    (fun b tb hbt => by
      rw [hBeq] at hbt
      cases hbt
      decide)
  have hSHhead : ∀ b tb, r.search.data ++ r.hash.data = b :: tb → (!(isPathEnd b)) = false := by
    intro b tb hbt
    rcases hc.search_ok with hs | ⟨t2, hs, _⟩
    · rw [hs] at hbt
      simp only [List.nil_append] at hbt
      rcases hc.hash_ok with hh | ⟨t3, hh, _⟩
      · rw [hh] at hbt; cases hbt
      · rw [hh] at hbt
        cases hbt
        decide
    · rw [hs] at hbt
      simp only [List.cons_append] at hbt
      cases hbt
      decide
  have hpsplit := takeWhile_split (p := fun c => !(isPathEnd c)) r.pathname.data
    (r.search.data ++ r.hash.data)
    (fun c hcm => by
      have h3 := hc.path_ok c hcm
      simp [isPathEnd_false h3.2.1 h3.2.2])
    hSHhead
  unfold parseHostPath
  rw [hauth.1, hauth.2, if_neg hne, if_pos hall, hpsplit.1, hpsplit.2]
  simp only [splitSearchHash_canon hc, hnorm, hlow]

theorem schemeOk_all {sch : List Char} (h : schemeOkChars sch = true) :
    ∀ c ∈ sch, isSchemeChar c = true := by
  cases sch with
  | nil => simp [schemeOkChars] at h
  | cons c rest =>
    simp only [schemeOkChars, Bool.and_eq_true] at h
    exact List.all_eq_true.mp h.2

theorem searchHash_head {r : URLRec} (hc : Canon r) :
    ∀ b tb, r.search.data ++ r.hash.data = b :: tb → (!(isPathEnd b)) = false := by
  intro b tb hbt
  rcases hc.search_ok with hs | ⟨t2, hs, _⟩
  · rw [hs] at hbt
    simp only [List.nil_append] at hbt
    rcases hc.hash_ok with hh | ⟨t3, hh, _⟩
    · rw [hh] at hbt; cases hbt
    · rw [hh] at hbt
      cases hbt
      decide
  · rw [hs] at hbt
    simp only [List.cons_append] at hbt
    cases hbt
    decide

theorem serialize_data_special {r : URLRec} (h : isSpecialProto r.protocol = true) :
    (serializeURL r).data = r.protocol.data ++
      ('/' :: '/' :: (r.host.data ++ (r.pathname.data ++ (r.search.data ++ r.hash.data)))) := by
  unfold serializeURL
  rw [if_pos h]
  show (r.protocol.data ++ ['/', '/'] ++ r.host.data ++ r.pathname.data ++ r.search.data
      ++ r.hash.data) = _
  simp [List.append_assoc]

theorem serialize_data_other {r : URLRec} (h : isSpecialProto r.protocol = false) :
    (serializeURL r).data =
      r.protocol.data ++ (r.pathname.data ++ (r.search.data ++ r.hash.data)) := by
  unfold serializeURL
  rw [if_neg (by simp [h])]
  show (r.protocol.data ++ r.pathname.data ++ r.search.data ++ r.hash.data) = _
  simp [List.append_assoc]

theorem schemeSplit_of_canon {r : URLRec} {sch : List Char}
    (hp : r.protocol.data = sch ++ [':']) (hsch : schemeOkChars sch = true)
    (hlow : sch.map lowerC = sch) (REST : List Char) :
    schemeSplit (r.protocol.data ++ REST) = some (sch, REST) := by
  have hsplit := takeWhile_split (p := fun c => !(c == ':')) sch (':' :: REST)
    (fun c hcm => by simp [schemeChar_ne_colon (schemeOk_all hsch c hcm)])
    (fun b tb hbt => by cases hbt; simp)
  unfold schemeSplit
  rw [hp, List.append_assoc]
  simp only [List.singleton_append]
  rw [hsplit.1, hsplit.2]
  simp [hsch, hlow]

/-- Re-parsing a serialized canonical record yields the record back. -/
theorem parse_serialize {r : URLRec} (hc : Canon r) :
    parseAbsolute (serializeURL r).data = some r := by
  obtain ⟨sch, hp, hsch, hlow, hprint⟩ := hc.proto
  have hproto : String.mk (sch ++ [':']) = r.protocol := by
    rw [← hp]
  cases hspec : isSpecialProto r.protocol with
  | true =>
    rw [serialize_data_special hspec]
    unfold parseAbsolute
    rw [schemeSplit_of_canon hp hsch hlow]
    simp only [hproto, hspec, if_true]
    exact parseHostPath_roundtrip hc hspec
  | false =>
    rw [serialize_data_other hspec]
    unfold parseAbsolute
    rw [schemeSplit_of_canon hp hsch hlow]
    have hpsplit := takeWhile_split (p := fun c => !(isPathEnd c)) r.pathname.data
      (r.search.data ++ r.hash.data)
      (fun c hcm => by
        have h3 := hc.path_ok c hcm
        simp [isPathEnd_false h3.2.1 h3.2.2])
      (searchHash_head hc)
    simp only [hproto, hspec, Bool.false_eq_true, if_false]
    rw [hpsplit.1, hpsplit.2]
    simp only [splitSearchHash_canon hc]
    rw [← hc.other_host hspec]

/-! ### The parser produces canonical records -/

def ProtoOk (p : String) : Prop :=
  ∃ sch, p.data = sch ++ [':'] ∧ schemeOkChars sch = true ∧
    sch.map lowerC = sch ∧ ∀ c ∈ sch, printable c = true

theorem map_lowerC_idem (l : List Char) : (l.map lowerC).map lowerC = l.map lowerC := by
  rw [List.map_map]
  apply List.map_congr_left
  intro a _
  exact lowerC_idem a

theorem isPathEnd_false_elim {c : Char} (h : isPathEnd c = false) :
    ¬(c = '?') ∧ ¬(c = '#') := by
  constructor <;> intro hh <;> subst hh <;> simp [isPathEnd] at h

/-- Shape of the `splitSearchHash` outputs, for an input that is empty or
starts with `?` or `#`. -/
theorem splitSearchHash_shape (rest3 : List Char)
    (hshape : rest3 = [] ∨ (∃ t, rest3 = '?' :: t) ∨ (∃ t, rest3 = '#' :: t))
    (hpr : ∀ c ∈ rest3, printable c = true) :
    ((splitSearchHash rest3).1 = [] ∨ ∃ t, (splitSearchHash rest3).1 = '?' :: t ∧
        ∀ c ∈ t, printable c = true ∧ ¬(c = '#')) ∧
    ((splitSearchHash rest3).2 = [] ∨ ∃ t, (splitSearchHash rest3).2 = '#' :: t ∧
        ∀ c ∈ t, printable c = true) := by
  rcases hshape with h | ⟨t, h⟩ | ⟨t, h⟩ <;> subst h
  · exact ⟨Or.inl rfl, Or.inl rfl⟩
  · constructor
    · refine Or.inr ⟨t.takeWhile (fun c => !(c == '#')), by simp [splitSearchHash], ?_⟩
      intro c hcm
      have h1 := List.mem_takeWhile_imp hcm
      refine ⟨hpr c (List.mem_cons_of_mem _ (mem_of_mem_takeWhile c hcm)), ?_⟩
      simpa using h1
    · cases hdw : t.dropWhile (fun c => !(c == '#')) with
      | nil => exact Or.inl (by simp [splitSearchHash, hdw])
      | cons b tb =>
        have hb : (!(b == '#')) = false := dropWhile_head_false t b tb hdw
        have hbeq : b = '#' := by simpa using hb
        subst hbeq
        refine Or.inr ⟨tb, by simp [splitSearchHash, hdw], ?_⟩
        intro c hcm
        have hmem : c ∈ t.dropWhile (fun c2 => !(c2 == '#')) := by
          rw [hdw]
          exact List.mem_cons_of_mem _ hcm
        exact hpr c (List.mem_cons_of_mem _ (mem_of_mem_dropWhile c hmem))
  · constructor
    · exact Or.inl (by simp [splitSearchHash])
    · refine Or.inr ⟨t, by simp [splitSearchHash], ?_⟩
      intro c hcm
      exact hpr c (List.mem_cons_of_mem _ hcm)

theorem dirOf_mem {p : List Char} : ∀ c ∈ dirOf p, c ∈ p := by
  intro c hc
  unfold dirOf at hc
  have h1 := List.mem_reverse.mp hc
  have h2 := mem_of_mem_dropWhile _ h1
  exact List.mem_reverse.mp h2

theorem dropWhile_append_slash (q : Char → Bool) (hq : q '/' = false) :
    ∀ (l : List Char), ∃ l2, (l ++ ['/']).dropWhile q = l2 ++ ['/'] := by
  intro l
  induction l with
  | nil => exact ⟨[], by simp [List.dropWhile_cons, hq]⟩
  | cons a l ih =>
    by_cases ha : q a = true
    · obtain ⟨l2, h2⟩ := ih
      exact ⟨l2, by simp [List.dropWhile_cons, ha, h2]⟩
    · exact ⟨a :: l, by simp [List.dropWhile_cons, ha]⟩

theorem dirOf_cons_slash (t : List Char) : ∃ t2, dirOf ('/' :: t) = '/' :: t2 := by
  unfold dirOf
  have hrev : ('/' :: t).reverse = t.reverse ++ ['/'] := by simp
  rw [hrev]
  obtain ⟨l2, h2⟩ := dropWhile_append_slash (fun c => !(c == '/')) (by decide) t.reverse
  rw [h2]
  exact ⟨l2.reverse, by simp⟩

/-- `parseHostPath` output facts: the record is canonical when the protocol is
a canonical special scheme and the input characters are printable. -/
theorem parseHostPath_canon {proto : String} {rest : List Char} {r : URLRec}
    (hpo : ProtoOk proto) (hspec : isSpecialProto proto = true)
    (hpr : ∀ c ∈ rest, printable c = true)
    (hparse : parseHostPath proto rest = some r) : Canon r := by
  unfold parseHostPath at hparse
  by_cases hauth : rest.takeWhile (fun c => !(isAuthEnd c)) = []
  · rw [if_pos hauth] at hparse
    cases hparse
  · rw [if_neg hauth] at hparse
    by_cases hall : (rest.takeWhile (fun c => !(isAuthEnd c))).all isHostChar = true
    · rw [if_pos hall] at hparse
      injection hparse with hr
      subst hr
      -- abbreviations
      set auth := rest.takeWhile (fun c => !(isAuthEnd c)) with hauthdef
      set rest2 := rest.dropWhile (fun c => !(isAuthEnd c)) with hrest2def
      set pathRaw := rest2.takeWhile (fun c => !(isPathEnd c)) with hpathdef
      set rest3 := rest2.dropWhile (fun c => !(isPathEnd c)) with hrest3def
      have hr2pr : ∀ c ∈ rest2, printable c = true :=
        fun c hc => hpr c (mem_of_mem_dropWhile c hc)
      have hprawpr : ∀ c ∈ pathRaw, printable c = true :=
        fun c hc => hr2pr c (mem_of_mem_takeWhile c hc)
      have hr3pr : ∀ c ∈ rest3, printable c = true :=
        fun c hc => hr2pr c (mem_of_mem_dropWhile c hc)
      -- path raw shape
      have hpshape : pathRaw = [] ∨ ∃ t, pathRaw = '/' :: t := by
        cases h2 : rest2 with
        | nil => exact Or.inl (by simp [hpathdef, h2])
        | cons b tb =>
          have hb : (!(isAuthEnd b)) = false := dropWhile_head_false rest b tb h2
          have hb2 : isAuthEnd b = true := by simpa using hb
          have h3 : (b = '/' ∨ b = '?') ∨ b = '#' := by
            simpa [isAuthEnd, beq_iff_eq] using hb2
          rcases h3 with (rfl | rfl) | rfl
          · refine Or.inr ⟨tb.takeWhile (fun c => !(isPathEnd c)), ?_⟩
            have hslash : (!(isPathEnd '/')) = true := by decide
            simp [hpathdef, h2, List.takeWhile_cons, hslash]
          · exact Or.inl (by simp [hpathdef, h2, List.takeWhile_cons, isPathEnd])
          · exact Or.inl (by simp [hpathdef, h2, List.takeWhile_cons, isPathEnd])
      -- rest3 shape
      have hr3shape : rest3 = [] ∨ (∃ t, rest3 = '?' :: t) ∨ (∃ t, rest3 = '#' :: t) := by
        cases h2 : rest3 with
        | nil => exact Or.inl rfl
        | cons b tb =>
          have hb : (!(isPathEnd b)) = false := dropWhile_head_false rest2 b tb h2
          have hb2 : isPathEnd b = true := by simpa using hb
          rcases isPathEnd_true_cases hb2 with rfl | rfl
          · exact Or.inr (Or.inl ⟨tb, rfl⟩)
          · exact Or.inr (Or.inr ⟨tb, rfl⟩)
      have hsh := splitSearchHash_shape rest3 hr3shape hr3pr
      have hnp := normPath_shape pathRaw hpshape
      obtain ⟨segs, hnpeq, _, _, _, _⟩ := hnp
      constructor
      · exact hpo
      · intro _
        refine ⟨?_, ?_, ?_, ?_, ?_, ?_⟩
        · simp only []
          intro hmapnil
          exact hauth (by simpa using hmapnil)
        · simp only []
          rw [List.all_eq_true]
          intro c hcm
          rcases List.mem_map.mp hcm with ⟨d, hd, hdc⟩
          subst hdc
          exact isHostChar_lowerC (List.all_eq_true.mp hall d hd)
        · exact map_lowerC_idem _
        · intro c hcm
          rcases List.mem_map.mp hcm with ⟨d, hd, hdc⟩
          subst hdc
          exact printable_lowerC (hpr d (mem_of_mem_takeWhile d hd))
        · exact ⟨intercalateChar '/' segs, hnpeq⟩
        · exact normPath_norm pathRaw hpshape
      · intro hns
        exact absurd hspec (by simp [hns])
      · intro c hcm
        rcases mem_normPath pathRaw hpshape c hcm with h1 | h1
        · subst h1
          exact ⟨by decide, by decide, by decide⟩
        · have h1b := h1
          rw [hpathdef] at h1b
          have hpe := List.mem_takeWhile_imp h1b
          have hpe2 : isPathEnd c = false := by simpa using hpe
          obtain ⟨h2, h3⟩ := isPathEnd_false_elim hpe2
          exact ⟨hprawpr c h1, h2, h3⟩
      · exact hsh.1
      · exact hsh.2
    · rw [if_neg hall] at hparse
      cases hparse

theorem schemeOk_map_lowerC {sch : List Char} (h : schemeOkChars sch = true) :
    schemeOkChars (sch.map lowerC) = true := by
  cases sch with
  | nil => simp [schemeOkChars] at h
  | cons c rest =>
    simp only [schemeOkChars, Bool.and_eq_true, List.all_eq_true, List.map_cons] at h ⊢
    refine ⟨isAlphaC_lowerC h.1, ?_⟩
    intro x hx
    rcases List.mem_cons.mp hx with h1 | h1
    · subst h1
      exact isSchemeChar_lowerC (h.2 c (by simp))
    · rcases List.mem_map.mp h1 with ⟨d, hd, rfl⟩
      exact isSchemeChar_lowerC (h.2 d (by simp [hd]))

theorem protoOk_of_schemeOk {sch0 : List Char} (h : schemeOkChars sch0 = true)
    (hpr : ∀ c ∈ sch0, printable c = true) :
    ProtoOk (String.mk (sch0.map lowerC ++ [':'])) :=
  ⟨sch0.map lowerC, rfl, schemeOk_map_lowerC h, map_lowerC_idem _, by
    intro c hc
    rcases List.mem_map.mp hc with ⟨d, hd, rfl⟩
    exact printable_lowerC (hpr d hd)⟩

theorem dropWhile_pathEnd_shape (l : List Char) :
    l.dropWhile (fun c => !(isPathEnd c)) = [] ∨
    (∃ t, l.dropWhile (fun c => !(isPathEnd c)) = '?' :: t) ∨
    (∃ t, l.dropWhile (fun c => !(isPathEnd c)) = '#' :: t) := by
  cases hdw : l.dropWhile (fun c => !(isPathEnd c)) with
  | nil => exact Or.inl rfl
  | cons b tb =>
    have hb := dropWhile_head_false l b tb hdw
    have hb2 : isPathEnd b = true := by simpa using hb
    rcases isPathEnd_true_cases hb2 with rfl | rfl
    · exact Or.inr (Or.inl ⟨tb, rfl⟩)
    · exact Or.inr (Or.inr ⟨tb, rfl⟩)

theorem schemeSplit_inv {cs schl rest : List Char}
    (hss : schemeSplit cs = some (schl, rest)) :
    schl = (cs.takeWhile (fun c => !(c == ':'))).map lowerC ∧
    schemeOkChars (cs.takeWhile (fun c => !(c == ':'))) = true ∧
    (∀ c ∈ rest, c ∈ cs) := by
  cases hdw : cs.dropWhile (fun c => !(c == ':')) with
  | nil =>
    have hss2 : schemeSplit cs = none := by
      unfold schemeSplit
      rw [hdw]
    rw [hss2] at hss
    cases hss
  | cons c0 rest2 =>
    have hss2 : schemeSplit cs =
        (if (c0 == ':' && schemeOkChars (cs.takeWhile (fun c => !(c == ':')))) = true
         then some ((cs.takeWhile (fun c => !(c == ':'))).map lowerC, rest2)
         else none) := by
      unfold schemeSplit
      rw [hdw]
    rw [hss2] at hss
    by_cases hcond : (c0 == ':' && schemeOkChars (cs.takeWhile (fun c => !(c == ':')))) = true
    · rw [if_pos hcond] at hss
      injection hss with hss1
      injection hss1 with hs1 hs2
      subst hs1
      subst hs2
      refine ⟨rfl, (Bool.and_eq_true .. ▸ hcond).2, ?_⟩
      intro c hc
      have hmem : c ∈ cs.dropWhile (fun c2 => !(c2 == ':')) := by
        rw [hdw]
        exact List.mem_cons_of_mem _ hc
      exact mem_of_mem_dropWhile c hmem
    · rw [if_neg hcond] at hss
      cases hss

theorem parseAbsolute_canon {cs : List Char} {r : URLRec}
    (hpr : ∀ c ∈ cs, printable c = true)
    (hparse : parseAbsolute cs = some r) : Canon r := by
  cases hss : schemeSplit cs with
  | none =>
    have hn : parseAbsolute cs = none := by
      unfold parseAbsolute
      rw [hss]
    rw [hn] at hparse
    cases hparse
  | some pr =>
    obtain ⟨schl, rest⟩ := pr
    obtain ⟨hschl, hsch0, hrest⟩ := schemeSplit_inv hss
    have hpr0 : ∀ c ∈ cs.takeWhile (fun c2 => !(c2 == ':')), printable c = true :=
      fun c hc => hpr c (mem_of_mem_takeWhile c hc)
    have hrestpr : ∀ c ∈ rest, printable c = true := fun c hc => hpr c (hrest c hc)
    have hpo : ProtoOk (String.mk (schl ++ [':'])) := by
      rw [hschl]
      exact protoOk_of_schemeOk hsch0 hpr0
    have hparse2 : (if isSpecialProto (String.mk (schl ++ [':'])) = true then
        (match rest with
         | '/' :: '/' :: rest2 => parseHostPath (String.mk (schl ++ [':'])) rest2
         | _ => none)
      else
        some ⟨String.mk (schl ++ [':']), "",
          String.mk (rest.takeWhile (fun c => !(isPathEnd c))),
          String.mk (splitSearchHash (rest.dropWhile (fun c => !(isPathEnd c)))).1,
          String.mk (splitSearchHash (rest.dropWhile (fun c => !(isPathEnd c)))).2⟩) = some r := by
      rw [← hparse]
      unfold parseAbsolute
      rw [hss]
    by_cases hspec : isSpecialProto (String.mk (schl ++ [':'])) = true
    · rw [if_pos hspec] at hparse2
      split at hparse2
      · exact parseHostPath_canon hpo hspec
          (fun c hc => hrestpr c (by simp [hc])) hparse2
      · cases hparse2
    · rw [if_neg hspec] at hparse2
      injection hparse2 with hr
      subst hr
      have hspec2 : isSpecialProto (String.mk (schl ++ [':'])) = false :=
        eq_false_of_ne_true hspec
      have hsh := splitSearchHash_shape (rest.dropWhile (fun c => !(isPathEnd c)))
        (dropWhile_pathEnd_shape rest)
        (fun c hc => hrestpr c (mem_of_mem_dropWhile c hc))
      constructor
      · exact hpo
      · intro hcontr
        exact absurd hcontr (by simp [hspec2])
      · intro _
        rfl
      · intro c hcm
        have hpe := List.mem_takeWhile_imp hcm
        have hpe2 : isPathEnd c = false := by simpa using hpe
        obtain ⟨h2, h3⟩ := isPathEnd_false_elim hpe2
        exact ⟨hrestpr c (mem_of_mem_takeWhile c hcm), h2, h3⟩
      · exact hsh.1
      · exact hsh.2

theorem resolveRel_canon {b : URLRec} {cs : List Char} {r : URLRec}
    (hb : Canon b) (hpr : ∀ c ∈ cs, printable c = true)
    (hres : resolveRel b cs = some r) : Canon r := by
  unfold resolveRel at hres
  split at hres
  · -- empty input: copy of the base without fragment
    injection hres with hr
    subst hr
    exact canon_noHash hb
  · -- fragment-only input
    rename_i hx t
    injection hres with hr
    subst hr
    refine ⟨hb.proto, ?_, hb.other_host, hb.path_ok, hb.search_ok, ?_⟩
    · intro hs
      exact hb.special_host hs
    · refine Or.inr ⟨t, rfl, ?_⟩
      intro c hc
      exact hpr c (List.mem_cons_of_mem _ hc)
  · -- general case
    by_cases hspec : isSpecialProto b.protocol = true
    · rw [if_pos hspec] at hres
      split at hres
      · -- protocol-relative authority
        rename_i rest2 hx1 hx2
        exact parseHostPath_canon hb.proto hspec
          (fun c hc => hpr c (by simp [hc])) hres
      · -- query-only input
        rename_i t hx1 hx2
        injection hres with hr
        subst hr
        refine ⟨hb.proto, ?_, hb.other_host, hb.path_ok, ?_, ?_⟩
        · intro hs
          exact hb.special_host hs
        · refine Or.inr ⟨t.takeWhile (fun c => !(c == '#')), rfl, ?_⟩
          intro c hc
          have h1 := List.mem_takeWhile_imp hc
          refine ⟨hpr c (List.mem_cons_of_mem _ (mem_of_mem_takeWhile c hc)), ?_⟩
          simpa using h1
        · cases hdw : t.dropWhile (fun c => !(c == '#')) with
          | nil => exact Or.inl (by simp [hdw])
          | cons b0 tb =>
            have hb0 := dropWhile_head_false t b0 tb hdw
            have hb0eq : b0 = '#' := by simpa using hb0
            subst hb0eq
            refine Or.inr ⟨tb, by simp [hdw], ?_⟩
            intro c hc
            have hmem : c ∈ t.dropWhile (fun c2 => !(c2 == '#')) := by
              rw [hdw]
              exact List.mem_cons_of_mem _ hc
            exact hpr c (List.mem_cons_of_mem _ (mem_of_mem_dropWhile c hmem))
      · -- absolute path
        rename_i t2 hd0 hd1 hd2
        injection hres with hr
        subst hr
        have hpshape : ('/' :: t2).takeWhile (fun c => !(isPathEnd c)) = [] ∨
            ∃ t, ('/' :: t2).takeWhile (fun c => !(isPathEnd c)) = '/' :: t := by
          refine Or.inr ⟨t2.takeWhile (fun c => !(isPathEnd c)), ?_⟩
          have hslash : (!(isPathEnd '/')) = true := by decide
          simp [List.takeWhile_cons, hslash]
        have hprawpr : ∀ c ∈ ('/' :: t2).takeWhile (fun c2 => !(isPathEnd c2)),
            printable c = true := fun c hc => hpr c (mem_of_mem_takeWhile c hc)
        have hsh := splitSearchHash_shape (('/' :: t2).dropWhile (fun c => !(isPathEnd c)))
          (dropWhile_pathEnd_shape _)
          (fun c hc => hpr c (mem_of_mem_dropWhile c hc))
        obtain ⟨segs, hnpeq, _, _, _, _⟩ := normPath_shape _ hpshape
        refine ⟨hb.proto, ?_, hb.other_host, ?_, hsh.1, hsh.2⟩
        · intro hs
          obtain ⟨hne, hall, hlow, hpr2, _, _⟩ := hb.special_host hs
          exact ⟨hne, hall, hlow, hpr2, ⟨intercalateChar '/' segs, hnpeq⟩,
            normPath_norm _ hpshape⟩
        · intro c hcm
          rcases mem_normPath _ hpshape c hcm with h1 | h1
          · subst h1
            exact ⟨by decide, by decide, by decide⟩
          · have hpe := List.mem_takeWhile_imp h1
            have hpe2 : isPathEnd c = false := by simpa using hpe
            obtain ⟨h2, h3⟩ := isPathEnd_false_elim hpe2
            exact ⟨hprawpr c h1, h2, h3⟩
      · -- relative path merged onto the base directory
        injection hres with hr
        subst hr
        obtain ⟨hne, hall, hlow, hpr2, ⟨tb, hbpath⟩, hbnorm⟩ := hb.special_host hspec
        have hdir0 : ∃ t2, dirOf b.pathname.data = '/' :: t2 := by
          rw [hbpath]
          exact dirOf_cons_slash tb
        obtain ⟨td, hdir⟩ := hdir0
        have hmshape : dirOf b.pathname.data ++ cs.takeWhile (fun c => !(isPathEnd c)) = [] ∨
            ∃ t, dirOf b.pathname.data ++ cs.takeWhile (fun c => !(isPathEnd c)) = '/' :: t := by
          refine Or.inr ⟨td ++ cs.takeWhile (fun c => !(isPathEnd c)), ?_⟩
          rw [hdir]
          rfl
        have hmergepr : ∀ c ∈ dirOf b.pathname.data ++ cs.takeWhile (fun c2 => !(isPathEnd c2)),
            printable c = true ∧ ¬(c = '?') ∧ ¬(c = '#') := by
          intro c hc
          rcases List.mem_append.mp hc with h1 | h1
          · exact hb.path_ok c (dirOf_mem c h1)
          · have hpe := List.mem_takeWhile_imp h1
            have hpe2 : isPathEnd c = false := by simpa using hpe
            obtain ⟨h2, h3⟩ := isPathEnd_false_elim hpe2
            exact ⟨hpr c (mem_of_mem_takeWhile c h1), h2, h3⟩
        have hsh := splitSearchHash_shape (cs.dropWhile (fun c => !(isPathEnd c)))
          (dropWhile_pathEnd_shape _)
          (fun c hc => hpr c (mem_of_mem_dropWhile c hc))
        obtain ⟨segs, hnpeq, _, _, _, _⟩ := normPath_shape _ hmshape
        refine ⟨hb.proto, ?_, hb.other_host, ?_, hsh.1, hsh.2⟩
        · intro hs
          exact ⟨hne, hall, hlow, hpr2, ⟨intercalateChar '/' segs, hnpeq⟩,
            normPath_norm _ hmshape⟩
        · intro c hcm
          rcases mem_normPath _ hmshape c hcm with h1 | h1
          · subst h1
            exact ⟨by decide, by decide, by decide⟩
          · exact hmergepr c h1
    · rw [if_neg hspec] at hres
      cases hres

/-! ### Idempotence of normalizeUrl -/

theorem schemeChar_ne_hash {c : Char} (h : isSchemeChar c = true) : ¬(c = '#') := by
  intro hh
  subst hh
  exact absurd h (by decide)

theorem hostChar_ne_hash {c : Char} (h : isHostChar c = true) : ¬(c = '#') := by
  intro hh
  subst hh
  exact absurd h (by decide)

theorem protoOk_chars {p : String} (hpo : ProtoOk p) :
    ∀ c ∈ p.data, printable c = true ∧ ¬(c = '#') := by
  obtain ⟨sch, hp, hsch, _, hpr⟩ := hpo
  intro c hc
  rw [hp] at hc
  rcases List.mem_append.mp hc with h1 | h1
  · exact ⟨hpr c h1, schemeChar_ne_hash (schemeOk_all hsch c h1)⟩
  · simp only [List.mem_singleton] at h1
    subst h1
    exact ⟨by decide, by decide⟩

theorem serialize_chars {r : URLRec} (hc : Canon r) :
    ∀ c ∈ (serializeURL r).data, printable c = true ∧ (¬(c = '#') ∨ c ∈ r.hash.data) := by
  intro c hcm
  have hproto := protoOk_chars hc.proto
  have hpath := hc.path_ok
  have hsearch : ∀ c ∈ r.search.data, printable c = true ∧ ¬(c = '#') := by
    intro d hd
    rcases hc.search_ok with hs | ⟨t, hs, hts⟩
    · rw [hs] at hd; cases hd
    · rw [hs] at hd
      rcases List.mem_cons.mp hd with h1 | h1
      · subst h1; exact ⟨by decide, by decide⟩
      · exact (hts d h1)
  have hhash : ∀ c ∈ r.hash.data, printable c = true := by
    intro d hd
    rcases hc.hash_ok with hs | ⟨t, hs, hts⟩
    · rw [hs] at hd; cases hd
    · rw [hs] at hd
      rcases List.mem_cons.mp hd with h1 | h1
      · subst h1; decide
      · exact hts d h1
  cases hspec : isSpecialProto r.protocol with
  | true =>
    rw [serialize_data_special hspec] at hcm
    obtain ⟨_, hall, _, hhostpr, _, _⟩ := hc.special_host hspec
    rcases List.mem_append.mp hcm with h1 | h1
    · exact ⟨(hproto c h1).1, Or.inl (hproto c h1).2⟩
    · rcases List.mem_cons.mp h1 with h2 | h2
      · subst h2; exact ⟨by decide, Or.inl (by decide)⟩
      · rcases List.mem_cons.mp h2 with h3 | h3
        · subst h3; exact ⟨by decide, Or.inl (by decide)⟩
        · rcases List.mem_append.mp h3 with h4 | h4
          · exact ⟨hhostpr c h4,
              Or.inl (hostChar_ne_hash (List.all_eq_true.mp hall c h4))⟩
          · rcases List.mem_append.mp h4 with h5 | h5
            · exact ⟨(hpath c h5).1, Or.inl (hpath c h5).2.2⟩
            · rcases List.mem_append.mp h5 with h6 | h6
              · exact ⟨(hsearch c h6).1, Or.inl (hsearch c h6).2⟩
              · exact ⟨hhash c h6, Or.inr h6⟩
  | false =>
    rw [serialize_data_other hspec] at hcm
    rcases List.mem_append.mp hcm with h1 | h1
    · exact ⟨(hproto c h1).1, Or.inl (hproto c h1).2⟩
    · rcases List.mem_append.mp h1 with h5 | h5
      · exact ⟨(hpath c h5).1, Or.inl (hpath c h5).2.2⟩
      · rcases List.mem_append.mp h5 with h6 | h6
        · exact ⟨(hsearch c h6).1, Or.inl (hsearch c h6).2⟩
        · exact ⟨hhash c h6, Or.inr h6⟩

theorem serialize_printable {r : URLRec} (hc : Canon r) :
    ∀ c ∈ (serializeURL r).data, printable c = true :=
  fun c hcm => (serialize_chars hc c hcm).1

theorem serialize_noHash_data {r : URLRec} :
    (serializeURL r).data = (serializeURL (noHash r)).data ++ r.hash.data := by
  cases hspec : isSpecialProto r.protocol with
  | true =>
    have hspec2 : isSpecialProto (noHash r).protocol = true := hspec
    rw [serialize_data_special hspec, serialize_data_special hspec2]
    show _ = _ ++ ('/' :: '/' :: (r.host.data ++ (r.pathname.data ++ (r.search.data ++
      ([] : List Char))))) ++ r.hash.data
    simp [List.append_assoc, noHash]
  | false =>
    have hspec2 : isSpecialProto (noHash r).protocol = false := hspec
    rw [serialize_data_other hspec, serialize_data_other hspec2]
    show _ = _ ++ (r.pathname.data ++ (r.search.data ++ ([] : List Char))) ++ r.hash.data
    simp [List.append_assoc, noHash]

theorem serialize_noHash_ne_hash {r : URLRec} (hc : Canon r) :
    ∀ c ∈ (serializeURL (noHash r)).data, (!(c == '#')) = true := by
  intro c hcm
  have h := serialize_chars (canon_noHash hc) c hcm
  rcases h.2 with h1 | h1
  · simpa using h1
  · cases h1

theorem stripHash_serialize {r : URLRec} (hc : Canon r) :
    stripHashStr (serializeURL r) = serializeURL (noHash r) := by
  unfold stripHashStr
  have hHead : ∀ b t, r.hash.data = b :: t → (!(b == '#')) = false := by
    intro b t hbt
    rcases hc.hash_ok with hs | ⟨t2, hs, _⟩
    · rw [hs] at hbt; cases hbt
    · rw [hs] at hbt
      cases hbt
      decide
  have hsplit := takeWhile_split (p := fun c => !(c == '#'))
    (serializeURL (noHash r)).data r.hash.data (serialize_noHash_ne_hash hc) hHead
  rw [serialize_noHash_data, hsplit.1]

theorem newURL_canon {u b : String} {r : URLRec} (h : newURL u b = some r) : Canon r := by
  unfold newURL at h
  cases hb : parseAbsolute (pre b) with
  | none => rw [hb] at h; cases h
  | some bb =>
    rw [hb] at h
    have hbb : Canon bb := parseAbsolute_canon (pre_printable b) hb
    cases hu : parseAbsolute (pre u) with
    | some r2 =>
      rw [hu] at h
      injection h with h2
      subst h2
      exact parseAbsolute_canon (pre_printable u) hu
    | none =>
      rw [hu] at h
      exact resolveRel_canon hbb (pre_printable u) h

/-- Claim C6: `normalizeUrl` is idempotent: whenever `normalizeUrl u b` is
non-null, normalizing its result again (against the same base) returns it
unchanged — parsing an already-canonical, fragment-stripped absolute URL and
stripping its fragment again changes nothing. -/
theorem normalizeUrl_idem (u b out : String) (h : normalizeUrl u b = some out) :
    normalizeUrl out b = some out := by
  unfold normalizeUrl at h ⊢
  cases hnu : newURL u b with
  | none => rw [hnu] at h; cases h
  | some r =>
    rw [hnu] at h
    injection h with h2
    have h2b : stripHashStr (serializeURL r) = out := h2
    have hcr : Canon r := newURL_canon hnu
    have hout : out = serializeURL (noHash r) := by
      rw [← h2b, stripHash_serialize hcr]
    have hcnr : Canon (noHash r) := canon_noHash hcr
    have hpre : pre out = (serializeURL (noHash r)).data := by
      rw [hout]
      exact pre_of_printable _ (serialize_printable hcnr)
    have hparse : parseAbsolute (pre out) = some (noHash r) := by
      rw [hpre]
      exact parse_serialize hcnr
    have hnewout : newURL out b = some (noHash r) := by
      unfold newURL
      cases hb : parseAbsolute (pre b) with
      | none =>
        exfalso
        unfold newURL at hnu
        rw [hb] at hnu
        cases hnu
      | some bb => rw [hparse]
    rw [hnewout]
    show some (stripHashStr (serializeURL (noHash r))) = some out
    rw [stripHash_serialize hcnr, hout]
    rfl

/-- Witness for C6 at a concrete input: normalizing a relative reference with
a fragment, then normalizing the result, is stable. -/
theorem normalizeUrl_idem_witness :
    normalizeUrl "https://e.com/docs/a/b" "https://e.com/docs/page"
      = some "https://e.com/docs/a/b" :=
  normalizeUrl_idem "a/b#x" "https://e.com/docs/page" "https://e.com/docs/a/b" (by decide)

/-! ### Skip patterns and robots policy -/

/-- `String.startsWith`, computed on the character lists so that it reduces
in the kernel. -/
def strStartsWith (s pfx : String) : Bool := pfx.data.isPrefixOf s.data

/-- `String.endsWith`, computed on the character lists. -/
def strEndsWith (s sfx : String) : Bool := sfx.data.reverse.isPrefixOf s.data.reverse

/-- `String.split` at a separator character, computed on the character
lists. -/
def splitOnCharS (sep : Char) (s : String) : List String :=
  (splitOnChar sep s.data).map String.mk

/-- Contiguous-substring test on character lists. -/
def containsSub (needle : List Char) : List Char → Bool
  | [] => needle.isEmpty
  | c :: rest => needle.isPrefixOf (c :: rest) || containsSub needle rest

/-- `new RegExp(p, "i").test(url)` for the skip/ignore patterns this
repository configures, which are literal strings without regex
metacharacters: case-insensitive substring matching. -/
def regexTestI (p url : String) : Bool :=
  containsSub (p.data.map lowerC) (url.data.map lowerC)

structure RobotsPolicy where
  disallow : List String
  delay : Nat
deriving Repr, DecidableEq

/-- `blockedByRobots(pathname, disallow)`:
`disallow.some(rule => rule && pathname.startsWith(rule))` — plain prefix
match, no wildcard support. -/
def blockedByRobots (pathname : String) (disallow : List String) : Bool :=
  disallow.any (fun rule => !(rule == "") && strStartsWith pathname rule)

/-- Whitespace accepted by `\s` between a robots directive and its value. -/
def isSpaceTab (c : Char) : Bool :=
  c == ' ' || c == (Char.ofNat 9) || c == (Char.ofNat 13)

def trimWS (s : List Char) : List Char :=
  ((s.dropWhile isSpaceTab).reverse.dropWhile isSpaceTab).reverse

def digitsToNat (l : List Char) : Nat :=
  l.foldl (fun n c => n * 10 + (c.toNat - 48)) 0

/-- A line matching `/^User-agent:\s*\*$/im`. -/
def isStarAgentLine (line : String) : Bool :=
  let l := line.data.map lowerC
  ("user-agent:".data).isPrefixOf l &&
    ((l.drop 11).dropWhile isSpaceTab == ['*'])

def isAgentStart (line : String) : Bool :=
  ("user-agent:".data).isPrefixOf (line.data.map lowerC)

/-- Split the robots lines into sections, starting a new section before every
`User-agent:` line (line-based rendering of
`txt.split(/(?=User-agent:\s*)/i)`; robots files place the directive at line
starts). -/
def groupSections : List String → List (List String)
  | [] => [[]]
  | l :: rest =>
    match groupSections rest with
    | [] => [[l]]
    | g :: gs => if isAgentStart l then [] :: (l :: g) :: gs else (l :: g) :: gs

/-- The robots.txt interpretation of `loadRobots`: pick the `User-agent: *`
section if present (else the whole document), collect the non-empty
`Disallow:` values, and clamp `Crawl-delay` seconds to at most 5000 ms. -/
def parseRobotsTxt (txt : String) : RobotsPolicy :=
  let lines := splitOnCharS '\n' txt
  let block := ((groupSections lines).find? (fun sec => sec.any isStarAgentLine)).getD lines
  let disallow := block.filterMap (fun line =>
    if ("disallow:".data).isPrefixOf (line.data.map lowerC) then
      let v := String.mk (trimWS (line.data.drop 9))
      if v == "" then none else some v
    else none)
  let delay := match block.find? (fun line =>
      ("crawl-delay:".data).isPrefixOf (line.data.map lowerC)) with
    | none => 0
    | some line =>
      let digits := ((line.data.drop 12).dropWhile isSpaceTab).takeWhile isDigitC
      if digits = [] then 0 else min 5000 (digitsToNat digits * 1000)
  ⟨disallow, delay⟩

/-- Outcome of the `fetch`/`text()` pair inside `loadRobots`. -/
inductive FetchResult where
  | netError : FetchResult
  | response (ok : Bool) (body : Option String) : FetchResult
deriving Repr, DecidableEq

/-- `loadRobots`: a non-OK response, a network error, or a body-read failure
all return the permissive default; a body is parsed with `parseRobotsTxt`.
The function is total: no failure escapes to the caller. -/
def loadRobots (f : FetchResult) : RobotsPolicy :=
  match f with
  | .netError => ⟨[], 0⟩
  | .response false _ => ⟨[], 0⟩
  | .response true none => ⟨[], 0⟩
  | .response true (some txt) => parseRobotsTxt txt

def FetchResult.isFailure : FetchResult → Bool
  | .netError => true
  | .response false _ => true
  | .response true none => true
  | .response true (some _) => false

/-! ### Sample-detail exception (part_000 / part_002 variant) -/

namespace Samp

/-- Configuration surface of the part_000 variant of `shouldVisit`. -/
structure Config where
  sameHostOnly : Bool
  pathPrefixMode : String
  respectRobots : Bool
  skipPatterns : List String
  sampleDetailAllow : Bool
  samplePatterns : List String
deriving Repr, DecidableEq

/-- `new Map(SAMPLE_DETAIL_PATTERNS.map(p => [p, false]))`. -/
def initSampleTaken (pats : List String) : List (String × Bool) :=
  pats.map (fun p => (p, false))

def mapHas (m : List (String × Bool)) (k : String) : Bool :=
  m.any (fun p => p.1 == k)

def mapGet (m : List (String × Bool)) (k : String) : Bool :=
  (((m.find? (fun p => p.1 == k)).map Prod.snd).getD false)

def mapSet (m : List (String × Bool)) (k : String) (v : Bool) : List (String × Bool) :=
  if m.any (fun p => p.1 == k) then
    m.map (fun p => if p.1 == k then (p.1, v) else p)
  else m ++ [(k, v)]

/-- `getMatchedCategory(pathname)`. -/
def getMatchedCategory (pats : List String) (pathname : String) : Option String :=
  let seg := ((splitOnCharS '/' pathname).filter (fun s => !(s == ""))).headD ""
  if pats.contains seg then some seg else none

def listingKeywords : List String :=
  ["page","category","categories","tag","tags","archive","archives",
   "topics","topic","label","labels","feed","index"]

/-- `isListingPathAfterCategory(pathname, category)`. -/
def isListingPathAfterCategory (pathname category : String) : Bool :=
  let parts := (splitOnCharS '/' pathname).filter (fun s => !(s == ""))
  match parts with
  | [] => true
  | p0 :: restp =>
    if !(p0 == category) then false
    else
      match restp with
      | [] => true
      | p1 :: _ => listingKeywords.contains (lowerS p1)

/-- `allowSampleDetailIfFirst(urlObj)`, with the `sampleTaken` map threaded
explicitly: returns the decision and the updated map. -/
def allowSampleDetailIfFirst (pats : List String) (st : List (String × Bool))
    (t : URLRec) : Bool × List (String × Bool) :=
  match getMatchedCategory pats t.pathname with
  | none => (false, st)
  | some cat =>
    if isListingPathAfterCategory t.pathname cat then (false, st)
    else if mapHas st cat && (mapGet st cat == false) then (true, mapSet st cat true)
    else (false, st)

/-- `shouldVisit` of the part_000 variant on already-parsed URLs: protocol
check, then host check, then start-path check, then skip patterns with the
sample exception (which returns admission immediately), then robots. -/
def shouldVisitCore (cfg : Config) (robots : Option RobotsPolicy)
    (targetUrl : String) (t s : URLRec) (st : List (String × Bool)) :
    Bool × List (String × Bool) :=
  if !(["http:", "https:"].contains t.protocol) then (false, st)
  else if cfg.sameHostOnly && !(t.host == s.host) then (false, st)
  else if cfg.pathPrefixMode == "start" &&
      (let pfx := if strEndsWith s.pathname "/" then s.pathname else s.pathname ++ "/"
       !(pfx == "/") && !(strStartsWith (t.pathname ++ "/") pfx)) then (false, st)
  else
    let hitSkip := cfg.skipPatterns.any (fun p => regexTestI p targetUrl)
    if hitSkip then
      if cfg.sampleDetailAllow then
        let res := allowSampleDetailIfFirst cfg.samplePatterns st t
        if res.1 then (true, res.2) else (false, res.2)
      else (false, st)
    else if cfg.respectRobots && robots.isSome &&
        blockedByRobots t.pathname ((robots.getD ⟨[], 0⟩).disallow) then (false, st)
    else (true, st)

/-- `shouldVisit(targetUrl, startUrl, robots)`: both URLs are parsed first
(`new URL` throws on failure, modelled as `none`). -/
def shouldVisit (cfg : Config) (robots : Option RobotsPolicy)
    (targetUrl startUrl : String) (st : List (String × Bool)) :
    Option (Bool × List (String × Bool)) :=
  match parseURL1 targetUrl, parseURL1 startUrl with
  | some t, some s => some (shouldVisitCore cfg robots targetUrl t s st)
  | _, _ => none

end Samp

/-! ### capture.mjs / part_001 variant of shouldVisit (pure, skip first) -/

namespace Cap

/-- Configuration surface of the capture.mjs variant of `shouldVisit`. -/
structure Config where
  skipPatterns : List String
  sameHostOnly : Bool
  pathPrefixMode : String
  respectRobots : Bool
deriving Repr, DecidableEq

/-- The checks following the skip test, on parsed URLs. -/
def shouldVisitChecks (cfg : Config) (robots : Option RobotsPolicy)
    (t s : URLRec) : Bool :=
  if !(["http:", "https:"].contains t.protocol) then false
  else if cfg.sameHostOnly && !(t.host == s.host) then false
  else if cfg.pathPrefixMode == "start" &&
      (let pfx := if strEndsWith s.pathname "/" then s.pathname else s.pathname ++ "/"
       !(pfx == "/") && !(strStartsWith (t.pathname ++ "/") pfx)) then false
  else if cfg.respectRobots && robots.isSome &&
      blockedByRobots t.pathname ((robots.getD ⟨[], 0⟩).disallow) then false
  else true

/-- `shouldVisit` of capture.mjs: the skip-pattern test runs on the raw
string before the URLs are parsed; parse failure afterwards throws
(modelled as `none`). -/
def shouldVisit (cfg : Config) (robots : Option RobotsPolicy)
    (targetUrl startUrl : String) : Option Bool :=
  if cfg.skipPatterns.any (fun p => regexTestI p targetUrl) then some false
  else
    match parseURL1 targetUrl, parseURL1 startUrl with
    | some t, some s => some (shouldVisitChecks cfg robots t s)
    | _, _ => none

end Cap

/-! ### Claims C1, C2, C5 -/

namespace Samp

/-- The protocol/host/start-path-prefix checks of `shouldVisit`, combined. -/
def inScopeChecks (cfg : Config) (t s : URLRec) : Bool :=
  (["http:", "https:"].contains t.protocol) &&
  !(cfg.sameHostOnly && !(t.host == s.host)) &&
  !(cfg.pathPrefixMode == "start" &&
    (let pfx := if strEndsWith s.pathname "/" then s.pathname else s.pathname ++ "/"
     !(pfx == "/") && !(strStartsWith (t.pathname ++ "/") pfx)))

end Samp

/-- Claim C1 (amended): `shouldVisit` (part_000 variant) evaluates protocol,
host and start-path checks first and short-circuits without touching the
sample registry; when a skip pattern matches, the decision is exactly the
sample exception's verdict and is independent of the robots argument — so the
exception can only admit a skip-matched URL, but a skip-matched URL whose
path is robots-disallowed is admitted anyway when the exception fires (the
robots check is bypassed); when no skip pattern matches, the registry is left
unchanged and the robots disallow check decides. -/
theorem shouldVisit_order (cfg : Samp.Config) (robots : Option RobotsPolicy)
    (targetUrl : String) (t s : URLRec) (st : List (String × Bool)) :
    (Samp.inScopeChecks cfg t s = false →
      Samp.shouldVisitCore cfg robots targetUrl t s st = (false, st)) ∧
    (Samp.inScopeChecks cfg t s = true →
      cfg.skipPatterns.any (fun p => regexTestI p targetUrl) = true →
      (∀ robots2, Samp.shouldVisitCore cfg robots2 targetUrl t s st
         = Samp.shouldVisitCore cfg robots targetUrl t s st) ∧
      (cfg.sampleDetailAllow = true →
        Samp.shouldVisitCore cfg robots targetUrl t s st
          = Samp.allowSampleDetailIfFirst cfg.samplePatterns st t) ∧
      (cfg.sampleDetailAllow = false →
        Samp.shouldVisitCore cfg robots targetUrl t s st = (false, st))) ∧
    (Samp.inScopeChecks cfg t s = true →
      cfg.skipPatterns.any (fun p => regexTestI p targetUrl) = false →
      Samp.shouldVisitCore cfg robots targetUrl t s st
        = (if cfg.respectRobots && robots.isSome &&
             blockedByRobots t.pathname ((robots.getD ⟨[], 0⟩).disallow)
           then false else true, st)) := by
  by_cases h1 : (["http:", "https:"].contains t.protocol) = true
  · by_cases h2 : (cfg.sameHostOnly && !(t.host == s.host)) = true
    · refine ⟨fun _ => ?_, fun hs => ?_, fun hs => ?_⟩
      · simp only [Samp.shouldVisitCore, h1, h2, Bool.not_true, Bool.false_eq_true,
          eq_self_iff_true, if_true, if_false]
      · rw [Samp.inScopeChecks, h1, h2] at hs
        simp at hs
      · rw [Samp.inScopeChecks, h1, h2] at hs
        simp at hs
    · by_cases h3 : (cfg.pathPrefixMode == "start" &&
        (let pfx := if strEndsWith s.pathname "/" then s.pathname else s.pathname ++ "/"
         !(pfx == "/") && !(strStartsWith (t.pathname ++ "/") pfx))) = true
      · simp only [Bool.not_eq_true] at h2
        refine ⟨fun _ => ?_, fun hs => ?_, fun hs => ?_⟩
        · simp only [Samp.shouldVisitCore, h1, h2, h3, Bool.not_true, Bool.not_false,
            Bool.false_eq_true, eq_self_iff_true, if_true, if_false]
        · rw [Samp.inScopeChecks, h1, h2, h3] at hs
          simp at hs
        · rw [Samp.inScopeChecks, h1, h2, h3] at hs
          simp at hs
      · simp only [Bool.not_eq_true] at h2 h3
        have hscope : Samp.inScopeChecks cfg t s = true := by
          unfold Samp.inScopeChecks
          rw [h1, h2, h3]
          rfl
        by_cases hskip : cfg.skipPatterns.any (fun p => regexTestI p targetUrl) = true
        · refine ⟨?_, ?_, ?_⟩
          · intro hc
            rw [hscope] at hc
            exact absurd hc (by decide)
          · intro _ _
            refine ⟨?_, ?_, ?_⟩
            · intro robots2
              simp only [Samp.shouldVisitCore, h1, h2, h3, hskip, Bool.not_true,
                Bool.not_false, Bool.false_eq_true, eq_self_iff_true, if_true, if_false]
            · intro hallow
              rcases hsam : Samp.allowSampleDetailIfFirst cfg.samplePatterns st t with ⟨a, b⟩
              cases a <;>
                simp only [Samp.shouldVisitCore, h1, h2, h3, hskip, hallow, hsam,
                  Bool.not_true, Bool.not_false, Bool.false_eq_true, eq_self_iff_true,
                  if_true, if_false]
            · intro hallow
              simp only [Samp.shouldVisitCore, h1, h2, h3, hskip, hallow, Bool.not_true,
                Bool.not_false, Bool.false_eq_true, Bool.true_eq_false, eq_self_iff_true,
                if_true, if_false]
          · intro _ hc
            rw [hskip] at hc
            exact absurd hc (by decide)
        · simp only [Bool.not_eq_true] at hskip
          refine ⟨?_, ?_, ?_⟩
          · intro hc
            rw [hscope] at hc
            exact absurd hc (by decide)
          · intro _ hc
            rw [hskip] at hc
            exact absurd hc (by decide)
          · intro _ _
            simp only [Samp.shouldVisitCore, h1, h2, h3, hskip, Bool.not_true,
              Bool.not_false, Bool.false_eq_true, Bool.true_eq_false, eq_self_iff_true,
              if_true, if_false]
            by_cases hrb : (cfg.respectRobots && robots.isSome &&
              blockedByRobots t.pathname ((robots.getD ⟨[], 0⟩).disallow)) = true
            · rw [if_pos hrb, if_pos hrb]
            · rw [if_neg hrb, if_neg hrb]
  · simp only [Bool.not_eq_true] at h1
    refine ⟨fun _ => ?_, fun hs => ?_, fun hs => ?_⟩
    · simp only [Samp.shouldVisitCore, h1, Bool.not_false, eq_self_iff_true, if_true]
    · rw [Samp.inScopeChecks, h1] at hs
      simp at hs
    · rw [Samp.inScopeChecks, h1] at hs
      simp at hs

/-- Witness for C1 at concrete inputs: a non-HTTP URL is rejected with the
registry untouched. -/
theorem shouldVisit_order_witness :
    Samp.shouldVisitCore ⟨true, "start", true, ["blog"], true, ["blog"]⟩ none
      "mailto:a@b" ⟨"mailto:", "", "a@b", "", ""⟩
      ⟨"https:", "site.test", "/", "", ""⟩ (Samp.initSampleTaken ["blog"])
      = (false, Samp.initSampleTaken ["blog"]) :=
  (shouldVisit_order ⟨true, "start", true, ["blog"], true, ["blog"]⟩ none
      "mailto:a@b" ⟨"mailto:", "", "a@b", "", ""⟩
      ⟨"https:", "site.test", "/", "", ""⟩ (Samp.initSampleTaken ["blog"])).1 (by decide)

/-- Counterexample for C1 as frozen: with skip pattern and sample category
"blog" and a robots policy disallowing `/blog`, robots compliance enabled,
the URL `/blog/post-1` — whose path matches the robots disallow prefix — is
nevertheless admitted by `shouldVisit` via the sample exception. -/
theorem shouldVisit_robots_bypass_cex :
    Samp.shouldVisit ⟨true, "start", true, ["blog"], true, ["blog"]⟩
      (some ⟨["/blog"], 0⟩) "https://site.test/blog/post-1" "https://site.test/"
      (Samp.initSampleTaken ["blog"])
      = some (true, [("blog", true)]) ∧
    blockedByRobots "/blog/post-1" ["/blog"] = true := by
  constructor
  · decide
  · decide

/-- Claim C2: with `SAMPLE_DETAIL_PATTERNS = ["blog"]` and skip pattern
"blog", admitting `/blog/post-1` then `/blog/post-2` in sequence accepts the
first (consuming the category) and rejects the second; the listing paths
`/blog` and `/blog/page/2` are rejected in every registry state without
consuming anything. -/
theorem sampleException_oneShot :
    (Samp.shouldVisit ⟨true, "start", true, ["blog"], true, ["blog"]⟩ (some ⟨[], 0⟩)
      "https://site.test/blog/post-1" "https://site.test/" (Samp.initSampleTaken ["blog"])
      = some (true, [("blog", true)])) ∧
    (Samp.shouldVisit ⟨true, "start", true, ["blog"], true, ["blog"]⟩ (some ⟨[], 0⟩)
      "https://site.test/blog/post-2" "https://site.test/" [("blog", true)]
      = some (false, [("blog", true)])) ∧
    (∀ st, Samp.shouldVisit ⟨true, "start", true, ["blog"], true, ["blog"]⟩ (some ⟨[], 0⟩)
      "https://site.test/blog" "https://site.test/" st = some (false, st)) ∧
    (∀ st, Samp.shouldVisit ⟨true, "start", true, ["blog"], true, ["blog"]⟩ (some ⟨[], 0⟩)
      "https://site.test/blog/page/2" "https://site.test/" st = some (false, st)) :=
  ⟨by decide, by decide, fun st => rfl, fun st => rfl⟩

/-- `WAIT_BETWEEN_MS = Math.max(WAIT_BETWEEN_MS, robots.delay || 0)` (for a
natural-number delay, `robots.delay || 0` equals `robots.delay`). -/
def effectiveWait (base : Nat) (robots : RobotsPolicy) : Nat :=
  max base robots.delay

/-- Claim C5: parsing `Disallow: /admin` + `Crawl-delay: 10` yields the
disallow prefix `/admin` and a delay of `min(5000, 10*1000) = 5000` ms;
`shouldVisit` (robots compliance enabled) rejects `/admin/x`; and the
effective inter-request wait is the max of the configured base and the
derived delay — never below the base, and 5000 ms (not 10000 ms) at the
default base of 1000 ms. -/
theorem robotsDelay_clamped :
    parseRobotsTxt "User-agent: *\nDisallow: /admin\nCrawl-delay: 10"
      = ⟨["/admin"], 5000⟩ ∧
    min 5000 (10 * 1000) = 5000 ∧
    (Cap.shouldVisit ⟨[], true, "start", true⟩
      (some (parseRobotsTxt "User-agent: *\nDisallow: /admin\nCrawl-delay: 10"))
      "https://site.test/admin/x" "https://site.test/" = some false) ∧
    (∀ base : Nat,
      base ≤ effectiveWait base (parseRobotsTxt
        "User-agent: *\nDisallow: /admin\nCrawl-delay: 10")) ∧
    effectiveWait 1000 (parseRobotsTxt
      "User-agent: *\nDisallow: /admin\nCrawl-delay: 10") = 5000 :=
  ⟨by decide, by decide, by decide, fun base => Nat.le_max_left _ _, by decide⟩

/-! ### Claims C8 and C9: navigation retry loop and robots failure paths -/

structure NavResponse where
  status : Nat
  retryAfter : Option String
deriving Repr, DecidableEq

/-- `res?.status?.() || 200`: a null response, or a zero status, coerces to
200. -/
def statusOf (res : Option NavResponse) : Nat :=
  match res with
  | none => 200
  | some r => if r.status = 0 then 200 else r.status

/-- The whitespace accepted around a JS string-number literal
(`StrWhiteSpace`: the format controls, space separators, NBSP and BOM). -/
def isJSSpace (c : Char) : Bool :=
  [9, 10, 11, 12, 13, 32, 160, 5760, 8192, 8193, 8194, 8195, 8196, 8197, 8198,
    8199, 8200, 8201, 8202, 8232, 8233, 8239, 8287, 12288, 65279].contains c.toNat

def isHexDigitC (c : Char) : Bool :=
  isDigitC c || (97 ≤ c.toNat && c.toNat ≤ 102) || (65 ≤ c.toNat && c.toNat ≤ 70)

def isOctDigitC (c : Char) : Bool := 48 ≤ c.toNat && c.toNat ≤ 55

def isBinDigitC (c : Char) : Bool := c == '0' || c == '1'

def hexDigitVal (c : Char) : Nat :=
  if isDigitC c then c.toNat - 48
  else if c.toNat ≤ 70 then c.toNat - 55
  else c.toNat - 87

def radixToNat (radix : Nat) (l : List Char) : Nat :=
  l.foldl (fun n c => n * radix + hexDigitVal c) 0

/-- A JS number as `+ra` produces it: `NaN`, signed infinity, or a finite
value.  Finite values are modelled as exact rationals: the IEEE-754 rounding
of the parsed literal (and its overflow to infinity beyond `2^1024`) is
abstracted away. -/
inductive JSNum where
  | nan : JSNum
  | posInf : JSNum
  | negInf : JSNum
  | num (q : ℚ) : JSNum
deriving Repr, DecidableEq

/-- `x * 1000` on a JS number that is not NaN-checked further (`+ra*1000`):
infinities are absorbing. -/
def JSNum.mulNat (x : JSNum) (n : Nat) : JSNum :=
  match x with
  | .nan => .nan
  | .posInf => .posInf
  | .negInf => .negInf
  | .num q => .num (q * n)

def pow10 (e : Int) : ℚ :=
  if 0 ≤ e then ((10 ^ e.toNat : Nat) : ℚ) else 1 / ((10 ^ (-e).toNat : Nat) : ℚ)

/-- The exponent part after the mantissa of a decimal literal: end of input
is exponent 0; `e`/`E` followed by optionally signed digits; anything else
fails the whole literal. -/
def parseExp : List Char → Option Int
  | [] => some 0
  | c :: rest =>
    if c == 'e' || c == 'E' then
      match rest with
      | '+' :: r2 =>
        if !(r2.isEmpty) && r2.all isDigitC then some ((digitsToNat r2 : Nat) : Int)
        else none
      | '-' :: r2 =>
        if !(r2.isEmpty) && r2.all isDigitC then some (-((digitsToNat r2 : Nat) : Int))
        else none
      | _ =>
        if !(rest.isEmpty) && rest.all isDigitC then some ((digitsToNat rest : Nat) : Int)
        else none
    else none

def decValue (sign : Int) (ip fp : List Char) (e : Int) : ℚ :=
  (sign : ℚ) * (((digitsToNat ip : Nat) : ℚ)
    + ((digitsToNat fp : Nat) : ℚ) / ((10 ^ fp.length : Nat) : ℚ)) * pow10 e

/-- `StrDecimalLiteral` after the optional sign: `Infinity`, or
`digits [. digits] [exp]`, or `. digits [exp]`. -/
def parseDec (sign : Int) (l : List Char) : JSNum :=
  if l = "Infinity".data then (if sign = 1 then .posInf else .negInf)
  else
    let ip := l.takeWhile isDigitC
    let r1 := l.dropWhile isDigitC
    match r1 with
    | '.' :: r2 =>
      let fp := r2.takeWhile isDigitC
      let r3 := r2.dropWhile isDigitC
      if ip.isEmpty && fp.isEmpty then .nan
      else
        match parseExp r3 with
        | none => .nan
        | some e => .num (decValue sign ip fp e)
    | _ =>
      if ip.isEmpty then .nan
      else
        match parseExp r1 with
        | none => .nan
        | some e => .num (decValue sign ip [] e)

/-- JS `ToNumber` of a string (what `+ra` computes): trim JS whitespace;
empty is 0; an optional sign followed by a decimal literal or `Infinity`;
an unsigned `0x`/`0o`/`0b` radix literal; everything else is NaN. -/
def jsToNum (s : String) : JSNum :=
  let t := ((s.data.dropWhile isJSSpace).reverse.dropWhile isJSSpace).reverse
  match t with
  | [] => .num 0
  | '+' :: rest => parseDec 1 rest
  | '-' :: rest => parseDec (-1) rest
  | '0' :: c :: rest =>
    if c == 'x' || c == 'X' then
      if !(rest.isEmpty) && rest.all isHexDigitC then
        .num ((radixToNat 16 rest : Nat) : ℚ)
      else .nan
    else if c == 'o' || c == 'O' then
      if !(rest.isEmpty) && rest.all isOctDigitC then
        .num ((radixToNat 8 rest : Nat) : ℚ)
      else .nan
    else if c == 'b' || c == 'B' then
      if !(rest.isEmpty) && rest.all isBinDigitC then
        .num ((radixToNat 2 rest : Nat) : ℚ)
      else .nan
    else parseDec 1 t
  | _ => parseDec 1 t

/-- `const ms = ra ? (isNaN(+ra) ? 5000 : +ra*1000) : 5000` where
`ra = res?.headers?.()["retry-after"]`: a missing or empty (falsy) header
and a NaN conversion give 5000 ms, otherwise the converted number of
seconds times 1000. -/
def backoffMs (res : Option NavResponse) : JSNum :=
  match res with
  | none => .num 5000
  | some r =>
    match r.retryAfter with
    | none => .num 5000
    | some ra =>
      if ra == "" then .num 5000
      else
        match jsToNum ra with
        | .nan => .num 5000
        | x => x.mulNat 1000

/-- The `for (attempt=0; attempt<=RETRIES; attempt++)` loop around
`gotoSmart`, over the list of per-attempt responses (length `RETRIES+1`):
returns the response the loop settles on and the list of sleeps performed.
A rate-limited status (429/503) sleeps `backoffMs` and, while attempts
remain, continues; the final attempt's response is kept either way. -/
def retryRun : List (Option NavResponse) → Option NavResponse × List JSNum
  | [] => (none, [])
  | [res] =>
    if statusOf res = 429 ∨ statusOf res = 503 then (res, [backoffMs res])
    else (res, [])
  | res :: res2 :: rest =>
    if statusOf res = 429 ∨ statusOf res = 503 then
      let r := retryRun (res2 :: rest)
      (r.1, backoffMs res :: r.2)
    else (res, [])

/-- Claim C8: on every rate-limited response the loop sleeps for the
`Retry-After` value (under JS `ToNumber`) in seconds times 1000 when the
header is present and numeric, and exactly 5000 ms when it is absent, empty
(falsy), or NaN; when every attempt is rate-limited the sleeps are exactly
one backoff per attempt and the final attempt's response is accepted; and
the loop always settles on one of the attempts' responses (no error is
raised, no page is dropped). -/
theorem retryLoop_rateLimit :
    (∀ (r : NavResponse) (ra : String) (q : ℚ), r.retryAfter = some ra → ¬(ra = "") →
      jsToNum ra = .num q → backoffMs (some r) = .num (q * (1000 : Nat))) ∧
    (∀ (r : NavResponse), r.retryAfter = none → backoffMs (some r) = .num 5000) ∧
    (∀ (r : NavResponse), r.retryAfter = some "" → backoffMs (some r) = .num 5000) ∧
    (∀ (r : NavResponse) (ra : String), r.retryAfter = some ra → jsToNum ra = .nan →
      backoffMs (some r) = .num 5000) ∧
    (∀ (l : List (Option NavResponse)) (h : l ≠ []),
      (∀ res ∈ l, statusOf res = 429 ∨ statusOf res = 503) →
      retryRun l = (l.getLast h, l.map backoffMs)) ∧
    (∀ (l : List (Option NavResponse)), l ≠ [] → (retryRun l).1 ∈ l) := by
  refine ⟨?_, ?_, ?_, ?_, ?_, ?_⟩
  · intro r ra q hra hne hnum
    obtain ⟨st, raf⟩ := r
    have hra2 : raf = some ra := hra
    subst hra2
    show (if (ra == "") = true then JSNum.num 5000
      else match jsToNum ra with
        | .nan => JSNum.num 5000
        | x => x.mulNat 1000) = JSNum.num (q * (1000 : Nat))
    rw [if_neg (by simpa using hne), hnum]
    rfl
  · intro r hra
    obtain ⟨st, raf⟩ := r
    have hra2 : raf = none := hra
    subst hra2
    rfl
  · intro r hra
    obtain ⟨st, raf⟩ := r
    have hra2 : raf = some "" := hra
    subst hra2
    rfl
  · intro r ra hra hnan
    obtain ⟨st, raf⟩ := r
    have hra2 : raf = some ra := hra
    subst hra2
    show (if (ra == "") = true then JSNum.num 5000
      else match jsToNum ra with
        | .nan => JSNum.num 5000
        | x => x.mulNat 1000) = JSNum.num 5000
    by_cases hemp : (ra == "") = true
    · rw [if_pos hemp]
    · rw [if_neg hemp, hnan]
  · intro l
    induction l with
    | nil => intro h _; exact absurd rfl h
    | cons res rest ih =>
      intro h hall
      cases rest with
      | nil =>
        simp only [retryRun, if_pos (hall res (by simp))]
        simp
      | cons res2 rest2 =>
        simp only [retryRun, if_pos (hall res (by simp))]
        rw [ih (by simp) (fun x hx => hall x (by simp [hx]))]
        simp [List.getLast_cons]
  · intro l
    induction l with
    | nil => intro h; exact absurd rfl h
    | cons res rest ih =>
      intro _
      cases rest with
      | nil =>
        by_cases hrl : statusOf res = 429 ∨ statusOf res = 503
        · simp [retryRun, hrl]
        · simp [retryRun, hrl]
      | cons res2 rest2 =>
        by_cases hrl : statusOf res = 429 ∨ statusOf res = 503
        · simp only [retryRun, if_pos hrl]
          exact List.mem_cons_of_mem _ (ih (by simp))
        · simp [retryRun, hrl]

/-- Witness for C8: two rate-limited attempts, the first with a numeric
`Retry-After: 2` (sleep 2000 ms), the second without the header (sleep
5000 ms); the second response is accepted. -/
theorem retryLoop_rateLimit_witness :
    retryRun [some ⟨429, some "2"⟩, some ⟨503, none⟩]
      = (some ⟨503, none⟩, [JSNum.num 2000, JSNum.num 5000]) := by
  have h := retryLoop_rateLimit.2.2.2.2.1 [some ⟨429, some "2"⟩, some ⟨503, none⟩]
    (by decide) (by decide)
  rw [h]
  have h2 : jsToNum "2" = JSNum.num 2 := by
    show JSNum.num (decValue 1 ['2'] [] 0) = JSNum.num 2
    have hd : decValue 1 ['2'] [] 0 = 2 := by
      unfold decValue
      rw [show digitsToNat ['2'] = 2 from by decide,
        show digitsToNat ([] : List Char) = 0 from rfl]
      norm_num [pow10]
    rw [hd]
  have hb1 : backoffMs (some ⟨429, some "2"⟩) = JSNum.num 2000 := by
    show (match jsToNum "2" with
      | JSNum.nan => JSNum.num 5000
      | x => x.mulNat 1000) = JSNum.num 2000
    rw [h2]
    show JSNum.num ((2 : ℚ) * ((1000 : Nat) : ℚ)) = JSNum.num 2000
    norm_num
  have hb2 : backoffMs (some ⟨503, none⟩) = JSNum.num 5000 := rfl
  show ((some ⟨503, none⟩ : Option NavResponse),
    [backoffMs (some ⟨429, some "2"⟩), backoffMs (some ⟨503, none⟩)]) = _
  rw [hb1, hb2]

/-! ### Claim C7: buildSavePath -/

/-- Decimal rendering of a natural number (the `${scale}` template
interpolation), defined with explicit fuel so that it reduces in the
kernel. -/
def natReprAux : Nat → Nat → List Char
  | 0, _ => []
  | _ + 1, 0 => []
  | fuel + 1, n => natReprAux fuel (n / 10) ++ [hexDigitC (n % 10)]

def natRepr (n : Nat) : String :=
  if n = 0 then "0" else String.mk (natReprAux n n)

/-- Node `path.posix.basename`: the last non-empty path segment. -/
def pathBasename (p : String) : String :=
  String.mk (((splitOnChar '/' p.data).filter (fun s => !(s.isEmpty))).getLastD [])

/-- Segment processing of Node `path.posix.normalize` for relative paths:
`.` is dropped, `..` pops the previous segment when one exists (and is kept
when the output is empty or already ends in `..`). -/
def joinSegsGo (acc : List (List Char)) : List (List Char) → List (List Char)
  | [] => acc.reverse
  | s :: rest =>
    if s = ['.'] then joinSegsGo acc rest
    else if s = ['.', '.'] then
      match acc with
      | [] => joinSegsGo [['.', '.']] rest
      | a :: acc2 =>
        if a = ['.', '.'] then joinSegsGo (['.', '.'] :: a :: acc2) rest
        else joinSegsGo acc2 rest
    else joinSegsGo (s :: acc) rest

/-- Node `path.posix.join` on relative parts: join the non-empty parts with
slashes and normalize.  (The real function preserves a trailing slash, which
`buildSavePath` strips again; the normalized segments are what matters for
containment in the output root.) -/
def pathJoin (parts : List String) : String :=
  let segs := ((parts.map (fun p => splitOnChar '/' p.data)).flatten).filter (fun s => s ≠ [])
  let out := joinSegsGo [] segs
  if out = [] then "." else String.mk (intercalateChar '/' out)

/-- Characters kept verbatim by `pathname.replace(/[^a-z0-9_-]+/gi, "_")`. -/
def isSafeC (c : Char) : Bool := isAlphaC c || isDigitC c || c == '_' || c == '-'

/-- `replace(/[^a-z0-9_-]+/gi, "_")`: each maximal run of other characters
becomes a single underscore. -/
def sanitizeGo (inRun : Bool) : List Char → List Char
  | [] => []
  | c :: rest =>
    if isSafeC c then c :: sanitizeGo false rest
    else if inRun then sanitizeGo true rest
    else '_' :: sanitizeGo true rest

def sanitizeSeg (l : List Char) : List Char := sanitizeGo false l

/-- `buildSavePath(u, deviceLabel, scale, fullPage, mode)` (capture.mjs /
part_000 / part_001 text), with `OUT_DIR` passed explicitly; `new URL(u)`
throwing is modelled as `none`. -/
def buildSavePath (outDir u deviceLabel : String) (scale : Nat)
    (fullPage : Bool) (mode : String) : Option String :=
  match parseURL1 u with
  | none => none
  | some r =>
    let host := r.host
    let pathname := r.pathname
    if mode == "tree" then
      let dir0 := pathJoin [outDir, host, pathname]
      let dir1 :=
        if pathname == "/" then pathJoin [outDir, host]
        else if strEndsWith dir0 "/" then String.mk dir0.data.dropLast
        else dir0
      let base := if pathname == "/" then "root" else pathBasename pathname
      let fileName := base ++ "__" ++ deviceLabel ++ (if fullPage then "__full" else "")
        ++ "@" ++ natRepr scale ++ "x.png"
      some (pathJoin [dir1, fileName])
    else
      let safePath := if pathname == "/" then "root" else String.mk (sanitizeSeg pathname.data)
      let base := String.mk ((host.data ++ "__".data ++ safePath.data).take 180)
      let fileName := base ++ "__" ++ deviceLabel ++ (if fullPage then "__full" else "")
        ++ "@" ++ natRepr scale ++ "x.png"
      some (pathJoin [outDir, fileName])

/-- `buildSavePath` of the part_002 variant, whose tree mode strips the
leading slashes of the pathname before joining. -/
def buildSavePathT (outDir u deviceLabel : String) (scale : Nat)
    (fullPage : Bool) (mode : String) : Option String :=
  match parseURL1 u with
  | none => none
  | some r =>
    let host := r.host
    let pathname := r.pathname
    if mode == "tree" then
      let pClean := String.mk (pathname.data.dropWhile (fun c => c == '/'))
      let dir0 := pathJoin [outDir, host, pClean]
      let dir1 :=
        if pathname == "/" then pathJoin [outDir, host]
        else if strEndsWith dir0 "/" then String.mk dir0.data.dropLast
        else dir0
      let base := if pathname == "/" then "root" else pathBasename pathname
      let fileName := base ++ "__" ++ deviceLabel ++ (if fullPage then "__full" else "")
        ++ "@" ++ natRepr scale ++ "x.png"
      some (pathJoin [dir1, fileName])
    else
      let safePath := if pathname == "/" then "root" else String.mk (sanitizeSeg pathname.data)
      let base := String.mk ((host.data ++ "__".data ++ safePath.data).take 180)
      let fileName := base ++ "__" ++ deviceLabel ++ (if fullPage then "__full" else "")
        ++ "@" ++ natRepr scale ++ "x.png"
      some (pathJoin [outDir, fileName])

/-- The produced path, already normalized by `pathJoin`, stays inside the
output root. -/
def withinRoot (root p : String) : Bool :=
  p == root || strStartsWith p (root ++ "/")

theorem strData_append (a b : String) : (a ++ b).data = a.data ++ b.data := rfl

theorem splitOnChar_no_sep (sep : Char) (l : List Char) (h : sep ∉ l) :
    splitOnChar sep l = [l] := by
  have h2 := splitOnChar_intercalateChar sep [l] (by simp)
    (by intro s hs; simp at hs; simp [hs, h])
  simpa [intercalateChar] using h2

theorem joinSegsGo_no_dotdot (segs : List (List Char))
    (h : ∀ s ∈ segs, s ≠ ['.', '.']) : ∀ acc,
    joinSegsGo acc segs = acc.reverse ++ segs.filter (fun s => s ≠ ['.']) := by
  induction segs with
  | nil => intro acc; simp [joinSegsGo]
  | cons s rest ih =>
    intro acc
    by_cases hdot : s = ['.']
    · simp only [joinSegsGo]
      rw [if_pos hdot, ih (fun x hx => h x (by simp [hx])) acc]
      simp [hdot]
    · simp only [joinSegsGo]
      rw [if_neg hdot, if_neg (h s (by simp)),
        ih (fun x hx => h x (by simp [hx])) (s :: acc)]
      simp [hdot]

theorem mem_flatSegs {parts : List String} {s : List Char}
    (h : s ∈ ((parts.map (fun p => splitOnChar '/' p.data)).flatten).filter
      (fun s => s ≠ [])) :
    ∃ p ∈ parts, s ∈ splitOnChar '/' p.data := by
  have h1 := List.of_mem_filter h
  have h2 := List.mem_of_mem_filter h
  rcases List.mem_flatten.mp h2 with ⟨l2, hl2, hsl2⟩
  rcases List.mem_map.mp hl2 with ⟨p, hp, rfl⟩
  exact ⟨p, hp, hsl2⟩

/-- The flattened, empty-filtered segment list `path.join` operates on. -/
def flatSegs (parts : List String) : List (List Char) :=
  ((parts.map (fun p => splitOnChar '/' p.data)).flatten).filter (fun s => s ≠ [])

theorem mem_flatSegs2 {parts : List String} {s : List Char} (h : s ∈ flatSegs parts) :
    ∃ p ∈ parts, s ∈ splitOnChar '/' p.data := by
  have h2 := List.mem_of_mem_filter h
  rcases List.mem_flatten.mp h2 with ⟨l2, hl2, hsl2⟩
  rcases List.mem_map.mp hl2 with ⟨p, hp, rfl⟩
  exact ⟨p, hp, hsl2⟩

theorem flatSegs_props {parts : List String} :
    ∀ s ∈ flatSegs parts, s ≠ [] ∧ '/' ∉ s := by
  intro s hs
  have hne : s ≠ [] := by
    have := List.of_mem_filter hs
    simpa using this
  obtain ⟨p, hp, hsp⟩ := mem_flatSegs2 hs
  exact ⟨hne, mem_splitOnChar_not_sep '/' p.data s hsp⟩

/-- Normalized join when the flattened segments are a clean root segment
followed by dot-dot-free segments: the join is the root followed by the
surviving segments, and stays within the root. -/
theorem pathJoin_within (outDir : String) (parts : List String) (rest2 : List (List Char))
    (h3 : outDir.data ≠ ['.']) (h4 : outDir.data ≠ ['.', '.'])
    (hflat : flatSegs parts = outDir.data :: rest2)
    (hprops : ∀ s ∈ rest2, s ≠ ['.', '.']) :
    pathJoin parts
      = String.mk (intercalateChar '/' (outDir.data :: rest2.filter (fun s => s ≠ ['.']))) ∧
    withinRoot outDir (pathJoin parts) = true := by
  have hmemprops : ∀ s ∈ outDir.data :: rest2, s ≠ [] ∧ '/' ∉ s := by
    rw [← hflat]
    exact flatSegs_props
  have hnodd : ∀ s ∈ outDir.data :: rest2, s ≠ ['.', '.'] := by
    intro s hs
    rcases List.mem_cons.mp hs with rfl | hs2
    · exact h4
    · exact hprops s hs2
  have hjoin : joinSegsGo [] (outDir.data :: rest2)
      = outDir.data :: rest2.filter (fun s => s ≠ ['.']) := by
    rw [joinSegsGo_no_dotdot _ hnodd []]
    simp [List.filter_cons, h3]
  have hout : pathJoin parts
      = String.mk (intercalateChar '/' (outDir.data :: rest2.filter (fun s => s ≠ ['.']))) := by
    unfold pathJoin
    show (if joinSegsGo [] ((((parts).map
          (fun p => splitOnChar '/' p.data)).flatten).filter (fun s => s ≠ [])) = []
        then ("." : String)
        else String.mk (intercalateChar '/' (joinSegsGo [] ((((parts).map
          (fun p => splitOnChar '/' p.data)).flatten).filter (fun s => s ≠ []))))) = _
    have hflat2 : (((parts).map (fun p => splitOnChar '/' p.data)).flatten).filter
        (fun s => s ≠ []) = outDir.data :: rest2 := hflat
    rw [hflat2, hjoin]
    rw [if_neg (by simp)]
  refine ⟨hout, ?_⟩
  rw [hout]
  unfold withinRoot
  cases hfil : rest2.filter (fun s => s ≠ ['.']) with
  | nil =>
    simp only [intercalateChar]
    have h5 : String.mk outDir.data = outDir := strMk_data outDir
    rw [h5]
    simp
  | cons a rest3 =>
    apply Bool.or_eq_true_iff.mpr
    right
    unfold strStartsWith
    rw [strData_append]
    show ((outDir.data ++ ['/']).isPrefixOf
      (String.mk (intercalateChar '/' (outDir.data :: a :: rest3))).data) = true
    rw [List.isPrefixOf_iff_prefix]
    show (outDir.data ++ ['/']) <+: intercalateChar '/' (outDir.data :: a :: rest3)
    have hshape : intercalateChar '/' (outDir.data :: a :: rest3)
        = (outDir.data ++ ['/']) ++ intercalateChar '/' (a :: rest3) := by
      show outDir.data ++ '/' :: intercalateChar '/' (a :: rest3) = _
      simp
    rw [hshape]
    exact List.prefix_append _ _

/-- The head of the reversed slash-join lies in one of the segments. -/
theorem intercalate_reverse_head : ∀ (segs : List (List Char)), segs ≠ [] →
    (∀ s ∈ segs, s ≠ []) →
    ∃ c t, (intercalateChar '/' segs).reverse = c :: t ∧ ∃ s ∈ segs, c ∈ s := by
  intro segs
  induction segs with
  | nil => intro h _; exact absurd rfl h
  | cons s rest ih =>
    intro _ hne
    cases rest with
    | nil =>
      cases hr : s.reverse with
      | nil =>
        exfalso
        have : s = [] := by simpa using congrArg List.reverse hr
        exact hne s (by simp) this
      | cons c t =>
        refine ⟨c, t, by simpa [intercalateChar] using hr, s, by simp, ?_⟩
        have : c ∈ s.reverse := by rw [hr]; simp
        exact List.mem_reverse.mp this
    | cons s2 rest2 =>
      obtain ⟨c, t, hct, s3, hs3, hcs3⟩ := ih (by simp) (fun x hx => hne x (by simp [hx]))
      refine ⟨c, t ++ '/' :: s.reverse, ?_, s3, by simp [hs3], hcs3⟩
      show (s ++ '/' :: intercalateChar '/' (s2 :: rest2)).reverse = _
      rw [List.reverse_append, List.reverse_cons, hct]
      simp

/-- A normalized slash-join of non-empty slash-free segments does not end
with a slash. -/
theorem intercalate_not_endsWith_slash (segs : List (List Char)) (h : segs ≠ [])
    (hne : ∀ s ∈ segs, s ≠ []) (hsl : ∀ s ∈ segs, '/' ∉ s) :
    strEndsWith (String.mk (intercalateChar '/' segs)) "/" = false := by
  obtain ⟨c, t, hct, s, hs, hcs⟩ := intercalate_reverse_head segs h hne
  unfold strEndsWith
  show (['/'].isPrefixOf (intercalateChar '/' segs).reverse) = false
  rw [hct]
  have hcne : ¬('/' = c) := fun hh => hsl s hs (hh ▸ hcs)
  simp [List.isPrefixOf, hcne]

theorem natReprAux_digits : ∀ (fuel n : Nat), ∀ c ∈ natReprAux fuel n, isDigitC c = true := by
  intro fuel
  induction fuel with
  | zero => intro n c hc; simp [natReprAux] at hc
  | succ fuel ih =>
    intro n c hc
    cases n with
    | zero => simp [natReprAux] at hc
    | succ m =>
      simp only [natReprAux] at hc
      rcases List.mem_append.mp hc with h1 | h1
      · exact ih _ c h1
      · simp only [List.mem_singleton] at h1
        subst h1
        have hlt : (m + 1) % 10 < 10 := Nat.mod_lt _ (by omega)
        interval_cases h : ((m + 1) % 10) <;> decide

theorem natRepr_digits (n : Nat) : ∀ c ∈ (natRepr n).data, isDigitC c = true := by
  intro c hc
  unfold natRepr at hc
  split at hc
  · simp at hc
    subst hc
    decide
  · exact natReprAux_digits n n c hc

theorem sanitizeGo_chars : ∀ (b : Bool) (l : List Char), ∀ c ∈ sanitizeGo b l,
    isSafeC c = true ∨ c = '_' := by
  intro b l
  induction l generalizing b with
  | nil => intro c hc; simp [sanitizeGo] at hc
  | cons x rest ih =>
    intro c hc
    simp only [sanitizeGo] at hc
    split at hc
    · rcases List.mem_cons.mp hc with rfl | h1
      · left; assumption
      · exact ih false c h1
    · split at hc
      · exact ih true c hc
      · rcases List.mem_cons.mp hc with rfl | h1
        · right; rfl
        · exact ih true c h1

theorem flatSegs_cons (p : String) (rest : List String) :
    flatSegs (p :: rest)
      = (splitOnChar '/' p.data).filter (fun s => s ≠ []) ++ flatSegs rest := by
  simp [flatSegs, List.filter_append]

theorem flatSegs_nil : flatSegs [] = [] := rfl

theorem splitOnChar_cons_sep (sep : Char) (t : List Char) :
    splitOnChar sep (sep :: t) = [] :: splitOnChar sep t := by
  simp [splitOnChar]

theorem splitOnChar_dropWhile_sub (sep : Char) (l : List Char) :
    ∀ s ∈ splitOnChar sep (l.dropWhile (fun c => c == sep)),
      s = [] ∨ s ∈ splitOnChar sep l := by
  induction l with
  | nil => intro s hs; simp [splitOnChar] at hs; simp [hs]
  | cons c l ih =>
    intro s hs
    by_cases hc : (c == sep) = true
    · rw [List.dropWhile_cons, if_pos hc] at hs
      have hceq : c = sep := by simpa using hc
      rcases ih s hs with h1 | h1
      · exact Or.inl h1
      · subst hceq
        rw [splitOnChar_cons_sep]
        exact Or.inr (List.mem_cons_of_mem _ h1)
    · rw [List.dropWhile_cons, if_neg hc] at hs
      exact Or.inr hs

theorem isDotLike_of_dotdot {s : List Char} (h : s = ['.', '.']) : isDotLike s = true := by
  subst h
  decide

theorem isDotLike_of_dot {s : List Char} (h : s = ['.']) : isDotLike s = true := by
  subst h
  decide

theorem hostChar_ne_slash {c : Char} (h : isHostChar c = true) : ¬(c = '/') := by
  intro hh
  subst hh
  exact absurd h (by decide)

theorem mkData (l : List Char) : (String.mk l).data = l := rfl

theorem getLastD_mem_or {α : Type} (l : List α) (d : α) :
    l.getLastD d ∈ l ∨ l.getLastD d = d := by
  induction l generalizing d with
  | nil => right; rfl
  | cons a t ih =>
    rcases ih a with h | h
    · left
      rw [List.getLastD_cons]
      exact List.mem_cons_of_mem _ h
    · left
      rw [List.getLastD_cons, h]
      simp

theorem filter_ne_nil_of_all {l : List (List Char)} (h : ∀ s ∈ l, s ≠ []) :
    l.filter (fun s => s ≠ []) = l :=
  List.filter_eq_self.mpr (fun a ha => by simpa using h a ha)

theorem pathBasename_props (p : String) (psegs : List (List Char))
    (hp : p.data = '/' :: intercalateChar '/' psegs) (hne : psegs ≠ [])
    (hnosl : ∀ s ∈ psegs, '/' ∉ s) (hnodot : ∀ s ∈ psegs, isDotLike s = false) :
    '/' ∉ (pathBasename p).data ∧ (pathBasename p).data ≠ ['.', '.'] := by
  have hsplit : splitOnChar '/' p.data = [] :: psegs := by
    rw [hp, splitOnChar_cons_sep, splitOnChar_intercalateChar '/' psegs hne hnosl]
  have hdata : (pathBasename p).data
      = (psegs.filter (fun s => !(s.isEmpty))).getLastD [] := by
    show ((splitOnChar '/' p.data).filter (fun s => !(s.isEmpty))).getLastD [] = _
    rw [hsplit]
    simp
  rw [hdata]
  rcases getLastD_mem_or (psegs.filter (fun s => !(s.isEmpty))) [] with hm | hm
  · have hm2 := List.mem_of_mem_filter hm
    constructor
    · exact hnosl _ hm2
    · intro hdd
      have h5 := hnodot _ hm2
      rw [isDotLike_of_dotdot hdd] at h5
      cases h5
  · rw [hm]
    constructor
    · simp
    · simp

theorem fileName_props (base dev : String) (fullPage : Bool) (scale : Nat)
    (hb : '/' ∉ base.data) (hd : '/' ∉ dev.data) :
    '/' ∉ (base ++ "__" ++ dev ++ (if fullPage then "__full" else "")
        ++ "@" ++ natRepr scale ++ "x.png").data ∧
    (base ++ "__" ++ dev ++ (if fullPage then "__full" else "")
        ++ "@" ++ natRepr scale ++ "x.png").data ≠ ['.', '.'] ∧
    (base ++ "__" ++ dev ++ (if fullPage then "__full" else "")
        ++ "@" ++ natRepr scale ++ "x.png").data ≠ [] := by
  have hat : '@' ∈ (base ++ "__" ++ dev ++ (if fullPage then "__full" else "")
      ++ "@" ++ natRepr scale ++ "x.png").data := by
    simp only [strData_append, List.mem_append]
    left; left; right
    decide
  refine ⟨?_, ?_, ?_⟩
  · intro hm
    simp only [strData_append, List.mem_append] at hm
    rcases hm with (((((hm | hm) | hm) | hm) | hm) | hm) | hm
    · exact hb hm
    · exact absurd hm (by decide)
    · exact hd hm
    · cases fullPage <;> exact absurd hm (by decide)
    · exact absurd hm (by decide)
    · have h5 := natRepr_digits scale '/' hm
      exact absurd h5 (by decide)
    · exact absurd hm (by decide)
  · intro heq
    rw [heq] at hat
    exact absurd hat (by decide)
  · intro heq
    rw [heq] at hat
    exact absurd hat (by decide)

/-- The normalized join of a clean root and dot-dot-free segments does not
end in a slash, and appending a clean file name keeps it inside the root. -/
theorem treeJoin_within (outDir : String) (ps : List String) (rest2 : List (List Char))
    (h3 : outDir.data ≠ ['.']) (h4 : outDir.data ≠ ['.', '.'])
    (hflat : flatSegs ps = outDir.data :: rest2)
    (hprops : ∀ s ∈ rest2, s ≠ ['.', '.'])
    (fileName : String) (hf1 : '/' ∉ fileName.data)
    (hf2 : fileName.data ≠ ['.', '.']) (hf3 : fileName.data ≠ []) :
    strEndsWith (pathJoin ps) "/" = false ∧
    withinRoot outDir (pathJoin [pathJoin ps, fileName]) = true := by
  have hmem : ∀ s ∈ outDir.data :: rest2, s ≠ [] ∧ '/' ∉ s := by
    rw [← hflat]
    exact flatSegs_props
  obtain ⟨hjoin, _⟩ := pathJoin_within outDir ps rest2 h3 h4 hflat hprops
  have hLmem : ∀ s ∈ outDir.data :: rest2.filter (fun s => s ≠ ['.']), s ≠ [] ∧ '/' ∉ s := by
    intro s hs
    rcases List.mem_cons.mp hs with rfl | hs2
    · exact hmem _ (by simp)
    · exact hmem _ (List.mem_cons_of_mem _ (List.mem_of_mem_filter hs2))
  have hends : strEndsWith (pathJoin ps) "/" = false := by
    rw [hjoin]
    exact intercalate_not_endsWith_slash _ (by simp)
      (fun s hs => (hLmem s hs).1) (fun s hs => (hLmem s hs).2)
  refine ⟨hends, ?_⟩
  have hsplitJ : splitOnChar '/' (pathJoin ps).data
      = outDir.data :: rest2.filter (fun s => s ≠ ['.']) := by
    rw [hjoin]
    show splitOnChar '/'
        (intercalateChar '/' (outDir.data :: rest2.filter (fun s => s ≠ ['.']))) = _
    exact splitOnChar_intercalateChar '/' _ (by simp) (fun s hs => (hLmem s hs).2)
  have hflat2 : flatSegs [pathJoin ps, fileName]
      = outDir.data :: (rest2.filter (fun s => s ≠ ['.']) ++ [fileName.data]) := by
    rw [flatSegs_cons, flatSegs_cons, flatSegs_nil, hsplitJ,
      splitOnChar_no_sep '/' fileName.data hf1,
      filter_ne_nil_of_all (fun s hs => (hLmem s hs).1)]
    simp [hf3]
  have hprops2 : ∀ s ∈ rest2.filter (fun s => s ≠ ['.']) ++ [fileName.data],
      s ≠ ['.', '.'] := by
    intro s hs
    rcases List.mem_append.mp hs with hs2 | hs2
    · exact hprops s (List.mem_of_mem_filter hs2)
    · simp only [List.mem_singleton] at hs2
      subst hs2
      exact hf2
  exact (pathJoin_within outDir [pathJoin ps, fileName] _ h3 h4 hflat2 hprops2).2

theorem buildSavePath_eq (outDir u dev : String) (scale : Nat) (fullPage : Bool)
    (mode : String) (r : URLRec) (hu : parseURL1 u = some r) :
    buildSavePath outDir u dev scale fullPage mode =
      if (mode == "tree") = true then
        some (pathJoin [
          (if (r.pathname == "/") = true then pathJoin [outDir, r.host]
           else if strEndsWith (pathJoin [outDir, r.host, r.pathname]) "/" = true then
             String.mk (pathJoin [outDir, r.host, r.pathname]).data.dropLast
           else pathJoin [outDir, r.host, r.pathname]),
          (if (r.pathname == "/") = true then "root" else pathBasename r.pathname) ++ "__"
            ++ dev ++ (if fullPage then "__full" else "") ++ "@" ++ natRepr scale ++ "x.png"])
      else
        some (pathJoin [outDir,
          String.mk ((r.host.data ++ "__".data
              ++ (if (r.pathname == "/") = true then "root"
                  else String.mk (sanitizeSeg r.pathname.data)).data).take 180) ++ "__"
            ++ dev ++ (if fullPage then "__full" else "") ++ "@" ++ natRepr scale
            ++ "x.png"]) := by
  unfold buildSavePath
  rw [hu]

theorem buildSavePathT_eq (outDir u dev : String) (scale : Nat) (fullPage : Bool)
    (mode : String) (r : URLRec) (hu : parseURL1 u = some r) :
    buildSavePathT outDir u dev scale fullPage mode =
      if (mode == "tree") = true then
        some (pathJoin [
          (if (r.pathname == "/") = true then pathJoin [outDir, r.host]
           else if strEndsWith (pathJoin [outDir, r.host,
               String.mk (r.pathname.data.dropWhile (fun c => c == '/'))]) "/" = true then
             String.mk (pathJoin [outDir, r.host,
               String.mk (r.pathname.data.dropWhile (fun c => c == '/'))]).data.dropLast
           else pathJoin [outDir, r.host,
             String.mk (r.pathname.data.dropWhile (fun c => c == '/'))]),
          (if (r.pathname == "/") = true then "root" else pathBasename r.pathname) ++ "__"
            ++ dev ++ (if fullPage then "__full" else "") ++ "@" ++ natRepr scale ++ "x.png"])
      else
        some (pathJoin [outDir,
          String.mk ((r.host.data ++ "__".data
              ++ (if (r.pathname == "/") = true then "root"
                  else String.mk (sanitizeSeg r.pathname.data)).data).take 180) ++ "__"
            ++ dev ++ (if fullPage then "__full" else "") ++ "@" ++ natRepr scale
            ++ "x.png"]) := by
  unfold buildSavePathT
  rw [hu]

/-- Claim C7 (amended): for every URL that parses (with a special scheme),
`buildSavePath` in both its variants produces a relative path that stays
inside `OUT_DIR` — provided the output directory is a clean single segment,
the host is not the literal `..`, and the device label contains no slash.
(Without those provisos the claim fails: see the counterexample, where a
device label of `../../../x` escapes the output root.) -/
theorem buildSavePath_within (outDir u deviceLabel : String) (scale : Nat)
    (fullPage : Bool) (mode : String) (r : URLRec)
    (h1 : outDir.data ≠ []) (h2 : '/' ∉ outDir.data)
    (h3 : outDir.data ≠ ['.']) (h4 : outDir.data ≠ ['.', '.'])
    (hu : parseURL1 u = some r) (hspec : isSpecialProto r.protocol = true)
    (hhost : ¬(r.host = "..")) (hdev : '/' ∉ deviceLabel.data) :
    (∀ out, buildSavePath outDir u deviceLabel scale fullPage mode = some out →
      withinRoot outDir out = true) ∧
    (∀ out, buildSavePathT outDir u deviceLabel scale fullPage mode = some out →
      withinRoot outDir out = true) := by
  have hu2 : parseAbsolute (pre u) = some r := hu
  have hc : Canon r := parseAbsolute_canon (pre_printable u) hu2
  obtain ⟨hne, hall, _, _, ⟨t0, hpath⟩, hnorm⟩ := hc.special_host hspec
  obtain ⟨psegs, hpseq, hpsne, hpsnodot, hpsnosl, _⟩ :=
    normPath_shape r.pathname.data (Or.inr ⟨t0, hpath⟩)
  rw [hnorm] at hpseq
  have hhsl : '/' ∉ r.host.data := fun hm =>
    hostChar_ne_slash (List.all_eq_true.mp hall _ hm) rfl
  have hhdd : r.host.data ≠ ['.', '.'] := by
    intro hdd
    apply hhost
    rw [← strMk_data r.host, hdd]
  have hsplitOut : (splitOnChar '/' outDir.data).filter (fun s => s ≠ []) = [outDir.data] := by
    rw [splitOnChar_no_sep '/' outDir.data h2]
    simp [h1]
  have hsplitHost : (splitOnChar '/' r.host.data).filter (fun s => s ≠ [])
      = [r.host.data] := by
    rw [splitOnChar_no_sep '/' r.host.data hhsl]
    simp [hne]
  have hsplitPath : splitOnChar '/' r.pathname.data = [] :: psegs := by
    rw [hpseq, splitOnChar_cons_sep, splitOnChar_intercalateChar '/' psegs hpsne hpsnosl]
  have hpsF : ∀ s ∈ psegs.filter (fun s => s ≠ []), s ≠ ['.', '.'] := by
    intro s hs hdd
    have h5 := hpsnodot s (List.mem_of_mem_filter hs)
    rw [isDotLike_of_dotdot hdd] at h5
    cases h5
  have hflatW : ∀ (fb : String), '/' ∉ fb.data →
      withinRoot outDir (pathJoin [outDir, fb ++ "__" ++ deviceLabel
        ++ (if fullPage then "__full" else "") ++ "@" ++ natRepr scale ++ "x.png"])
        = true := by
    intro fb hfb
    obtain ⟨hf1, hf2, hf3⟩ := fileName_props fb deviceLabel fullPage scale hfb hdev
    have hflat : flatSegs [outDir, fb ++ "__" ++ deviceLabel
        ++ (if fullPage then "__full" else "") ++ "@" ++ natRepr scale ++ "x.png"]
        = outDir.data :: [(fb ++ "__" ++ deviceLabel
            ++ (if fullPage then "__full" else "") ++ "@" ++ natRepr scale
            ++ "x.png").data] := by
      rw [flatSegs_cons, flatSegs_cons, flatSegs_nil, hsplitOut,
        splitOnChar_no_sep '/' _ hf1]
      simp [hf3]
    refine (pathJoin_within outDir _ _ h3 h4 hflat ?_).2
    intro s hs
    simp only [List.mem_singleton] at hs
    subst hs
    exact hf2
  have htreeW : ∀ (ps : List String) (rest2 : List (List Char)) (fb : String),
      flatSegs ps = outDir.data :: rest2 → (∀ s ∈ rest2, s ≠ ['.', '.']) →
      '/' ∉ fb.data →
      strEndsWith (pathJoin ps) "/" = false ∧
      withinRoot outDir (pathJoin [pathJoin ps, fb ++ "__" ++ deviceLabel
        ++ (if fullPage then "__full" else "") ++ "@" ++ natRepr scale ++ "x.png"])
        = true := by
    intro ps rest2 fb hflat hprops hfb
    obtain ⟨hf1, hf2, hf3⟩ := fileName_props fb deviceLabel fullPage scale hfb hdev
    exact treeJoin_within outDir ps rest2 h3 h4 hflat hprops _ hf1 hf2 hf3
  have hflatRoot : flatSegs [outDir, r.host] = outDir.data :: [r.host.data] := by
    rw [flatSegs_cons, flatSegs_cons, flatSegs_nil, hsplitOut, hsplitHost]
    simp
  have hpropsRoot : ∀ s ∈ [r.host.data], s ≠ ['.', '.'] := by
    intro s hs
    simp only [List.mem_singleton] at hs
    subst hs
    exact hhdd
  have hflatTree : flatSegs [outDir, r.host, r.pathname]
      = outDir.data :: (r.host.data :: psegs.filter (fun s => s ≠ [])) := by
    rw [flatSegs_cons, flatSegs_cons, flatSegs_cons, flatSegs_nil, hsplitOut,
      hsplitHost, hsplitPath]
    simp
  have hpropsTree : ∀ s ∈ r.host.data :: psegs.filter (fun s => s ≠ []),
      s ≠ ['.', '.'] := by
    intro s hs
    rcases List.mem_cons.mp hs with rfl | hs2
    · exact hhdd
    · exact hpsF s hs2
  have hflatTreeT : flatSegs [outDir, r.host,
      String.mk (r.pathname.data.dropWhile (fun c => c == '/'))]
      = outDir.data :: (r.host.data :: (splitOnChar '/'
          (r.pathname.data.dropWhile (fun c => c == '/'))).filter (fun s => s ≠ [])) := by
    rw [flatSegs_cons, flatSegs_cons, flatSegs_cons, flatSegs_nil, hsplitOut, hsplitHost]
    simp [mkData]
  have hpropsTreeT : ∀ s ∈ r.host.data :: (splitOnChar '/'
      (r.pathname.data.dropWhile (fun c => c == '/'))).filter (fun s => s ≠ []),
      s ≠ ['.', '.'] := by
    intro s hs
    rcases List.mem_cons.mp hs with rfl | hs2
    · exact hhdd
    · have hsne : s ≠ [] := by
        have h5 := List.of_mem_filter hs2
        simpa using h5
      have hs3 := List.mem_of_mem_filter hs2
      rcases splitOnChar_dropWhile_sub '/' r.pathname.data s hs3 with h5 | h5
      · exact absurd h5 hsne
      · rw [hsplitPath] at h5
        rcases List.mem_cons.mp h5 with rfl | h6
        · exact absurd rfl hsne
        · intro hdd
          have h7 := hpsnodot s h6
          rw [isDotLike_of_dotdot hdd] at h7
          cases h7
  obtain ⟨hbsl, _⟩ := pathBasename_props r.pathname psegs hpseq hpsne hpsnosl hpsnodot
  constructor
  · intro out hb
    rw [buildSavePath_eq outDir u deviceLabel scale fullPage mode r hu] at hb
    by_cases hmode : (mode == "tree") = true
    · rw [if_pos hmode] at hb
      by_cases hroot : (r.pathname == "/") = true
      · rw [if_pos hroot, if_pos hroot] at hb
        injection hb with hb2
        subst hb2
        exact (htreeW [outDir, r.host] [r.host.data] "root" hflatRoot hpropsRoot
          (by decide)).2
      · rw [if_neg hroot, if_neg hroot] at hb
        have hT := htreeW [outDir, r.host, r.pathname] _ (pathBasename r.pathname)
          hflatTree hpropsTree hbsl
        rw [if_neg (by simp [hT.1])] at hb
        injection hb with hb2
        subst hb2
        exact hT.2
    · rw [if_neg hmode] at hb
      injection hb with hb2
      subst hb2
      apply hflatW
      intro hm
      have hm2 : '/' ∈ r.host.data ++ "__".data
          ++ (if (r.pathname == "/") = true then "root"
              else String.mk (sanitizeSeg r.pathname.data)).data :=
        List.take_subset _ _ hm
      rcases List.mem_append.mp hm2 with hm3 | hm3
      · rcases List.mem_append.mp hm3 with hm4 | hm4
        · exact hhsl hm4
        · exact absurd hm4 (by decide)
      · split at hm3
        · exact absurd hm3 (by decide)
        · have h5 := sanitizeGo_chars false r.pathname.data '/' hm3
          rcases h5 with h5 | h5
          · exact absurd h5 (by decide)
          · exact absurd h5 (by decide)
  · intro out hb
    rw [buildSavePathT_eq outDir u deviceLabel scale fullPage mode r hu] at hb
    by_cases hmode : (mode == "tree") = true
    · rw [if_pos hmode] at hb
      by_cases hroot : (r.pathname == "/") = true
      · rw [if_pos hroot, if_pos hroot] at hb
        injection hb with hb2
        subst hb2
        exact (htreeW [outDir, r.host] [r.host.data] "root" hflatRoot hpropsRoot
          (by decide)).2
      · rw [if_neg hroot, if_neg hroot] at hb
        have hT := htreeW [outDir, r.host,
            String.mk (r.pathname.data.dropWhile (fun c => c == '/'))] _
          (pathBasename r.pathname) hflatTreeT hpropsTreeT hbsl
        rw [if_neg (by simp [hT.1])] at hb
        injection hb with hb2
        subst hb2
        exact hT.2
    · rw [if_neg hmode] at hb
      injection hb with hb2
      subst hb2
      apply hflatW
      intro hm
      have hm2 : '/' ∈ r.host.data ++ "__".data
          ++ (if (r.pathname == "/") = true then "root"
              else String.mk (sanitizeSeg r.pathname.data)).data :=
        List.take_subset _ _ hm
      rcases List.mem_append.mp hm2 with hm3 | hm3
      · rcases List.mem_append.mp hm3 with hm4 | hm4
        · exact hhsl hm4
        · exact absurd hm4 (by decide)
      · split at hm3
        · exact absurd hm3 (by decide)
        · have h5 := sanitizeGo_chars false r.pathname.data '/' hm3
          rcases h5 with h5 | h5
          · exact absurd h5 (by decide)
          · exact absurd h5 (by decide)

/-- Witness for the amended claim C7 at a concrete input: capturing
`https://Ex.COM/a/b` with device `desktop` in tree mode lands inside
`shots`. -/
theorem buildSavePath_within_witness :
    withinRoot "shots" "shots/ex.com/a/b/b__desktop@2x.png" = true :=
  (buildSavePath_within "shots" "https://Ex.COM/a/b" "desktop" 2 false "tree"
      ⟨"https:", "ex.com", "/a/b", "", ""⟩ (by decide) (by decide) (by decide)
      (by decide) (by rfl) (by decide) (by decide) (by decide)).1
    "shots/ex.com/a/b/b__desktop@2x.png" (by rfl)

/-- Counterexample to claim C7 as stated: a device label containing `..`
segments makes the flat-mode save path climb out of the output directory —
`path.join` resolves the `..` segments and the result is not under
`OUT_DIR`. -/
theorem buildSavePath_escape_cex :
    buildSavePath "public" "https://site.test/" "../../../x" 2 false "flat"
      = some "x@2x.png" ∧
    withinRoot "public" "x@2x.png" = false := by
  constructor
  · decide
  · decide

/-! ### Sitemap loc extraction and the capture.mjs crawl loop -/

/-- Find the first occurrence of `needle`, returning the text before it and
the text after it (the scanning step of
`[...xml.matchAll(/<loc>(.*?)<\/loc>/g)]`). -/
def splitAtSub (needle : List Char) : List Char → Option (List Char × List Char)
  | [] => if needle.isEmpty then some ([], []) else none
  | c :: rest =>
    if needle.isPrefixOf (c :: rest) then some ([], (c :: rest).drop needle.length)
    else
      match splitAtSub needle rest with
      | none => none
      | some (a, b) => some (c :: a, b)

/-- `[...xml.matchAll(/<loc>(.*?)<\/loc>/g)].map(m=>m[1].trim())`: lazy
matches of `<loc>…</loc>`; `.` does not cross newlines, so a candidate whose
shortest closing tag lies beyond a newline fails and scanning resumes at the
next `<loc>`. -/
def extractLocsGo : Nat → List Char → List String
  | 0, _ => []
  | fuel + 1, cs =>
    match splitAtSub ("<loc>".data) cs with
    | none => []
    | some (_, rest) =>
      match splitAtSub ("</loc>".data) rest with
      | none => []
      | some (content, rest2) =>
        if content.contains '\n' then extractLocsGo fuel rest
        else String.mk (trimWS content) :: extractLocsGo fuel rest2

def extractLocs (xml : String) : List String := extractLocsGo xml.data.length xml.data

namespace Cap

/-- A queued crawl task `{ start, url, depth }`. -/
structure Task where
  start : String
  url : String
  depth : Nat
deriving Repr, DecidableEq

/-- The oracles the loop consults: the device labels of `contexts`, whether
the screenshot try-block for a (url, device) pair completes without throwing,
and the harvested `a[href]` attribute values of a page. -/
structure Env where
  devices : List String
  captureOk : String → String → Bool
  links : String → List String

/-- The mutable crawl state: the task queue, the `visited` Set (as its
insertion-ordered elements), and the `captured` manifest records projected to
their distinguishing `(url, device)` pair (`scale` and `file` are functions
of that pair and the fixed configuration). -/
structure LoopState where
  queue : List Task
  visited : List String
  captured : List (String × String)
deriving Repr, DecidableEq

/-- `for (const u of locs) { if (shouldVisit(u, START_URLS[0], robots))
queue.push(...) }` inside the sitemap `try`: a `shouldVisit` throw (URL parse
failure) aborts the remaining entries but keeps what was already pushed. -/
def sitemapGo (cfg : Config) (robots : Option RobotsPolicy) (start0 : String) :
    List String → List Task
  | [] => []
  | u :: rest =>
    match shouldVisit cfg robots u start0 with
    | none => []
    | some true => ⟨start0, u, 0⟩ :: sitemapGo cfg robots start0 rest
    | some false => sitemapGo cfg robots start0 rest

/-- The sitemap contribution to the queue; `none` is a failed fetch or body
read (the `catch` path, which only logs). -/
def sitemapTasks (cfg : Config) (robots : Option RobotsPolicy) (start0 : String) :
    Option String → List Task
  | none => []
  | some xml => sitemapGo cfg robots start0 (extractLocs xml)

/-- The initial queue: one depth-0 task per start URL, then the admitted
sitemap entries (`start0` is `START_URLS[0]`). -/
def initQueue (cfg : Config) (robots : Option RobotsPolicy) (startUrls : List String)
    (start0 : String) (sitemapFetch : Option String) : List Task :=
  startUrls.map (fun u => ⟨u, u, 0⟩) ++ sitemapTasks cfg robots start0 sitemapFetch

/-- The link-harvest `for (const raw of links)` loop: normalize, skip
falsy/already-visited targets, re-check admission, enqueue, and break once
`queue.length + visited.size >= MAX_PAGES`.  `none` is a `shouldVisit` throw
(which is uncaught in the crawl loop). -/
def harvestGo (cfg : Config) (robots : Option RobotsPolicy) (maxPages : Nat)
    (start url : String) (depth : Nat) (visited : List String) :
    List String → List Task → Option (List Task)
  | [], queue => some queue
  | raw :: rest, queue =>
    match normalizeUrl raw url with
    | none => harvestGo cfg robots maxPages start url depth visited rest queue
    | some abs =>
      if abs == "" || visited.contains abs then
        harvestGo cfg robots maxPages start url depth visited rest queue
      else
        match shouldVisit cfg robots abs start with
        | none => none
        | some false => harvestGo cfg robots maxPages start url depth visited rest queue
        | some true =>
          let queue2 := queue ++ [⟨start, abs, depth + 1⟩]
          if maxPages ≤ queue2.length + visited.length then some queue2
          else harvestGo cfg robots maxPages start url depth visited rest queue2

/-- One iteration of the `while` body: shift a task, drop it if already
visited or not admitted, otherwise mark it visited, capture it on every
device whose try-block succeeds, and (below the depth limit) harvest its
links. -/
def stepTask (cfg : Config) (robots : Option RobotsPolicy) (maxPages maxDepth : Nat)
    (env : Env) (st : LoopState) : Option LoopState :=
  match st.queue with
  | [] => some st
  | tk :: qrest =>
    if st.visited.contains tk.url then some ⟨qrest, st.visited, st.captured⟩
    else
      match shouldVisit cfg robots tk.url tk.start with
      | none => none
      | some false => some ⟨qrest, st.visited, st.captured⟩
      | some true =>
        let visited2 := st.visited ++ [tk.url]
        let captured2 := st.captured ++
          (env.devices.filter (fun d => env.captureOk tk.url d)).map
            (fun d => (tk.url, d))
        if maxDepth ≤ tk.depth then some ⟨qrest, visited2, captured2⟩
        else
          match harvestGo cfg robots maxPages tk.start tk.url tk.depth visited2
              (env.links tk.url) qrest with
          | none => none
          | some queue2 => some ⟨queue2, visited2, captured2⟩

/-- `while (queue.length && visited.size < MAX_PAGES) { … }`, with explicit
fuel; exhausted fuel returns the state reached so far, so the states
reachable at any point of the loop are exactly the `run` results over all
fuels. -/
def run (cfg : Config) (robots : Option RobotsPolicy) (maxPages maxDepth : Nat)
    (env : Env) : Nat → LoopState → Option LoopState
  | 0, st => some st
  | fuel + 1, st =>
    if st.queue.isEmpty || decide (maxPages ≤ st.visited.length) then some st
    else
      match stepTask cfg robots maxPages maxDepth env st with
      | none => none
      | some st2 => run cfg robots maxPages maxDepth env fuel st2

/-- The loop invariant behind claim C4. -/
def Inv (maxPages : Nat) (st : LoopState) : Prop :=
  st.visited.Nodup ∧ st.visited.length ≤ maxPages ∧
  st.captured.Nodup ∧ ∀ p ∈ st.captured, p.1 ∈ st.visited

end Cap

namespace Cap

theorem stepTask_inv {cfg : Config} {robots : Option RobotsPolicy}
    {maxPages maxDepth : Nat} {env : Env} {st st' : LoopState}
    (hdev : env.devices.Nodup) (hinv : Inv maxPages st)
    (hguard : st.visited.length < maxPages)
    (hstep : stepTask cfg robots maxPages maxDepth env st = some st') :
    Inv maxPages st' := by
  obtain ⟨q, vis, cap⟩ := st
  obtain ⟨hnd, hlen, hcnd, hcmem⟩ := hinv
  cases q with
  | nil =>
    simp only [stepTask] at hstep
    injection hstep with h
    subst h
    exact ⟨hnd, hlen, hcnd, hcmem⟩
  | cons tk qrest =>
    simp only [stepTask] at hstep
    by_cases hv : (vis.contains tk.url) = true
    · rw [if_pos hv] at hstep
      injection hstep with h
      subst h
      exact ⟨hnd, hlen, hcnd, hcmem⟩
    · rw [if_neg hv] at hstep
      have hnm : tk.url ∉ vis := by simpa using hv
      cases hsv : shouldVisit cfg robots tk.url tk.start with
      | none => rw [hsv] at hstep; cases hstep
      | some b =>
        rw [hsv] at hstep
        cases b with
        | false =>
          injection hstep with h
          subst h
          exact ⟨hnd, hlen, hcnd, hcmem⟩
        | true =>
          have hstep2 :
              (if maxDepth ≤ tk.depth then
                some (⟨qrest, vis ++ [tk.url], cap ++
                  (env.devices.filter (fun d => env.captureOk tk.url d)).map
                    (fun d => (tk.url, d))⟩ : LoopState)
              else
                match harvestGo cfg robots maxPages tk.start tk.url tk.depth
                    (vis ++ [tk.url]) (env.links tk.url) qrest with
                | none => none
                | some queue2 =>
                  some ⟨queue2, vis ++ [tk.url], cap ++
                    (env.devices.filter (fun d => env.captureOk tk.url d)).map
                      (fun d => (tk.url, d))⟩) = some st' := hstep
          have hInv2 : ∀ queue2 : List Task, Inv maxPages ⟨queue2, vis ++ [tk.url], cap ++
              (env.devices.filter (fun d => env.captureOk tk.url d)).map
                (fun d => (tk.url, d))⟩ := by
            intro queue2
            refine ⟨?_, ?_, ?_, ?_⟩
            · simp [List.nodup_append, hnd, hnm]
            · have hg2 : vis.length < maxPages := hguard
              simp only [List.length_append, List.length_singleton]
              omega
            · rw [List.nodup_append]
              refine ⟨hcnd, ?_, ?_⟩
              · apply (hdev.filter _).map
                intro a b hab
                simpa using hab
              · intro p hp hp2
                rcases List.mem_map.mp hp2 with ⟨d, _, hpd⟩
                have hp1 : p.1 ∈ vis := hcmem p hp
                rw [← hpd] at hp1
                exact hnm hp1
            · intro p hp
              rcases List.mem_append.mp hp with h1 | h1
              · exact List.mem_append.mpr (Or.inl (hcmem p h1))
              · rcases List.mem_map.mp h1 with ⟨d, _, hpd⟩
                rw [← hpd]
                simp
          by_cases hd : maxDepth ≤ tk.depth
          · rw [if_pos hd] at hstep2
            injection hstep2 with h
            subst h
            exact hInv2 qrest
          · rw [if_neg hd] at hstep2
            cases hh : harvestGo cfg robots maxPages tk.start tk.url tk.depth
                (vis ++ [tk.url]) (env.links tk.url) qrest with
            | none => rw [hh] at hstep2; cases hstep2
            | some queue2 =>
              rw [hh] at hstep2
              injection hstep2 with h
              subst h
              exact hInv2 queue2

theorem run_inv {cfg : Config} {robots : Option RobotsPolicy}
    {maxPages maxDepth : Nat} {env : Env} (hdev : env.devices.Nodup) :
    ∀ (fuel : Nat) (st st' : LoopState), Inv maxPages st →
      run cfg robots maxPages maxDepth env fuel st = some st' →
      Inv maxPages st' := by
  intro fuel
  induction fuel with
  | zero =>
    intro st st' hinv hrun
    simp only [run] at hrun
    injection hrun with h
    subst h
    exact hinv
  | succ fuel ih =>
    intro st st' hinv hrun
    simp only [run] at hrun
    by_cases hg : (st.queue.isEmpty || decide (maxPages ≤ st.visited.length)) = true
    · rw [if_pos hg] at hrun
      injection hrun with h
      subst h
      exact hinv
    · rw [if_neg hg] at hrun
      have hguard : st.visited.length < maxPages := by
        by_contra hge
        exact hg (by simp [Nat.le_of_not_lt hge])
      cases hstep : stepTask cfg robots maxPages maxDepth env st with
      | none => rw [hstep] at hrun; cases hrun
      | some st2 =>
        rw [hstep] at hrun
        exact ih st2 st' (stepTask_inv hdev hinv hguard hstep) hrun

/-- The part of the loop invariant that needs no assumption on the device
configuration: the visited Set, as a list, stays duplicate-free and within
`MAX_PAGES`. -/
def InvV (maxPages : Nat) (st : LoopState) : Prop :=
  st.visited.Nodup ∧ st.visited.length ≤ maxPages

theorem stepTask_invV {cfg : Config} {robots : Option RobotsPolicy}
    {maxPages maxDepth : Nat} {env : Env} {st st' : LoopState}
    (hinv : InvV maxPages st) (hguard : st.visited.length < maxPages)
    (hstep : stepTask cfg robots maxPages maxDepth env st = some st') :
    InvV maxPages st' := by
  obtain ⟨q, vis, cap⟩ := st
  obtain ⟨hnd, hlen⟩ := hinv
  cases q with
  | nil =>
    simp only [stepTask] at hstep
    injection hstep with h
    subst h
    exact ⟨hnd, hlen⟩
  | cons tk qrest =>
    simp only [stepTask] at hstep
    by_cases hv : (vis.contains tk.url) = true
    · rw [if_pos hv] at hstep
      injection hstep with h
      subst h
      exact ⟨hnd, hlen⟩
    · rw [if_neg hv] at hstep
      have hnm : tk.url ∉ vis := by simpa using hv
      cases hsv : shouldVisit cfg robots tk.url tk.start with
      | none => rw [hsv] at hstep; cases hstep
      | some b =>
        rw [hsv] at hstep
        cases b with
        | false =>
          injection hstep with h
          subst h
          exact ⟨hnd, hlen⟩
        | true =>
          have hstep2 :
              (if maxDepth ≤ tk.depth then
                some (⟨qrest, vis ++ [tk.url], cap ++
                  (env.devices.filter (fun d => env.captureOk tk.url d)).map
                    (fun d => (tk.url, d))⟩ : LoopState)
              else
                match harvestGo cfg robots maxPages tk.start tk.url tk.depth
                    (vis ++ [tk.url]) (env.links tk.url) qrest with
                | none => none
                | some queue2 =>
                  some ⟨queue2, vis ++ [tk.url], cap ++
                    (env.devices.filter (fun d => env.captureOk tk.url d)).map
                      (fun d => (tk.url, d))⟩) = some st' := hstep
          have hInv2 : ∀ queue2 : List Task, InvV maxPages ⟨queue2, vis ++ [tk.url],
              cap ++ (env.devices.filter (fun d => env.captureOk tk.url d)).map
                (fun d => (tk.url, d))⟩ := by
            intro queue2
            refine ⟨?_, ?_⟩
            · simp [List.nodup_append, hnd, hnm]
            · have hg2 : vis.length < maxPages := hguard
              simp only [List.length_append, List.length_singleton]
              omega
          by_cases hd : maxDepth ≤ tk.depth
          · rw [if_pos hd] at hstep2
            injection hstep2 with h
            subst h
            exact hInv2 qrest
          · rw [if_neg hd] at hstep2
            cases hh : harvestGo cfg robots maxPages tk.start tk.url tk.depth
                (vis ++ [tk.url]) (env.links tk.url) qrest with
            | none => rw [hh] at hstep2; cases hstep2
            | some queue2 =>
              rw [hh] at hstep2
              injection hstep2 with h
              subst h
              exact hInv2 queue2

theorem run_invV {cfg : Config} {robots : Option RobotsPolicy}
    {maxPages maxDepth : Nat} {env : Env} :
    ∀ (fuel : Nat) (st st' : LoopState), InvV maxPages st →
      run cfg robots maxPages maxDepth env fuel st = some st' →
      InvV maxPages st' := by
  intro fuel
  induction fuel with
  | zero =>
    intro st st' hinv hrun
    simp only [run] at hrun
    injection hrun with h
    subst h
    exact hinv
  | succ fuel ih =>
    intro st st' hinv hrun
    simp only [run] at hrun
    by_cases hg : (st.queue.isEmpty || decide (maxPages ≤ st.visited.length)) = true
    · rw [if_pos hg] at hrun
      injection hrun with h
      subst h
      exact hinv
    · rw [if_neg hg] at hrun
      have hguard : st.visited.length < maxPages := by
        by_contra hge
        exact hg (by simp [Nat.le_of_not_lt hge])
      cases hstep : stepTask cfg robots maxPages maxDepth env st with
      | none => rw [hstep] at hrun; cases hrun
      | some st2 =>
        rw [hstep] at hrun
        exact ih st2 st' (stepTask_invV hinv hguard hstep) hrun

end Cap

/-- Claim C4 (amended): starting from the initial queue (seeds plus admitted
sitemap entries) with empty `visited` and `captured`, every state the crawl
loop reaches (every `run` result, over all fuels — exhausted fuel returns
the intermediate state) has at most `MAX_PAGES` distinct visited URLs — for
every run, with no assumption on the device configuration; and whenever the
configured device labels are pairwise distinct, its manifest holds no two
records with the same `(url, device)` pair.  Without the distinct-labels
proviso the pair-uniqueness part fails: see the counterexample, where a
repeated label produces two records for the same `(url, device)` pair. -/
theorem crawl_invariant (cfg : Cap.Config) (robots : Option RobotsPolicy)
    (maxPages maxDepth : Nat) (env : Cap.Env) (startUrls : List String)
    (start0 : String) (smf : Option String) (fuel : Nat) (st' : Cap.LoopState)
    (hrun : Cap.run cfg robots maxPages maxDepth env fuel
      ⟨Cap.initQueue cfg robots startUrls start0 smf, [], []⟩ = some st') :
    (st'.visited.Nodup ∧ st'.visited.length ≤ maxPages) ∧
    (env.devices.Nodup → st'.captured.Nodup) := by
  refine ⟨?_, ?_⟩
  · exact Cap.run_invV fuel _ st' ⟨List.nodup_nil, by simp⟩ hrun
  · intro hdev
    exact (Cap.run_inv hdev fuel _ st'
      ⟨List.nodup_nil, by simp, List.nodup_nil, by simp⟩ hrun).2.2.1

/-- Witness for claim C4 at a concrete crawl: one seed, two distinct device
labels, the run terminates with one visited page and two manifest records. -/
theorem crawl_invariant_witness :
    (Cap.LoopState.mk [] ["https://a.test/"]
        [("https://a.test/", "desktop"), ("https://a.test/", "mobile")]).visited.Nodup ∧
    (Cap.LoopState.mk [] ["https://a.test/"]
        [("https://a.test/", "desktop"), ("https://a.test/", "mobile")]).visited.length ≤ 10 ∧
    (Cap.LoopState.mk [] ["https://a.test/"]
        [("https://a.test/", "desktop"), ("https://a.test/", "mobile")]).captured.Nodup := by
  have h := crawl_invariant ⟨[], true, "none", false⟩ none 10 0
    ⟨["desktop", "mobile"], fun _ _ => true, fun _ => []⟩ ["https://a.test/"]
    "https://a.test/" none 5 _ (by rfl)
  exact ⟨h.1.1, h.1.2, h.2 (by decide)⟩

/-- Claim C4 counterexample: with a duplicated device label `D` the manifest
of a completed run contains the pair `(url, D)` twice, so record uniqueness
does not hold for arbitrary device configurations. -/
theorem crawl_dup_device_cex :
    (Cap.run ⟨[], true, "none", false⟩ none 10 0
        ⟨["D", "D"], fun _ _ => true, fun _ => []⟩ 5
        ⟨[⟨"https://a.test/", "https://a.test/", 0⟩], [], []⟩).map Cap.LoopState.captured
      = some [("https://a.test/", "D"), ("https://a.test/", "D")] ∧
    ¬ ([("https://a.test/", "D"), ("https://a.test/", "D")] :
        List (String × String)).Nodup := by
  constructor
  · rfl
  · decide

/-- Claim C9: every failure path of `loadRobots` — network error, non-OK
response, or body-read failure — yields the permissive default
`{disallow: [], delay: 0}` (the function never raises), and a failed sitemap
fetch contributes no tasks, leaving the initial queue exactly the seed
tasks. -/
theorem loadRobots_failure_default :
    (∀ f : FetchResult, f.isFailure = true → loadRobots f = ⟨[], 0⟩) ∧
    (∀ (cfg : Cap.Config) (robots : Option RobotsPolicy) (start0 : String)
        (startUrls : List String),
      Cap.sitemapTasks cfg robots start0 none = [] ∧
      Cap.initQueue cfg robots startUrls start0 none
        = startUrls.map (fun u => ⟨u, u, 0⟩)) := by
  constructor
  · intro f hf
    cases f with
    | netError => rfl
    | response ok body =>
      cases ok with
      | false => rfl
      | true =>
        cases body with
        | none => rfl
        | some txt => simp [FetchResult.isFailure] at hf
  · intro cfg robots start0 startUrls
    exact ⟨rfl, by simp [Cap.initQueue, Cap.sitemapTasks]⟩

/-- Witness for claim C9: a network error is a failure and maps to the
permissive default, and a failed sitemap fetch contributes nothing. -/
theorem loadRobots_failure_default_witness :
    FetchResult.netError.isFailure = true ∧
    loadRobots FetchResult.netError = ⟨[], 0⟩ ∧
    Cap.sitemapTasks ⟨[], true, "start", true⟩ none "https://a.test/" none = [] :=
  ⟨by decide, loadRobots_failure_default.1 FetchResult.netError (by decide),
    (loadRobots_failure_default.2 ⟨[], true, "start", true⟩ none "https://a.test/" []).1⟩

/-! ### The part_000 crawl loop (stateful shouldVisit with sampleTaken) -/

namespace Samp

/-- The part_000 crawl state: queue, visited Set, manifest records (as their
`(url, device)` pairs) and the global `sampleTaken` registry. -/
structure LoopState where
  queue : List Cap.Task
  visited : List String
  captured : List (String × String)
  sample : List (String × Bool)
deriving Repr, DecidableEq

/-- The part_000 link-harvest loop; identical to the capture.mjs one except
that `shouldVisit` threads the `sampleTaken` registry. -/
def harvestGo (cfg : Config) (robots : Option RobotsPolicy) (maxPages : Nat)
    (start url : String) (depth : Nat) (visited : List String) :
    List String → List Cap.Task → List (String × Bool) →
      Option (List Cap.Task × List (String × Bool))
  | [], queue, sm => some (queue, sm)
  | raw :: rest, queue, sm =>
    match normalizeUrl raw url with
    | none => harvestGo cfg robots maxPages start url depth visited rest queue sm
    | some abs =>
      if abs == "" || visited.contains abs then
        harvestGo cfg robots maxPages start url depth visited rest queue sm
      else
        match shouldVisit cfg robots abs start sm with
        | none => none
        | some (false, sm2) =>
          harvestGo cfg robots maxPages start url depth visited rest queue sm2
        | some (true, sm2) =>
          let queue2 := queue ++ [⟨start, abs, depth + 1⟩]
          if maxPages ≤ queue2.length + visited.length then some (queue2, sm2)
          else harvestGo cfg robots maxPages start url depth visited rest queue2 sm2

/-- One iteration of the part_000 `while` body. -/
def stepTask (cfg : Config) (robots : Option RobotsPolicy) (maxPages maxDepth : Nat)
    (env : Cap.Env) (st : LoopState) : Option LoopState :=
  match st.queue with
  | [] => some st
  | tk :: qrest =>
    if st.visited.contains tk.url then
      some ⟨qrest, st.visited, st.captured, st.sample⟩
    else
      match shouldVisit cfg robots tk.url tk.start st.sample with
      | none => none
      | some (false, sm2) => some ⟨qrest, st.visited, st.captured, sm2⟩
      | some (true, sm2) =>
        let visited2 := st.visited ++ [tk.url]
        let captured2 := st.captured ++
          (env.devices.filter (fun d => env.captureOk tk.url d)).map
            (fun d => (tk.url, d))
        if maxDepth ≤ tk.depth then some ⟨qrest, visited2, captured2, sm2⟩
        else
          match harvestGo cfg robots maxPages tk.start tk.url tk.depth visited2
              (env.links tk.url) qrest sm2 with
          | none => none
          | some (queue2, sm3) => some ⟨queue2, visited2, captured2, sm3⟩

/-- The part_000 crawl loop with explicit fuel. -/
def run (cfg : Config) (robots : Option RobotsPolicy) (maxPages maxDepth : Nat)
    (env : Cap.Env) : Nat → LoopState → Option LoopState
  | 0, st => some st
  | fuel + 1, st =>
    if st.queue.isEmpty || decide (maxPages ≤ st.visited.length) then some st
    else
      match stepTask cfg robots maxPages maxDepth env st with
      | none => none
      | some st2 => run cfg robots maxPages maxDepth env fuel st2

/-- The part_000 sitemap enqueue loop: each entry is admission-checked (and
may consume the sample exception); a `shouldVisit` throw aborts the rest. -/
def sitemapGo (cfg : Config) (robots : Option RobotsPolicy) (start0 : String) :
    List String → List (String × Bool) → List Cap.Task × List (String × Bool)
  | [], sm => ([], sm)
  | u :: rest, sm =>
    match shouldVisit cfg robots u start0 sm with
    | none => ([], sm)
    | some (true, sm2) =>
      let r := sitemapGo cfg robots start0 rest sm2
      (⟨start0, u, 0⟩ :: r.1, r.2)
    | some (false, sm2) => sitemapGo cfg robots start0 rest sm2

/-- The initial queue of part_000: the seed tasks are enqueued without any
admission check; sitemap entries (if the fetch succeeded) pass through
`shouldVisit`. -/
def initQueue (cfg : Config) (robots : Option RobotsPolicy) (startUrls : List String)
    (start0 : String) (smf : Option String) (sm : List (String × Bool)) :
    List Cap.Task × List (String × Bool) :=
  match smf with
  | none => (startUrls.map (fun u => ⟨u, u, 0⟩), sm)
  | some xml =>
    let r := sitemapGo cfg robots start0 (extractLocs xml) sm
    (startUrls.map (fun u => ⟨u, u, 0⟩) ++ r.1, r.2)

end Samp

namespace Samp

/-- `shouldVisitCore` with its `let` bindings expanded (definitional). -/
theorem shouldVisitCore_eq (cfg : Config) (robots : Option RobotsPolicy)
    (u : String) (t s : URLRec) (st : List (String × Bool)) :
    shouldVisitCore cfg robots u t s st
      = (if (!(["http:", "https:"].contains t.protocol)) = true then ((false : Bool), st)
        else if (cfg.sameHostOnly && !(t.host == s.host)) = true then (false, st)
        else if (cfg.pathPrefixMode == "start" &&
            (let pfx := if strEndsWith s.pathname "/" then s.pathname
              else s.pathname ++ "/"
             !(pfx == "/") && !(strStartsWith (t.pathname ++ "/") pfx))) = true then
          (false, st)
        else if (cfg.skipPatterns.any (fun p => regexTestI p u)) = true then
          (if cfg.sampleDetailAllow = true then
            (if (allowSampleDetailIfFirst cfg.samplePatterns st t).1 = true then
              (true, (allowSampleDetailIfFirst cfg.samplePatterns st t).2)
            else (false, (allowSampleDetailIfFirst cfg.samplePatterns st t).2))
          else (false, st))
        else if (cfg.respectRobots && robots.isSome &&
            blockedByRobots t.pathname ((robots.getD ⟨[], 0⟩).disallow)) = true then
          (false, st)
        else (true, st)) := rfl

theorem find?_map_set (k cat : String) (v : Bool) (st : List (String × Bool)) :
    ((st.map (fun p => if p.1 == k then (p.1, v) else p)).find?
        (fun p => p.1 == cat))
      = (st.find? (fun p => p.1 == cat)).map
          (fun p => if p.1 == k then (p.1, v) else p) := by
  induction st with
  | nil => rfl
  | cons p rest ih =>
    simp only [List.map_cons, List.find?_cons]
    have hfp : ((if (p.1 == k) = true then (p.1, v) else p) : String × Bool).1 = p.1 := by
      by_cases hk : (p.1 == k) = true
      · rw [if_pos hk]
      · rw [if_neg hk]
    rw [hfp]
    by_cases hc : (p.1 == cat) = true
    · rw [hc]
      rfl
    · have hcf : (p.1 == cat) = false := by simpa using hc
      rw [hcf, ih]

theorem mapGet_eq_true_iff (m : List (String × Bool)) (k : String) :
    mapGet m k = true ↔
      ∃ p, m.find? (fun q => q.1 == k) = some p ∧ p.2 = true := by
  unfold mapGet
  cases hf : m.find? (fun q => q.1 == k) with
  | none => simp
  | some p => simp

theorem mapGet_mono (st : List (String × Bool)) (k cat : String)
    (h : mapGet st cat = true) : mapGet (mapSet st k true) cat = true := by
  obtain ⟨p, hf, hp2⟩ := (mapGet_eq_true_iff st cat).mp h
  unfold mapSet
  by_cases hh : st.any (fun p => p.1 == k) = true
  · rw [if_pos hh]
    apply (mapGet_eq_true_iff _ _).mpr
    refine ⟨if p.1 == k then (p.1, true) else p, ?_, ?_⟩
    · rw [find?_map_set, hf]
      rfl
    · by_cases hk : (p.1 == k) = true
      · simp [hk]
      · simp [hk, hp2]
  · rw [if_neg hh]
    apply (mapGet_eq_true_iff _ _).mpr
    refine ⟨p, ?_, hp2⟩
    rw [List.find?_append, hf]
    rfl

theorem mapGet_mapSet_self (st : List (String × Bool)) (k : String) :
    mapGet (mapSet st k true) k = true := by
  unfold mapSet
  by_cases hh : st.any (fun p => p.1 == k) = true
  · rw [if_pos hh]
    obtain ⟨p, hp, hpk⟩ := List.any_eq_true.mp hh
    apply (mapGet_eq_true_iff _ _).mpr
    cases hf : st.find? (fun p => p.1 == k) with
    | none =>
      exfalso
      rw [List.find?_eq_none] at hf
      exact hf p hp hpk
    | some q =>
      have hq := List.find?_some hf
      refine ⟨(q.1, true), ?_, rfl⟩
      rw [find?_map_set, hf]
      show some (if (q.1 == k) = true then (q.1, true) else q) = some (q.1, true)
      rw [if_pos hq]
  · rw [if_neg hh]
    apply (mapGet_eq_true_iff _ _).mpr
    refine ⟨(k, true), ?_, rfl⟩
    rw [List.find?_append]
    have hf : st.find? (fun p => p.1 == k) = none := by
      rw [List.find?_eq_none]
      intro x hx hxk
      exact hh (List.any_eq_true.mpr ⟨x, hx, hxk⟩)
    rw [hf]
    simp only [List.find?_cons]
    rw [show (k == k) = true by simp]
    rfl

theorem allowSample_state (pats : List String) (st : List (String × Bool))
    (t : URLRec) :
    (allowSampleDetailIfFirst pats st t).2 = st ∨
    ∃ c, (allowSampleDetailIfFirst pats st t).2 = mapSet st c true := by
  cases hg : getMatchedCategory pats t.pathname with
  | none =>
    simp [allowSampleDetailIfFirst, hg]
  | some cat =>
    simp only [allowSampleDetailIfFirst, hg]
    by_cases hl : isListingPathAfterCategory t.pathname cat = true
    · rw [if_pos hl]
      left
      rfl
    · rw [if_neg hl]
      by_cases hc : (mapHas st cat && (mapGet st cat == false)) = true
      · rw [if_pos hc]
        right
        exact ⟨cat, rfl⟩
      · rw [if_neg hc]
        left
        rfl

theorem allowSample_spec (pats : List String) (st : List (String × Bool))
    (t : URLRec) {st2 : List (String × Bool)}
    (h : allowSampleDetailIfFirst pats st t = (true, st2)) :
    ∃ cat, getMatchedCategory pats t.pathname = some cat ∧
      isListingPathAfterCategory t.pathname cat = false ∧
      st2 = mapSet st cat true ∧ mapGet st2 cat = true := by
  cases hg : getMatchedCategory pats t.pathname with
  | none =>
    simp only [allowSampleDetailIfFirst, hg] at h
    simp at h
  | some cat =>
    simp only [allowSampleDetailIfFirst, hg] at h
    by_cases hl : isListingPathAfterCategory t.pathname cat = true
    · rw [if_pos hl] at h
      simp at h
    · rw [if_neg hl] at h
      by_cases hc : (mapHas st cat && (mapGet st cat == false)) = true
      · rw [if_pos hc] at h
        have h2 : st2 = mapSet st cat true := by
          have h3 := congrArg Prod.snd h
          simpa using h3.symm
        subst h2
        exact ⟨cat, rfl, by simpa using hl, rfl, mapGet_mapSet_self st cat⟩
      · rw [if_neg hc] at h
        simp at h

theorem allowSample_reject (pats : List String) (st3 : List (String × Bool))
    (t : URLRec) (cat : String)
    (hg : getMatchedCategory pats t.pathname = some cat)
    (hl : isListingPathAfterCategory t.pathname cat = false)
    (hc : mapGet st3 cat = true) :
    allowSampleDetailIfFirst pats st3 t = (false, st3) := by
  simp only [allowSampleDetailIfFirst, hg]
  rw [if_neg (show ¬(isListingPathAfterCategory t.pathname cat = true) by simp [hl])]
  rw [hc]
  simp

end Samp

namespace Samp

theorem shouldVisitCore_mono (cfg : Config) (robots : Option RobotsPolicy)
    (u : String) (t s : URLRec) (st : List (String × Bool)) (cat : String)
    (h : mapGet st cat = true) :
    mapGet (shouldVisitCore cfg robots u t s st).2 cat = true := by
  rw [shouldVisitCore_eq]
  by_cases h1 : (!(["http:", "https:"].contains t.protocol)) = true
  · rw [if_pos h1]; exact h
  · rw [if_neg h1]
    by_cases h2 : (cfg.sameHostOnly && !(t.host == s.host)) = true
    · rw [if_pos h2]; exact h
    · rw [if_neg h2]
      by_cases h3 : (cfg.pathPrefixMode == "start" &&
          (let pfx := if strEndsWith s.pathname "/" then s.pathname
            else s.pathname ++ "/"
           !(pfx == "/") && !(strStartsWith (t.pathname ++ "/") pfx))) = true
      · rw [if_pos h3]; exact h
      · rw [if_neg h3]
        by_cases h4 : (cfg.skipPatterns.any (fun p => regexTestI p u)) = true
        · rw [if_pos h4]
          by_cases h5 : cfg.sampleDetailAllow = true
          · rw [if_pos h5]
            have hX : mapGet (allowSampleDetailIfFirst cfg.samplePatterns st t).2
                cat = true := by
              rcases allowSample_state cfg.samplePatterns st t with hA | ⟨c, hA⟩
              · rw [hA]; exact h
              · rw [hA]; exact mapGet_mono st c cat h
            by_cases h6 : (allowSampleDetailIfFirst cfg.samplePatterns st t).1 = true
            · rw [if_pos h6]; exact hX
            · rw [if_neg h6]; exact hX
          · rw [if_neg h5]; exact h
        · rw [if_neg h4]
          by_cases h7 : (cfg.respectRobots && robots.isSome &&
              blockedByRobots t.pathname ((robots.getD ⟨[], 0⟩).disallow)) = true
          · rw [if_pos h7]; exact h
          · rw [if_neg h7]; exact h

theorem shouldVisitCore_consumes (cfg : Config) (robots : Option RobotsPolicy)
    (u : String) (t s : URLRec) (st st2 : List (String × Bool))
    (hskip : (cfg.skipPatterns.any (fun p => regexTestI p u)) = true)
    (hcore : shouldVisitCore cfg robots u t s st = (true, st2)) :
    ∃ cat, getMatchedCategory cfg.samplePatterns t.pathname = some cat ∧
      mapGet st2 cat = true ∧
      ∀ st3, mapGet st3 cat = true →
        shouldVisitCore cfg robots u t s st3 = (false, st3) := by
  rw [shouldVisitCore_eq] at hcore
  by_cases h1 : (!(["http:", "https:"].contains t.protocol)) = true
  · rw [if_pos h1] at hcore; simp at hcore
  · rw [if_neg h1] at hcore
    by_cases h2 : (cfg.sameHostOnly && !(t.host == s.host)) = true
    · rw [if_pos h2] at hcore; simp at hcore
    · rw [if_neg h2] at hcore
      by_cases h3 : (cfg.pathPrefixMode == "start" &&
          (let pfx := if strEndsWith s.pathname "/" then s.pathname
            else s.pathname ++ "/"
           !(pfx == "/") && !(strStartsWith (t.pathname ++ "/") pfx))) = true
      · rw [if_pos h3] at hcore; simp at hcore
      · rw [if_neg h3] at hcore
        rw [if_pos hskip] at hcore
        by_cases h5 : cfg.sampleDetailAllow = true
        · rw [if_pos h5] at hcore
          cases hP : allowSampleDetailIfFirst cfg.samplePatterns st t with
          | mk rb rsm =>
            rw [hP] at hcore
            cases rb with
            | false =>
              rw [if_neg (show ¬((((false, rsm) : Bool ×
                  List (String × Bool))).1 = true) by simp)] at hcore
              simp at hcore
            | true =>
              rw [if_pos (show (((true, rsm) : Bool ×
                  List (String × Bool))).1 = true from rfl)] at hcore
              have hsm : rsm = st2 := by simpa using congrArg Prod.snd hcore
              subst hsm
              obtain ⟨cat, hg, hl, _, hget⟩ :=
                allowSample_spec cfg.samplePatterns st t hP
              refine ⟨cat, hg, hget, ?_⟩
              intro st3 hc3
              rw [shouldVisitCore_eq]
              rw [if_neg h1, if_neg h2, if_neg h3, if_pos hskip, if_pos h5,
                allowSample_reject cfg.samplePatterns st3 t cat hg hl hc3]
              simp
        · rw [if_neg h5] at hcore
          simp at hcore

theorem shouldVisit_mono (cfg : Config) (robots : Option RobotsPolicy)
    (u su : String) (st : List (String × Bool)) {b : Bool}
    {st2 : List (String × Bool)} (cat : String)
    (h : shouldVisit cfg robots u su st = some (b, st2))
    (hc : mapGet st cat = true) : mapGet st2 cat = true := by
  unfold shouldVisit at h
  cases h1 : parseURL1 u with
  | none => rw [h1] at h; simp at h
  | some t =>
    rw [h1] at h
    cases h2 : parseURL1 su with
    | none => rw [h2] at h; simp at h
    | some s =>
      rw [h2] at h
      have h3 : shouldVisitCore cfg robots u t s st = (b, st2) := by
        have h4 : some (shouldVisitCore cfg robots u t s st) = some (b, st2) := h
        injection h4
      have h6 : (shouldVisitCore cfg robots u t s st).2 = st2 :=
        congrArg Prod.snd h3
      rw [← h6]
      exact shouldVisitCore_mono cfg robots u t s st cat hc

theorem harvestGo_mono (cfg : Config) (robots : Option RobotsPolicy)
    (maxPages : Nat) (start url : String) (depth : Nat) (visited : List String)
    (cat : String) :
    ∀ (links : List String) (queue : List Cap.Task) (sm : List (String × Bool))
      (queue2 : List Cap.Task) (sm2 : List (String × Bool)),
      harvestGo cfg robots maxPages start url depth visited links queue sm
        = some (queue2, sm2) →
      mapGet sm cat = true → mapGet sm2 cat = true := by
  intro links
  induction links with
  | nil =>
    intro queue sm q2 sm2 h hc
    simp only [harvestGo, Option.some.injEq, Prod.mk.injEq] at h
    rw [← h.2]
    exact hc
  | cons raw rest ih =>
    intro queue sm q2 sm2 h hc
    simp only [harvestGo] at h
    cases hn : normalizeUrl raw url with
    | none =>
      rw [hn] at h
      exact ih queue sm q2 sm2 h hc
    | some abs =>
      rw [hn] at h
      have h2 : (if (abs == "" || visited.contains abs) = true then
          harvestGo cfg robots maxPages start url depth visited rest queue sm
        else
          match shouldVisit cfg robots abs start sm with
          | none => none
          | some (false, sm3) =>
            harvestGo cfg robots maxPages start url depth visited rest queue sm3
          | some (true, sm3) =>
            if maxPages ≤ (queue ++ [Cap.Task.mk start abs (depth + 1)]).length + visited.length then
              some ((queue ++ [Cap.Task.mk start abs (depth + 1)]), sm3)
            else harvestGo cfg robots maxPages start url depth visited rest
              (queue ++ [Cap.Task.mk start abs (depth + 1)]) sm3) = some (q2, sm2) := h
      by_cases hv : (abs == "" || visited.contains abs) = true
      · rw [if_pos hv] at h2
        exact ih queue sm q2 sm2 h2 hc
      · rw [if_neg hv] at h2
        cases hsv : shouldVisit cfg robots abs start sm with
        | none => rw [hsv] at h2; cases h2
        | some p =>
          rw [hsv] at h2
          obtain ⟨pb, psm⟩ := p
          have hpsm : mapGet psm cat = true :=
            shouldVisit_mono cfg robots abs start sm cat hsv hc
          cases pb with
          | false =>
            have h3 : harvestGo cfg robots maxPages start url depth visited rest
                queue psm = some (q2, sm2) := h2
            exact ih queue psm q2 sm2 h3 hpsm
          | true =>
            have h3 : (if maxPages ≤ (queue ++ [Cap.Task.mk start abs (depth + 1)]).length
                  + visited.length then
                some ((queue ++ [Cap.Task.mk start abs (depth + 1)]), psm)
              else harvestGo cfg robots maxPages start url depth visited rest
                (queue ++ [Cap.Task.mk start abs (depth + 1)]) psm) = some (q2, sm2) := h2
            by_cases hq : maxPages ≤ (queue ++ [Cap.Task.mk start abs (depth + 1)]).length
                + visited.length
            · rw [if_pos hq] at h3
              simp only [Option.some.injEq, Prod.mk.injEq] at h3
              rw [← h3.2]
              exact hpsm
            · rw [if_neg hq] at h3
              exact ih _ psm q2 sm2 h3 hpsm

theorem stepTask_mono (cfg : Config) (robots : Option RobotsPolicy)
    (maxPages maxDepth : Nat) (env : Cap.Env) (st st' : LoopState) (cat : String)
    (h : stepTask cfg robots maxPages maxDepth env st = some st')
    (hc : mapGet st.sample cat = true) : mapGet st'.sample cat = true := by
  obtain ⟨q, vis, cap, sm⟩ := st
  have hc2 : mapGet sm cat = true := hc
  cases q with
  | nil =>
    simp only [stepTask] at h
    injection h with h2
    rw [← h2]
    exact hc2
  | cons tk qrest =>
    simp only [stepTask] at h
    by_cases hv : (vis.contains tk.url) = true
    · rw [if_pos hv] at h
      injection h with h2
      rw [← h2]
      exact hc2
    · rw [if_neg hv] at h
      cases hsv : shouldVisit cfg robots tk.url tk.start sm with
      | none => rw [hsv] at h; cases h
      | some p =>
        rw [hsv] at h
        obtain ⟨pb, psm⟩ := p
        have hpsm : mapGet psm cat = true :=
          shouldVisit_mono cfg robots tk.url tk.start sm cat hsv hc2
        cases pb with
        | false =>
          have h2 : some (LoopState.mk qrest vis cap psm) = some st' := h
          injection h2 with h3
          rw [← h3]
          exact hpsm
        | true =>
          have h2 : (if maxDepth ≤ tk.depth then
              some (LoopState.mk qrest (vis ++ [tk.url]) (cap ++
                (env.devices.filter (fun d => env.captureOk tk.url d)).map
                  (fun d => (tk.url, d))) psm)
            else
              match harvestGo cfg robots maxPages tk.start tk.url tk.depth
                  (vis ++ [tk.url]) (env.links tk.url) qrest psm with
              | none => none
              | some (queue2, sm3) =>
                some (LoopState.mk queue2 (vis ++ [tk.url]) (cap ++
                  (env.devices.filter (fun d => env.captureOk tk.url d)).map
                    (fun d => (tk.url, d))) sm3)) = some st' := h
          by_cases hd : maxDepth ≤ tk.depth
          · rw [if_pos hd] at h2
            injection h2 with h3
            rw [← h3]
            exact hpsm
          · rw [if_neg hd] at h2
            cases hh : harvestGo cfg robots maxPages tk.start tk.url tk.depth
                (vis ++ [tk.url]) (env.links tk.url) qrest psm with
            | none => rw [hh] at h2; cases h2
            | some r =>
              rw [hh] at h2
              obtain ⟨queue2, sm3⟩ := r
              have h3 : some (LoopState.mk queue2 (vis ++ [tk.url]) (cap ++
                  (env.devices.filter (fun d => env.captureOk tk.url d)).map
                    (fun d => (tk.url, d))) sm3) = some st' := h2
              injection h3 with h4
              rw [← h4]
              exact harvestGo_mono cfg robots maxPages tk.start tk.url tk.depth
                (vis ++ [tk.url]) cat (env.links tk.url) qrest psm queue2 sm3 hh hpsm

theorem run_mono (cfg : Config) (robots : Option RobotsPolicy)
    (maxPages maxDepth : Nat) (env : Cap.Env) (cat : String) :
    ∀ (fuel : Nat) (st st' : LoopState),
      run cfg robots maxPages maxDepth env fuel st = some st' →
      mapGet st.sample cat = true → mapGet st'.sample cat = true := by
  intro fuel
  induction fuel with
  | zero =>
    intro st st' h hc
    simp only [run] at h
    injection h with h2
    rw [← h2]
    exact hc
  | succ fuel ih =>
    intro st st' h hc
    simp only [run] at h
    by_cases hg : (st.queue.isEmpty || decide (maxPages ≤ st.visited.length)) = true
    · rw [if_pos hg] at h
      injection h with h2
      rw [← h2]
      exact hc
    · rw [if_neg hg] at h
      cases hstep : stepTask cfg robots maxPages maxDepth env st with
      | none => rw [hstep] at h; cases h
      | some st2 =>
        rw [hstep] at h
        exact ih st2 st' h
          (stepTask_mono cfg robots maxPages maxDepth env st st2 cat hstep hc)

theorem stepTask_reject (cfg : Config) (robots : Option RobotsPolicy)
    (maxPages maxDepth : Nat) (env : Cap.Env) (st : LoopState) (tk : Cap.Task)
    (qrest : List Cap.Task) (sm2 : List (String × Bool))
    (hq : st.queue = tk :: qrest) (hnv : st.visited.contains tk.url = false)
    (hsv : shouldVisit cfg robots tk.url tk.start st.sample = some (false, sm2)) :
    stepTask cfg robots maxPages maxDepth env st
      = some ⟨qrest, st.visited, st.captured, sm2⟩ := by
  obtain ⟨q, vis, cap, sm⟩ := st
  have hq2 : q = tk :: qrest := hq
  subst hq2
  have hnv2 : vis.contains tk.url = false := hnv
  have hsv2 : shouldVisit cfg robots tk.url tk.start sm = some (false, sm2) := hsv
  simp only [stepTask]
  rw [if_neg (by rw [hnv2]; simp), hsv2]

end Samp

/-- Claim C3: the admission check runs both at enqueue and at dequeue time,
and the sample exception is one-shot, so a URL admitted only via the
exception at enqueue time is rejected at dequeue time and never visited or
captured.  Formally: (i) an admission through the skip branch names a
category that is consumed in the post-state, and `shouldVisit` of the same
URL rejects — without touching the registry — from any state in which that
category is consumed; (ii) consumption survives every step of the crawl
loop (`run` only ever sets registry entries to `true`); (iii) dequeuing a
task whose admission check answers `false` pops it and leaves `visited` and
`captured` unchanged, so the page is neither visited nor captured; (iv) the
seed tasks enter the queue without any admission check (only sitemap
entries are checked). -/
theorem sample_admitted_once_never_visited :
    (∀ (cfg : Samp.Config) (robots : Option RobotsPolicy) (targetUrl : String)
        (t s : URLRec) (st st2 : List (String × Bool)),
      (cfg.skipPatterns.any (fun p => regexTestI p targetUrl)) = true →
      Samp.shouldVisitCore cfg robots targetUrl t s st = (true, st2) →
      ∃ cat, Samp.getMatchedCategory cfg.samplePatterns t.pathname = some cat ∧
        Samp.mapGet st2 cat = true ∧
        ∀ st3, Samp.mapGet st3 cat = true →
          Samp.shouldVisitCore cfg robots targetUrl t s st3 = (false, st3)) ∧
    (∀ (cfg : Samp.Config) (robots : Option RobotsPolicy) (maxPages maxDepth : Nat)
        (env : Cap.Env) (fuel : Nat) (st st' : Samp.LoopState) (cat : String),
      Samp.run cfg robots maxPages maxDepth env fuel st = some st' →
      Samp.mapGet st.sample cat = true → Samp.mapGet st'.sample cat = true) ∧
    (∀ (cfg : Samp.Config) (robots : Option RobotsPolicy) (maxPages maxDepth : Nat)
        (env : Cap.Env) (st : Samp.LoopState) (tk : Cap.Task)
        (qrest : List Cap.Task) (sm2 : List (String × Bool)),
      st.queue = tk :: qrest → st.visited.contains tk.url = false →
      Samp.shouldVisit cfg robots tk.url tk.start st.sample = some (false, sm2) →
      Samp.stepTask cfg robots maxPages maxDepth env st
        = some ⟨qrest, st.visited, st.captured, sm2⟩) ∧
    (∀ (cfg : Samp.Config) (robots : Option RobotsPolicy) (startUrls : List String)
        (start0 : String) (sm : List (String × Bool)),
      Samp.initQueue cfg robots startUrls start0 none sm
        = (startUrls.map (fun u => ⟨u, u, 0⟩), sm)) := by
  refine ⟨?_, ?_, ?_, ?_⟩
  · intro cfg robots targetUrl t s st st2 hskip hcore
    exact Samp.shouldVisitCore_consumes cfg robots targetUrl t s st st2 hskip hcore
  · intro cfg robots maxPages maxDepth env fuel st st' cat hrun hc
    exact Samp.run_mono cfg robots maxPages maxDepth env cat fuel st st' hrun hc
  · intro cfg robots maxPages maxDepth env st tk qrest sm2 hq hnv hsv
    exact Samp.stepTask_reject cfg robots maxPages maxDepth env st tk qrest sm2 hq hnv hsv
  · intro cfg robots startUrls start0 sm
    rfl

/-- Witness for claim C3: with skip and sample pattern `blog` and the `blog`
category already consumed, dequeuing `/blog/post-1` pops the task and leaves
`visited` and `captured` empty — the page is not visited. -/
theorem sample_admitted_once_never_visited_witness :
    Samp.stepTask ⟨true, "none", false, ["blog"], true, ["blog"]⟩ none 10 0
        ⟨["desktop"], fun _ _ => true, fun _ => []⟩
        ⟨[⟨"https://site.test/", "https://site.test/blog/post-1", 0⟩], [], [],
          [("blog", true)]⟩
      = some ⟨[], [], [], [("blog", true)]⟩ :=
  sample_admitted_once_never_visited.2.2.1 ⟨true, "none", false, ["blog"], true, ["blog"]⟩
    none 10 0 ⟨["desktop"], fun _ _ => true, fun _ => []⟩
    ⟨[⟨"https://site.test/", "https://site.test/blog/post-1", 0⟩], [], [],
      [("blog", true)]⟩
    ⟨"https://site.test/", "https://site.test/blog/post-1", 0⟩ [] [("blog", true)]
    rfl (by decide) (by decide)

/-! ### part_001 §2: layout fingerprint deduplication -/

namespace Layo

/-- JS `ToInt32`. -/
def toInt32 (x : Int) : Int := (x + 2 ^ 31) % 2 ^ 32 - 2 ^ 31

/-- One step of `h = ((h<<5)+h) + s.charCodeAt(i)`: `<<` coerces to int32
and wraps, the two additions are exact number arithmetic. -/
def hashStep (h : Int) (c : Nat) : Int := toInt32 (toInt32 h * 32) + h + c

/-- `hashString` (djb2 variant): fold the steps from 5381, then `h>>>0`
(ToUint32).  The source renders the result with `toString(36)`, an injective
map from this number, so the fingerprint is modelled by the number itself.
`charCodeAt` is taken as the code point (signatures are BMP text). -/
def hashString (s : String) : Nat :=
  ((s.data.foldl (fun (h : Int) (c : Char) => hashStep h c.toNat) 5381) % 2 ^ 32).toNat

/-- `shouldSkipByLayout(sig, url)` with the global `seenLayouts` Set threaded
explicitly: no skip when dedup is off or the URL matches an ignore pattern;
otherwise skip iff the fingerprint was seen, recording it when it was not. -/
def shouldSkipByLayout (layoutDedup : Bool) (ignorePatterns : List String)
    (sig url : String) (seen : List Nat) : Bool × List Nat :=
  if !layoutDedup then (false, seen)
  else if ignorePatterns.any (fun p => !(p == "") && regexTestI p url) then
    (false, seen)
  else
    let key := hashString sig
    if seen.contains key then (true, seen)
    else (false, seen ++ [key])

/-- Oracles of the part_001 §2 device loop: whether navigation and settling
reach the layout check, the sampled layout signature, whether the screenshot
block completes, and the harvested links. -/
structure Env where
  devices : List String
  navOk : String → String → Bool
  sigOf : String → String → String
  shotOk : String → String → Bool
  links : String → List String

/-- The `for (const dev of contexts)` body: on reaching the layout check the
fingerprint set is consulted (and possibly extended); a hit skips the
screenshot (`continue`), otherwise a completed screenshot appends a manifest
record.  A throw before the check leaves the set untouched; a throw after it
(during the screenshot) keeps the recorded fingerprint. -/
def deviceLoop (layoutDedup : Bool) (ignorePatterns : List String) (env : Env)
    (url : String) : List String → List (String × String) → List Nat →
      List (String × String) × List Nat
  | [], cap, seen => (cap, seen)
  | d :: rest, cap, seen =>
    if env.navOk url d then
      let r := shouldSkipByLayout layoutDedup ignorePatterns (env.sigOf url d) url seen
      if r.1 then deviceLoop layoutDedup ignorePatterns env url rest cap r.2
      else if env.shotOk url d then
        deviceLoop layoutDedup ignorePatterns env url rest (cap ++ [(url, d)]) r.2
      else deviceLoop layoutDedup ignorePatterns env url rest cap r.2
    else deviceLoop layoutDedup ignorePatterns env url rest cap seen

/-- The part_001 §2 crawl state: queue, visited Set, manifest records as
their `(url, device)` pairs, and the `seenLayouts` fingerprints. -/
structure LoopState where
  queue : List Cap.Task
  visited : List String
  captured : List (String × String)
  seen : List Nat
deriving Repr, DecidableEq

/-- One iteration of the part_001 §2 `while` body: admission (capture.mjs
style `shouldVisit`), `visited.add`, the device loop with the layout check,
then link harvesting below the depth limit — harvesting is not affected by
layout skips. -/
def stepTask (cfg : Cap.Config) (robots : Option RobotsPolicy)
    (maxPages maxDepth : Nat) (layoutDedup : Bool) (ignorePatterns : List String)
    (env : Env) (st : LoopState) : Option LoopState :=
  match st.queue with
  | [] => some st
  | tk :: qrest =>
    if st.visited.contains tk.url then
      some ⟨qrest, st.visited, st.captured, st.seen⟩
    else
      match Cap.shouldVisit cfg robots tk.url tk.start with
      | none => none
      | some false => some ⟨qrest, st.visited, st.captured, st.seen⟩
      | some true =>
        let visited2 := st.visited ++ [tk.url]
        let r := deviceLoop layoutDedup ignorePatterns env tk.url env.devices
          st.captured st.seen
        if maxDepth ≤ tk.depth then some ⟨qrest, visited2, r.1, r.2⟩
        else
          match Cap.harvestGo cfg robots maxPages tk.start tk.url tk.depth visited2
              (env.links tk.url) qrest with
          | none => none
          | some queue2 => some ⟨queue2, visited2, r.1, r.2⟩

/-- The part_001 §2 crawl loop with explicit fuel. -/
def run (cfg : Cap.Config) (robots : Option RobotsPolicy)
    (maxPages maxDepth : Nat) (layoutDedup : Bool) (ignorePatterns : List String)
    (env : Env) : Nat → LoopState → Option LoopState
  | 0, st => some st
  | fuel + 1, st =>
    if st.queue.isEmpty || decide (maxPages ≤ st.visited.length) then some st
    else
      match stepTask cfg robots maxPages maxDepth layoutDedup ignorePatterns env st with
      | none => none
      | some st2 => run cfg robots maxPages maxDepth layoutDedup ignorePatterns env fuel st2

theorem shouldSkipByLayout_miss (ign : List String) (sig url : String)
    (seen : List Nat)
    (hig : ign.any (fun p => !(p == "") && regexTestI p url) = false)
    (hk : seen.contains (hashString sig) = false) :
    shouldSkipByLayout true ign sig url seen = (false, seen ++ [hashString sig]) := by
  unfold shouldSkipByLayout
  rw [if_neg (by simp), if_neg (by simp [hig])]
  show (if seen.contains (hashString sig) = true then ((true : Bool), seen)
    else (false, seen ++ [hashString sig])) = _
  rw [if_neg (by rw [hk]; simp)]

theorem shouldSkipByLayout_hit (ign : List String) (sig url : String)
    (seen : List Nat)
    (hig : ign.any (fun p => !(p == "") && regexTestI p url) = false)
    (hk : seen.contains (hashString sig) = true) :
    shouldSkipByLayout true ign sig url seen = (true, seen) := by
  unfold shouldSkipByLayout
  rw [if_neg (by simp), if_neg (by simp [hig])]
  show (if seen.contains (hashString sig) = true then ((true : Bool), seen)
    else (false, seen ++ [hashString sig])) = _
  rw [if_pos hk]

theorem deviceLoop_capture (ld : Bool) (ign : List String) (env : Env)
    (url d : String) (cap : List (String × String)) (seen seen2 : List Nat)
    (hnav : env.navOk url d = true)
    (hr : shouldSkipByLayout ld ign (env.sigOf url d) url seen = (false, seen2))
    (hshot : env.shotOk url d = true) :
    deviceLoop ld ign env url [d] cap seen = (cap ++ [(url, d)], seen2) := by
  unfold deviceLoop
  rw [if_pos hnav]
  show (if (shouldSkipByLayout ld ign (env.sigOf url d) url seen).1 = true then
      deviceLoop ld ign env url []
        cap (shouldSkipByLayout ld ign (env.sigOf url d) url seen).2
    else if env.shotOk url d = true then
      deviceLoop ld ign env url []
        (cap ++ [(url, d)]) (shouldSkipByLayout ld ign (env.sigOf url d) url seen).2
    else deviceLoop ld ign env url []
      cap (shouldSkipByLayout ld ign (env.sigOf url d) url seen).2) = _
  rw [hr]
  rw [if_neg (by simp), if_pos hshot]
  rfl

theorem deviceLoop_skip (ld : Bool) (ign : List String) (env : Env)
    (url d : String) (cap : List (String × String)) (seen seen2 : List Nat)
    (hnav : env.navOk url d = true)
    (hr : shouldSkipByLayout ld ign (env.sigOf url d) url seen = (true, seen2)) :
    deviceLoop ld ign env url [d] cap seen = (cap, seen2) := by
  unfold deviceLoop
  rw [if_pos hnav]
  show (if (shouldSkipByLayout ld ign (env.sigOf url d) url seen).1 = true then
      deviceLoop ld ign env url []
        cap (shouldSkipByLayout ld ign (env.sigOf url d) url seen).2
    else if env.shotOk url d = true then
      deviceLoop ld ign env url []
        (cap ++ [(url, d)]) (shouldSkipByLayout ld ign (env.sigOf url d) url seen).2
    else deviceLoop ld ign env url []
      cap (shouldSkipByLayout ld ign (env.sigOf url d) url seen).2) = _
  rw [hr]
  rw [if_pos (by simp)]
  rfl

theorem stepTask_admitted (cfg : Cap.Config) (robots : Option RobotsPolicy)
    (maxPages maxDepth : Nat) (ld : Bool) (ign : List String) (env : Env)
    (vis : List String) (cap : List (String × String)) (seen : List Nat)
    (tk : Cap.Task) (qrest q2 : List Cap.Task)
    (hv : vis.contains tk.url = false)
    (hs : Cap.shouldVisit cfg robots tk.url tk.start = some true)
    (hd : ¬(maxDepth ≤ tk.depth))
    (hh : Cap.harvestGo cfg robots maxPages tk.start tk.url tk.depth
      (vis ++ [tk.url]) (env.links tk.url) qrest = some q2) :
    stepTask cfg robots maxPages maxDepth ld ign env ⟨tk :: qrest, vis, cap, seen⟩
      = some ⟨q2, vis ++ [tk.url],
          (deviceLoop ld ign env tk.url env.devices cap seen).1,
          (deviceLoop ld ign env tk.url env.devices cap seen).2⟩ := by
  simp only [stepTask]
  rw [if_neg (by rw [hv]; simp), hs]
  show (if maxDepth ≤ tk.depth then
      some (LoopState.mk qrest (vis ++ [tk.url])
        (deviceLoop ld ign env tk.url env.devices cap seen).1
        (deviceLoop ld ign env tk.url env.devices cap seen).2)
    else
      match Cap.harvestGo cfg robots maxPages tk.start tk.url tk.depth
          (vis ++ [tk.url]) (env.links tk.url) qrest with
      | none => none
      | some queue2 =>
        some (LoopState.mk queue2 (vis ++ [tk.url])
          (deviceLoop ld ign env tk.url env.devices cap seen).1
          (deviceLoop ld ign env tk.url env.devices cap seen).2)) = _
  rw [if_neg hd, hh]

end Layo

/-- Claim C10: with layout deduplication on, when two consecutively visited
pages (a single configured device) have signatures hashing to the same
fingerprint and neither URL matches an ignore pattern, the two-iteration run
adds both URLs to `visited` and harvests links for both (the queue advances
through `harvestGo` for each), but only the first page appends a manifest
record — the fingerprint set suppresses only the capture, never the
traversal. -/
theorem layout_dedup_only_skips_capture
    (cfg : Cap.Config) (robots : Option RobotsPolicy) (maxPages maxDepth : Nat)
    (ign : List String) (env : Layo.Env) (tkA tkB : Cap.Task)
    (restB qA2 qB2 : List Cap.Task) (vis : List String)
    (cap : List (String × String)) (seen : List Nat) (d : String)
    (hdev : env.devices = [d])
    (hg2 : vis.length + 1 < maxPages)
    (hvA : vis.contains tkA.url = false)
    (hvB : (vis ++ [tkA.url]).contains tkB.url = false)
    (hsA : Cap.shouldVisit cfg robots tkA.url tkA.start = some true)
    (hsB : Cap.shouldVisit cfg robots tkB.url tkB.start = some true)
    (hdA : ¬(maxDepth ≤ tkA.depth)) (hdB : ¬(maxDepth ≤ tkB.depth))
    (hhA : Cap.harvestGo cfg robots maxPages tkA.start tkA.url tkA.depth
      (vis ++ [tkA.url]) (env.links tkA.url) (tkB :: restB) = some (tkB :: qA2))
    (hhB : Cap.harvestGo cfg robots maxPages tkB.start tkB.url tkB.depth
      (vis ++ [tkA.url] ++ [tkB.url]) (env.links tkB.url) qA2 = some qB2)
    (hnavA : env.navOk tkA.url d = true) (hshotA : env.shotOk tkA.url d = true)
    (hnavB : env.navOk tkB.url d = true)
    (higA : ign.any (fun p => !(p == "") && regexTestI p tkA.url) = false)
    (higB : ign.any (fun p => !(p == "") && regexTestI p tkB.url) = false)
    (hkA : seen.contains (Layo.hashString (env.sigOf tkA.url d)) = false)
    (hhash : Layo.hashString (env.sigOf tkB.url d)
      = Layo.hashString (env.sigOf tkA.url d)) :
    Layo.run cfg robots maxPages maxDepth true ign env 2
        ⟨tkA :: tkB :: restB, vis, cap, seen⟩
      = some ⟨qB2, vis ++ [tkA.url] ++ [tkB.url], cap ++ [(tkA.url, d)],
          seen ++ [Layo.hashString (env.sigOf tkA.url d)]⟩ := by
  have hdlA : Layo.deviceLoop true ign env tkA.url env.devices cap seen
      = (cap ++ [(tkA.url, d)], seen ++ [Layo.hashString (env.sigOf tkA.url d)]) := by
    rw [hdev]
    exact Layo.deviceLoop_capture true ign env tkA.url d cap seen
      (seen ++ [Layo.hashString (env.sigOf tkA.url d)]) hnavA
      (Layo.shouldSkipByLayout_miss ign (env.sigOf tkA.url d) tkA.url seen higA hkA)
      hshotA
  have hstepA : Layo.stepTask cfg robots maxPages maxDepth true ign env
      ⟨tkA :: tkB :: restB, vis, cap, seen⟩
      = some ⟨tkB :: qA2, vis ++ [tkA.url], cap ++ [(tkA.url, d)],
          seen ++ [Layo.hashString (env.sigOf tkA.url d)]⟩ := by
    rw [Layo.stepTask_admitted cfg robots maxPages maxDepth true ign env
      vis cap seen tkA (tkB :: restB) (tkB :: qA2) hvA hsA hdA hhA, hdlA]
  have hkB : (seen ++ [Layo.hashString (env.sigOf tkA.url d)]).contains
      (Layo.hashString (env.sigOf tkB.url d)) = true := by
    rw [hhash]
    simp
  have hdlB : Layo.deviceLoop true ign env tkB.url env.devices
      (cap ++ [(tkA.url, d)]) (seen ++ [Layo.hashString (env.sigOf tkA.url d)])
      = (cap ++ [(tkA.url, d)], seen ++ [Layo.hashString (env.sigOf tkA.url d)]) := by
    rw [hdev]
    exact Layo.deviceLoop_skip true ign env tkB.url d (cap ++ [(tkA.url, d)])
      (seen ++ [Layo.hashString (env.sigOf tkA.url d)])
      (seen ++ [Layo.hashString (env.sigOf tkA.url d)]) hnavB
      (Layo.shouldSkipByLayout_hit ign (env.sigOf tkB.url d) tkB.url
        (seen ++ [Layo.hashString (env.sigOf tkA.url d)]) higB hkB)
  have hstepB : Layo.stepTask cfg robots maxPages maxDepth true ign env
      ⟨tkB :: qA2, vis ++ [tkA.url], cap ++ [(tkA.url, d)],
        seen ++ [Layo.hashString (env.sigOf tkA.url d)]⟩
      = some ⟨qB2, vis ++ [tkA.url] ++ [tkB.url], cap ++ [(tkA.url, d)],
          seen ++ [Layo.hashString (env.sigOf tkA.url d)]⟩ := by
    rw [Layo.stepTask_admitted cfg robots maxPages maxDepth true ign env
      (vis ++ [tkA.url]) (cap ++ [(tkA.url, d)])
      (seen ++ [Layo.hashString (env.sigOf tkA.url d)]) tkB qA2 qB2
      hvB hsB hdB hhB, hdlB]
  show (if (tkA :: tkB :: restB).isEmpty || decide (maxPages ≤ vis.length) then
      some (Layo.LoopState.mk (tkA :: tkB :: restB) vis cap seen)
    else
      match Layo.stepTask cfg robots maxPages maxDepth true ign env
          ⟨tkA :: tkB :: restB, vis, cap, seen⟩ with
      | none => none
      | some st2 => Layo.run cfg robots maxPages maxDepth true ign env 1 st2) = _
  rw [if_neg (by simp only [List.isEmpty_cons, Bool.false_or,
    decide_eq_true_eq]; omega), hstepA]
  show Layo.run cfg robots maxPages maxDepth true ign env 1
      ⟨tkB :: qA2, vis ++ [tkA.url], cap ++ [(tkA.url, d)],
        seen ++ [Layo.hashString (env.sigOf tkA.url d)]⟩ = _
  show (if (tkB :: qA2).isEmpty
        || decide (maxPages ≤ (vis ++ [tkA.url]).length) then
      some (Layo.LoopState.mk (tkB :: qA2) (vis ++ [tkA.url])
        (cap ++ [(tkA.url, d)]) (seen ++ [Layo.hashString (env.sigOf tkA.url d)]))
    else
      match Layo.stepTask cfg robots maxPages maxDepth true ign env
          ⟨tkB :: qA2, vis ++ [tkA.url], cap ++ [(tkA.url, d)],
            seen ++ [Layo.hashString (env.sigOf tkA.url d)]⟩ with
      | none => none
      | some st2 => Layo.run cfg robots maxPages maxDepth true ign env 0 st2) = _
  rw [if_neg (by simp only [List.isEmpty_cons, Bool.false_or, List.length_append,
    List.length_singleton, decide_eq_true_eq]; omega), hstepB]
  rfl

/-- Witness for claim C10: two pages with the same constant signature on one
device — both visited, one manifest record, one recorded fingerprint. -/
theorem layout_dedup_only_skips_capture_witness :
    Layo.run ⟨[], true, "none", false⟩ none 10 1 true []
        ⟨["D"], fun _ _ => true, fun _ _ => "DIV.nav|DIV.hero", fun _ _ => true,
          fun _ => []⟩ 2
        ⟨[⟨"https://a.test/", "https://a.test/x", 0⟩,
          ⟨"https://a.test/", "https://a.test/y", 0⟩], [], [], []⟩
      = some ⟨[], ["https://a.test/x", "https://a.test/y"],
          [("https://a.test/x", "D")], [Layo.hashString "DIV.nav|DIV.hero"]⟩ :=
  layout_dedup_only_skips_capture ⟨[], true, "none", false⟩ none 10 1 []
    ⟨["D"], fun _ _ => true, fun _ _ => "DIV.nav|DIV.hero", fun _ _ => true,
      fun _ => []⟩
    ⟨"https://a.test/", "https://a.test/x", 0⟩
    ⟨"https://a.test/", "https://a.test/y", 0⟩ [] [] [] [] [] [] "D"
    rfl (by decide) (by decide) (by decide) (by rfl) (by rfl)
    (by decide) (by decide) (by rfl) (by rfl) (by rfl) (by rfl) (by rfl)
    (by rfl) (by rfl) (by rfl) rfl

end SiteCapture
